import Mathlib

/-!
# Verification of the LSM storage-engine core

A shallow embedding of the engine's components (WAL record codec and reader,
skip list, memtable manager, bloom filter, block builder, SSTable builder and
reader), with theorems settling the specification claims.

Byte sequences (`Vec<u8>`, `&[u8]`) are modelled as `List Nat`; machine-integer
casts are explicit `% 2^w` operations.  Functions whose Rust originals may
panic or may fail to terminate on ill-formed states return `Option`; on states
satisfying the proved invariants they always return `some`.
-/

set_option maxHeartbeats 1000000
set_option maxRecDepth 4000

/-- Raw byte strings (`Vec<u8>` / `&[u8]`): lists of naturals, a well-formed
byte being `< 256`. -/
abbrev Bytes := List Nat

/-- `u32::to_le_bytes`: the four little-endian base-256 digits.  Depends only
on `n % 2^32`, which models the `as u32` cast. -/
def le32 (n : Nat) : Bytes :=
  [n % 256, n / 256 % 256, n / 2 ^ 16 % 256, n / 2 ^ 24 % 256]

/-- `u16::to_le_bytes`. -/
def le16 (n : Nat) : Bytes := [n % 256, n / 256 % 256]

/-- `u64::to_le_bytes`. -/
def le64 (n : Nat) : Bytes :=
  [n % 256, n / 256 % 256, n / 2 ^ 16 % 256, n / 2 ^ 24 % 256,
   n / 2 ^ 32 % 256, n / 2 ^ 40 % 256, n / 2 ^ 48 % 256, n / 2 ^ 56 % 256]

/-- Read a little-endian `u32` at offset `off` (callers check bounds first,
as the Rust code does before `try_into`). -/
def readLE32 (d : Bytes) (off : Nat) : Nat :=
  d.getD off 0 + d.getD (off + 1) 0 * 256 + d.getD (off + 2) 0 * 2 ^ 16 +
    d.getD (off + 3) 0 * 2 ^ 24

/-- Read a little-endian `u16` at offset `off`. -/
def readLE16 (d : Bytes) (off : Nat) : Nat :=
  d.getD off 0 + d.getD (off + 1) 0 * 256

/-- Read a little-endian `u64` at offset `off`. -/
def readLE64 (d : Bytes) (off : Nat) : Nat :=
  d.getD off 0 + d.getD (off + 1) 0 * 256 + d.getD (off + 2) 0 * 2 ^ 16 +
    d.getD (off + 3) 0 * 2 ^ 24 + d.getD (off + 4) 0 * 2 ^ 32 +
    d.getD (off + 5) 0 * 2 ^ 40 + d.getD (off + 6) 0 * 2 ^ 48 +
    d.getD (off + 7) 0 * 2 ^ 56

/-- The byte slice `data[a..b]` of a byte string. -/
def byteSlice (d : Bytes) (a b : Nat) : Bytes := (d.drop a).take (b - a)

/-- Lexicographic strict order on byte strings: Rust's `Ord` on `&[u8]`
(`a < b`). -/
def lexLt : Bytes → Bytes → Bool
  | [], [] => false
  | [], _ :: _ => true
  | _ :: _, [] => false
  | a :: as, b :: bs => if a < b then true else if a = b then lexLt as bs else false

/-! ## CRC-32 (the `crc32fast::hash` function)

Standard CRC-32 (IEEE, reflected, polynomial `0xEDB88320`), defined
bit-by-bit; `crc32fast` computes the same function. -/

/-- One bit step of reflected CRC-32. -/
def crcBit (s : Nat) : Nat :=
  if s % 2 = 1 then (s / 2) ^^^ 0xEDB88320 else s / 2

/-- One byte step: xor the byte into the low bits, then eight bit steps. -/
def crcByte (s b : Nat) : Nat := crcBit^[8] (s ^^^ b % 256)

/-- `crc32fast::hash`: init `0xFFFFFFFF`, fold bytes, final complement. -/
def crc32 (data : Bytes) : Nat :=
  (data.foldl crcByte 0xFFFFFFFF) ^^^ 0xFFFFFFFF

/-! ## Error taxonomy (`src/error.rs`) -/

/-- The engine's unified error type.  `io` abstracts the wrapped
`std::io::Error` payload, which the pure model does not inspect. -/
inductive Error where
  | io : Error
  | corruption : String → Error
  | notFound : Error
  | eof : Error
deriving Repr, DecidableEq

/-- `Result<T>` alias. -/
abbrev EResult (α : Type) := Except Error α

/-! ## WAL record codec (`src/wal/record.rs`) -/

/-- Record type stored in the WAL. -/
inductive RecordType where
  | put : RecordType
  | delete : RecordType
deriving Repr, DecidableEq

/-- The discriminant byte of a record type (`RecordType as u8`). -/
def RecordType.toByte : RecordType → Nat
  | .put => 0x01
  | .delete => 0x02

/-- `RecordType::from_u8`. -/
def RecordType.fromByte (b : Nat) : EResult RecordType :=
  if b = 0x01 then .ok .put
  else if b = 0x02 then .ok .delete
  else .error (.corruption s!"invalid record type: {b}")

/-- A single record in the WAL. -/
structure WALRecord where
  record_type : RecordType
  key : Bytes
  value : Bytes
deriving Repr, DecidableEq

/-- `WALRecord::put`. -/
def WALRecord.mkPut (key value : Bytes) : WALRecord := ⟨.put, key, value⟩

/-- `WALRecord::delete`. -/
def WALRecord.mkDelete (key : Bytes) : WALRecord := ⟨.delete, key, []⟩

/-- The payload length field: `TYPE_SIZE + KEY_LEN_SIZE + key.len() + value.len()`. -/
def WALRecord.payloadLen (r : WALRecord) : Nat := 1 + 4 + r.key.length + r.value.length

/-- The bytes after the CRC field: length, type, key length, key, value.
The `as u32` casts are absorbed by `le32`, which only depends on the argument
modulo `2^32`. -/
def WALRecord.payloadBytes (r : WALRecord) : Bytes :=
  le32 r.payloadLen ++ [r.record_type.toByte] ++ le32 r.key.length ++ r.key ++ r.value

/-- `WALRecord::encode`: CRC over everything after the CRC field, then the
payload bytes. -/
def WALRecord.encode (r : WALRecord) : Bytes :=
  le32 (crc32 r.payloadBytes) ++ r.payloadBytes

/-- `WALRecord::encoded_size`. -/
def WALRecord.encodedSize (r : WALRecord) : Nat := 13 + r.key.length + r.value.length

/-- `WALRecord::decode`. -/
def WALRecord.decode (data : Bytes) : EResult WALRecord :=
  if data.length < 13 then .error (.corruption "record too short")
  else
    let stored_crc := readLE32 data 0
    let payload_len := readLE32 data 4
    let total_len := 4 + 4 + payload_len
    if data.length < total_len then .error (.corruption "record truncated")
    else
      let computed_crc := crc32 (byteSlice data 4 total_len)
      if stored_crc ≠ computed_crc then .error (.corruption "CRC mismatch")
      else
        match RecordType.fromByte (data.getD 8 0) with
        | .error e => .error e
        | .ok record_type =>
          let key_len := readLE32 data 9
          if 13 + key_len > total_len then
            .error (.corruption "key length exceeds record")
          else
            .ok ⟨record_type, byteSlice data 13 (13 + key_len), byteSlice data (13 + key_len) total_len⟩

/-- A record whose on-disk size fields do not overflow their `u32` casts:
this holds for every record a real WAL contains (keys and values are bounded
by the memtable size). -/
def WALRecord.sizeWf (r : WALRecord) : Prop := 5 + r.key.length + r.value.length < 2 ^ 32

instance (r : WALRecord) : Decidable r.sizeWf := by
  unfold WALRecord.sizeWf; infer_instance

/-! ## WAL iterator (`src/wal/reader.rs`)

`WALIterator::next` decodes at the current offset, yields `Ok` and advances
by the record's encoded size, and ends iteration on any decode error.  The
sequence of yielded items is collected into a list. -/

/-- The iterator loop with explicit fuel (each step consumes at least 13
bytes, so fuel `data.length` is always enough; see `walItemsF_of_le`). -/
def walItemsF : Nat → Bytes → List (EResult WALRecord)
  | 0, _ => []
  | fuel + 1, data =>
    if data.isEmpty then []
    else
      match WALRecord.decode data with
      | .error _ => []
      | .ok rec => .ok rec :: walItemsF fuel (data.drop rec.encodedSize)

/-- The list of items yielded by `WALIterator` over the buffer `data`. -/
def walItems (data : Bytes) : List (EResult WALRecord) := walItemsF data.length data

/-- `(rs.map WALRecord.encode).flatten`: a WAL file holding the records `rs`
(strictly a sequence of encoded records, no header, no trailer). -/
def encodeAll (rs : List WALRecord) : Bytes := (rs.map WALRecord.encode).flatten

/-- A record whose value is so large that the `payload_len as u32` cast in
`encode` wraps around: the witness refuting the unbounded round-trip claim. -/
def walBigRecord : WALRecord := ⟨.put, [], List.replicate (2 ^ 32 - 5) 0⟩

/-! ## Skip list (`src/memtable/skiplist.rs`)

The arena of nodes is a list; forward pointers are arena indices.  Rust loops
that chase pointers are modelled with explicit fuel; `none` stands for a
panic (out-of-bounds index) or non-termination, both of which the proved
invariant excludes.  `random_height()` is drawn from the thread RNG in the
source; here the drawn height is an explicit parameter, always in
`[1, MAX_HEIGHT]`. -/

/-- Maximum height of the skip list (`MAX_HEIGHT`). -/
def MAX_HEIGHT : Nat := 12

/-- A single node: key, value and one forward index per level. -/
structure SkipNode where
  key : Bytes
  value : Bytes
  forward : List (Option Nat)
deriving Repr, DecidableEq

/-- The skip list: arena of nodes (head sentinel at index 0), current height,
entry count. -/
structure SkipList where
  nodes : List SkipNode
  height : Nat
  len : Nat
deriving Repr, DecidableEq

/-- `SkipList::new`. -/
def SkipList.new : SkipList :=
  ⟨[⟨[], [], List.replicate MAX_HEIGHT none⟩], 1, 0⟩

/-- `self.nodes[i]` (`none` models the out-of-bounds panic). -/
def SkipList.nodeAt (s : SkipList) (i : Nat) : Option SkipNode := s.nodes.get? i

/-- `self.nodes[i].forward[level]` (`none` models a panic; `some fwd` is the
stored pointer). -/
def SkipList.slot (s : SkipList) (i level : Nat) : Option (Option Nat) :=
  match s.nodes.get? i with
  | none => none
  | some n => n.forward.get? level

/-- The inner loop of `SkipList::insert` at one level: advance while the next
key is `< key`; `inl j` reports a node with key `= key` (the overwrite
early-return), `inr cur` the node where the loop breaks. -/
def SkipList.insWalk (s : SkipList) (key : Bytes) (level : Nat) :
    Nat → Nat → Option (Sum Nat Nat)
  | 0, _ => none
  | fuel + 1, cur =>
    match s.slot cur level with
    | none => none
    | some none => some (.inr cur)
    | some (some nxt) =>
      match s.nodeAt nxt with
      | none => none
      | some m =>
        if lexLt m.key key then SkipList.insWalk s key level fuel nxt
        else if m.key = key then some (.inl nxt)
        else some (.inr cur)

/-- The `for level in (0..self.height).rev()` descent of `insert`, recording
the predecessor at each level in `upd` (the `update` array). -/
def SkipList.insDescend (s : SkipList) (key : Bytes) (fuel : Nat) :
    Nat → Nat → List Nat → Option (Sum Nat (List Nat))
  | 0, _, upd => some (.inr upd)
  | level + 1, cur, upd =>
    match SkipList.insWalk s key level fuel cur with
    | none => none
    | some (.inl found) => some (.inl found)
    | some (.inr stopped) =>
      SkipList.insDescend s key fuel level stopped (upd.set level stopped)

/-- `update[level] = 0` for the levels `[a, b)` freshly claimed when the new
node is taller than the list. -/
def zeroRange (upd : List Nat) (a b : Nat) : List Nat :=
  (List.range' a (b - a)).foldl (fun u l => u.set l 0) upd

/-- Assign `self.nodes[i].forward[level] = v` (with the bounds checks whose
failure would be a panic). -/
def SkipList.setForward (s : SkipList) (i level : Nat) (v : Option Nat) :
    Option SkipList :=
  match s.nodes.get? i with
  | none => none
  | some n =>
    if level < n.forward.length then
      some { s with nodes := s.nodes.set i { n with forward := n.forward.set level v } }
    else none

/-- One iteration of the splice loop at `level`:
`nodes[new_idx].forward[level] = nodes[upd[level]].forward[level]`, then
`nodes[upd[level]].forward[level] = Some(new_idx)`. -/
def SkipList.spliceOne (s : SkipList) (newIdx pred level : Nat) : Option SkipList :=
  match s.slot pred level with
  | none => none
  | some fwd =>
    match s.setForward newIdx level fwd with
    | none => none
    | some s1 => s1.setForward pred level (some newIdx)

/-- The splice loop over levels `0, 1, ..., m-1` in increasing order. -/
def SkipList.spliceUpTo (s : SkipList) (newIdx : Nat) (upd : List Nat) :
    Nat → Option SkipList
  | 0 => some s
  | m + 1 =>
    match SkipList.spliceUpTo s newIdx upd m with
    | none => none
    | some s1 => s1.spliceOne newIdx (upd.getD m 0) m

/-- `SkipList::insert`, with the height drawn by `random_height()` passed as
the parameter `h`. -/
def SkipList.insert (s : SkipList) (key value : Bytes) (h : Nat) : Option SkipList :=
  match SkipList.insDescend s key s.nodes.length s.height 0
      (List.replicate MAX_HEIGHT 0) with
  | none => none
  | some (.inl found) =>
    match s.nodes.get? found with
    | none => none
    | some n =>
      some { s with nodes := s.nodes.set found { n with value := value } }
  | some (.inr upd) =>
    let newHeight := h
    let upd2 := if s.height < newHeight then zeroRange upd s.height newHeight else upd
    let height2 := if s.height < newHeight then newHeight else s.height
    let newIdx := s.nodes.length
    let s1 : SkipList :=
      { nodes := s.nodes ++ [⟨key, value, List.replicate newHeight none⟩],
        height := height2, len := s.len }
    match SkipList.spliceUpTo s1 newIdx upd2 newHeight with
    | none => none
    | some s2 => some { s2 with len := s2.len + 1 }

/-- The search loop of `SkipList::get` at one level: advance while the next
key is `< key`, and report the node where the loop leaves this level. -/
def SkipList.getWalk (s : SkipList) (key : Bytes) (level : Nat) :
    Nat → Nat → Option Nat
  | 0, _ => none
  | fuel + 1, cur =>
    match s.slot cur level with
    | none => none
    | some none => some cur
    | some (some nxt) =>
      match s.nodeAt nxt with
      | none => none
      | some m =>
        if lexLt m.key key then SkipList.getWalk s key level fuel nxt
        else some cur

/-- The descent of `SkipList::get` from the top level down to level 0
(the single Rust loop walks right, then drops a level, and breaks after
level 0). -/
def SkipList.getDescend (s : SkipList) (key : Bytes) (fuel : Nat) :
    Nat → Nat → Option Nat
  | 0, cur => some cur
  | level + 1, cur =>
    match SkipList.getWalk s key level fuel cur with
    | none => none
    | some e => SkipList.getDescend s key fuel level e

/-- `SkipList::get`: descend to level 0, then check the candidate
`nodes[current].forward[0]`.  The outer `Option` models panics (including the
`self.height - 1` underflow when `height = 0`, which the invariant excludes);
the inner one is the function's own `Option` result. -/
def SkipList.get (s : SkipList) (key : Bytes) : Option (Option Bytes) :=
  if s.height = 0 then none
  else
    match SkipList.getDescend s key s.nodes.length s.height 0 with
    | none => none
    | some cur =>
      match s.slot cur 0 with
      | none => none
      | some none => some none
      | some (some cand) =>
        match s.nodeAt cand with
        | none => none
        | some m => if m.key = key then some (some m.value) else some none

/-- `SkipList::size_bytes` is `todo!("[M03]: Return tracked size")` in the
source: every call panics, so the model never returns a value. -/
def SkipList.size_bytes (_s : SkipList) : Option Nat := none

/-- Walking level 0 from a start pointer, collecting `(key, value)` pairs:
the stream of `SkipListIterator::key/value/advance` until `is_valid` fails. -/
def SkipList.iterFrom (s : SkipList) : Nat → Option Nat → Option (List (Bytes × Bytes))
  | _, none => some []
  | 0, some _ => none
  | fuel + 1, some i =>
    match s.nodeAt i, s.slot i 0 with
    | some n, some nxt =>
      match SkipList.iterFrom s fuel nxt with
      | none => none
      | some rest => some ((n.key, n.value) :: rest)
    | _, _ => none

/-- All entries yielded by `SkipList::iter` in order (the iterator starts at
`nodes[0].forward[0]`). -/
def SkipList.toList (s : SkipList) : Option (List (Bytes × Bytes)) :=
  match s.slot 0 0 with
  | none => none
  | some start => SkipList.iterFrom s s.nodes.length start

/-- Folding a sequence of `insert` calls; each element carries the key, the
value and the height drawn by `random_height()` for that call. -/
def SkipList.insertSeq (s : SkipList) (ops : List (Bytes × Bytes × Nat)) :
    Option SkipList :=
  ops.foldl (fun acc op => acc.bind fun t => t.insert op.1 op.2.1 op.2.2) (some s)

/-! ## Memtable and manager (`src/memtable/mod.rs`) -/

/-- `MemTable`: a skip list plus the configured size limit. -/
structure MemTable where
  data : SkipList
  size_limit : Nat
deriving Repr, DecidableEq

/-- `MemTable::new`. -/
def MemTable.new (size_limit : Nat) : MemTable := ⟨SkipList.new, size_limit⟩

/-- `MemTable::put` (insertion height as in `SkipList.insert`). -/
def MemTable.put (m : MemTable) (key value : Bytes) (h : Nat) : Option MemTable :=
  (m.data.insert key value h).map fun d => { m with data := d }

/-- `MemTable::get`: `None` if absent or tombstoned (empty value). -/
def MemTable.get (m : MemTable) (key : Bytes) : Option (Option Bytes) :=
  match m.data.get key with
  | none => none
  | some (some v) => if v = [] then some none else some (some v)
  | some none => some none

/-- `MemTable::delete`: insert an empty value as a tombstone. -/
def MemTable.delete (m : MemTable) (key : Bytes) (h : Nat) : Option MemTable :=
  (m.data.insert key [] h).map fun d => { m with data := d }

/-- `MemTable::size` forwards `size_bytes` (which panics in the source). -/
def MemTable.size (m : MemTable) : Option Nat := m.data.size_bytes

/-- `MemTable::is_full` compares `size_bytes` with the limit (and hence also
panics in the source). -/
def MemTable.isFull (m : MemTable) : Option Bool :=
  m.data.size_bytes.map fun sz => decide (m.size_limit ≤ sz)

/-- `MemTableManager`: active and optional immutable memtable.  The `RwLock`s
serialize access; the sequential model acts on the quiescent state. -/
structure MemTableManager where
  active : MemTable
  immutable : Option MemTable
  size_limit : Nat
deriving Repr, DecidableEq

/-- `MemTableManager::new`. -/
def MemTableManager.new (size_limit : Nat) : MemTableManager :=
  ⟨MemTable.new size_limit, none, size_limit⟩

/-- `MemTableManager::put`. -/
def MemTableManager.put (mgr : MemTableManager) (key value : Bytes) (h : Nat) :
    Option MemTableManager :=
  (mgr.active.put key value h).map fun a => { mgr with active := a }

/-- `MemTableManager::get`: active first, then the immutable if present. -/
def MemTableManager.get (mgr : MemTableManager) (key : Bytes) : Option (Option Bytes) :=
  match mgr.active.get key with
  | none => none
  | some (some v) => some (some v)
  | some none =>
    match mgr.immutable with
    | some imm =>
      match imm.get key with
      | none => none
      | some r => some r
    | none => some none

/-- `MemTableManager::delete`. -/
def MemTableManager.delete (mgr : MemTableManager) (key : Bytes) (h : Nat) :
    Option MemTableManager :=
  (mgr.active.delete key h).map fun a => { mgr with active := a }

/-- `MemTableManager::freeze`: unconditionally replace the active memtable
with a fresh one and move the old active into the immutable slot. -/
def MemTableManager.freeze (mgr : MemTableManager) : MemTableManager :=
  { mgr with active := MemTable.new mgr.size_limit, immutable := some mgr.active }

/-- `MemTableManager::has_immutable`. -/
def MemTableManager.hasImmutable (mgr : MemTableManager) : Bool :=
  mgr.immutable.isSome

/-- `MemTableManager::clear_immutable`. -/
def MemTableManager.clearImmutable (mgr : MemTableManager) : MemTableManager :=
  { mgr with immutable := none }

/-! ## Skip-list abstraction: chains and the invariant -/

/-- The key of node `i` (default junk for invalid indices). -/
def SkipList.keyOf (s : SkipList) (i : Nat) : Bytes :=
  ((s.nodes.get? i).map SkipNode.key).getD []

/-- The value of node `i`. -/
def SkipList.valOf (s : SkipList) (i : Nat) : Bytes :=
  ((s.nodes.get? i).map SkipNode.value).getD []

/-- The height of node `i` (its number of forward slots). -/
def SkipList.heightOf (s : SkipList) (i : Nat) : Nat :=
  ((s.nodes.get? i).map (fun n => n.forward.length)).getD 0

/-- `ChainAt s L i l`: following `forward[L]` pointers from node `i` visits
exactly the nodes `l` and then ends at a `None` pointer. -/
inductive ChainAt (s : SkipList) (L : Nat) : Nat → List Nat → Prop where
  | nil : ∀ i, s.slot i L = some none → ChainAt s L i []
  | cons : ∀ i j l, s.slot i L = some (some j) → ChainAt s L j l →
      ChainAt s L i (j :: l)

/-- `Seg s L i l t`: following `forward[L]` pointers from `i` visits `l` and
arrives at `t` (the last of `i :: l`); nothing is said about `t`'s own
pointer. -/
inductive Seg (s : SkipList) (L : Nat) : Nat → List Nat → Nat → Prop where
  | nil : ∀ i, Seg s L i [] i
  | cons : ∀ i j l t, s.slot i L = some (some j) → Seg s L j l t →
      Seg s L i (j :: l) t

/-- The skip-list well-formedness invariant, relative to the per-level chain
lists `ch`: the head has `MAX_HEIGHT` slots, the height is in range, `ch L`
is the level-`L` chain from the head, level `L` holds exactly the level-0
nodes taller than `L`, level 0 is strictly sorted by key and covers exactly
the non-head arena nodes, and `len` counts them. -/
structure SkipInv (s : SkipList) (ch : Nat → List Nat) : Prop where
  headH : s.heightOf 0 = MAX_HEIGHT
  hh1 : 1 ≤ s.height
  hh2 : s.height ≤ MAX_HEIGHT
  chains : ∀ L, L < MAX_HEIGHT → ChainAt s L 0 (ch L)
  levels : ∀ L, L < MAX_HEIGHT →
    ch L = (ch 0).filter (fun j => decide (L < s.heightOf j))
  sorted0 : (ch 0).Pairwise (fun i j => lexLt (s.keyOf i) (s.keyOf j) = true)
  mem0 : ∀ j ∈ ch 0, 1 ≤ j ∧ j < s.nodes.length
  complete : ∀ j, 1 ≤ j → j < s.nodes.length → j ∈ ch 0
  heights : ∀ j ∈ ch 0, 1 ≤ s.heightOf j ∧ s.heightOf j ≤ s.height
  lenEq : s.len = (ch 0).length

/-- A skip list reachable by the implementation: some chain family satisfies
the invariant. -/
def SkipList.Inv (s : SkipList) : Prop := ∃ ch, SkipInv s ch

/-- The association list abstracted by the level-0 chain. -/
def SkipList.entriesOf (s : SkipList) (ch : Nat → List Nat) : List (Bytes × Bytes) :=
  (ch 0).map fun j => (s.keyOf j, s.valOf j)

/-! ## Specification-level sorted association list -/

/-- Insert-or-overwrite into a sorted association list: the functional
meaning of `SkipList::insert`. -/
def specInsert : List (Bytes × Bytes) → Bytes → Bytes → List (Bytes × Bytes)
  | [], k, v => [(k, v)]
  | (k', v') :: rest, k, v =>
    if lexLt k k' then (k, v) :: (k', v') :: rest
    else if k = k' then (k, v) :: rest
    else (k', v') :: specInsert rest k v

/-- Lookup in an association list. -/
def lookupSpec : List (Bytes × Bytes) → Bytes → Option Bytes
  | [], _ => none
  | (k', v') :: rest, k => if k' = k then some v' else lookupSpec rest k

/-- `specInsert` folded over an operation sequence. -/
def specFold (ops : List (Bytes × Bytes × Nat)) : List (Bytes × Bytes) :=
  ops.foldl (fun es op => specInsert es op.1 op.2.1) []

/-- The value of the most recent insert with key `k` in `ops`. -/
def lastValue (ops : List (Bytes × Bytes × Nat)) (k : Bytes) : Option Bytes :=
  ((ops.filter (fun op => op.1 = k)).getLast?).map (fun op => op.2.1)

/-- The Boolean "node key is below the search key" predicate. -/
def keyLtb (s : SkipList) (key : Bytes) (j : Nat) : Bool := lexLt (s.keyOf j) key

/-- The part of the level-`L` chain whose keys are below the search key
(a prefix, by sortedness). -/
def chA (s : SkipList) (ch : Nat → List Nat) (key : Bytes) (L : Nat) : List Nat :=
  (ch L).filter (keyLtb s key)

/-- The rest of the level-`L` chain: keys not below the search key. -/
def chB (s : SkipList) (ch : Nat → List Nat) (key : Bytes) (L : Nat) : List Nat :=
  (ch L).filter (fun j => !(keyLtb s key j))

/-- Entry invariant of the search descent at level `L`: the current node
`cur` sits between a consumed below-key part `preA` and the rest of the
level-`L` chain. -/
def EntryInv (s : SkipList) (ch : Nat → List Nat) (key : Bytes) (L cur : Nat) : Prop :=
  ∃ preA sufA, chA s ch key L = preA ++ sufA ∧ Seg s L 0 preA cur ∧
    ChainAt s L cur (sufA ++ chB s ch key L)

/-- Exit invariant after walking level `L`: `e` is the last below-key node of
the level (or the head), and the rest of the level chain follows it. -/
def ExitInv (s : SkipList) (ch : Nat → List Nat) (key : Bytes) (L e : Nat) : Prop :=
  Seg s L 0 (chA s ch key L) e ∧ ChainAt s L e (chB s ch key L)

/-- The chain family after splicing a new node `newIdx` into every level
below the drawn height `h`: the level chain splits at the search key and the
new node sits between the two parts. -/
def spliceChains (s : SkipList) (ch : Nat → List Nat) (key : Bytes)
    (h newIdx : Nat) (L : Nat) : List Nat :=
  if L < h then chA s ch key L ++ newIdx :: chB s ch key L else ch L

/-! ## Block builder (`src/sstable/block/builder.rs`)

`data` holds the serialized entries, `offsets` the per-entry start offsets
(u16 values, hence the `% 65536` casts). -/

/-- `BlockBuilder`. -/
structure BlockBuilder where
  data : Bytes
  offsets : List Nat
  block_size : Nat
deriving Repr, DecidableEq

/-- `BlockBuilder::new`. -/
def BlockBuilder.new (block_size : Nat) : BlockBuilder := ⟨[], [], block_size⟩

/-- `BlockBuilder::estimated_size`. -/
def BlockBuilder.estimated_size (b : BlockBuilder) : Nat :=
  b.data.length + b.offsets.length * 2 + 2

/-- `BlockBuilder::is_empty`. -/
def BlockBuilder.is_empty (b : BlockBuilder) : Bool := b.offsets.isEmpty

/-- `BlockBuilder::add`: reject only when the block is non-empty and the
entry would overflow the target size; otherwise record the offset and append
`key_len (2B) | val_len (2B) | key | value`.  There is no ordering check. -/
def BlockBuilder.add (b : BlockBuilder) (key value : Bytes) : Bool × BlockBuilder :=
  let entry_size := 2 + 2 + key.length + value.length
  if !b.offsets.isEmpty && decide (b.block_size < b.estimated_size + entry_size) then
    (false, b)
  else
    (true, { b with
      data := b.data ++ le16 key.length ++ le16 value.length ++ key ++ value,
      offsets := b.offsets ++ [b.data.length % 65536] })

/-- `BlockBuilder::build`: entry data, offset array, entry count. -/
def BlockBuilder.build (b : BlockBuilder) : Bytes :=
  b.data ++ (b.offsets.map le16).flatten ++ le16 (b.offsets.length % 65536)

/-! ## Bloom filter (`src/bloom/mod.rs`)

The two sizing values computed from floats
(`ceil(expected_items * bits_per_key)` and `ceil(bits_per_key * ln 2)` as
`u32`) are passed in as `rawBits` and `rawHashes`; the `xxh3_128` hash of a
key, split into two 64-bit halves, is passed in as the pair `(h1, h2)`.
Out-of-bounds word indexing (a Rust panic) is `none`. -/

/-- `BloomFilter`: bit array packed into 64-bit words. -/
structure BloomFilter where
  bits : List Nat
  num_hashes : Nat
  num_bits : Nat
deriving Repr, DecidableEq

/-- `BloomFilter::new`: clamp the sizes with `max(64)` / `max(1)` and
allocate `(num_bits + 63) / 64` zero words. -/
def BloomFilter.new (rawBits rawHashes : Nat) : BloomFilter :=
  ⟨List.replicate ((max rawBits 64 + 63) / 64) 0, max rawHashes 1, max rawBits 64⟩

/-- `BloomFilter::get_position`: `(h1 + i * h2) mod 2^64 mod num_bits`
(the u64 wrapping arithmetic made explicit). -/
def BloomFilter.get_position (bf : BloomFilter) (h1 h2 i : Nat) : Nat :=
  ((h1 + (i * h2) % 2 ^ 64) % 2 ^ 64) % bf.num_bits

/-- `BloomFilter::set_bit`: `bits[pos / 64] |= 1 << (pos % 64)`. -/
def BloomFilter.set_bit (bf : BloomFilter) (pos : Nat) : Option BloomFilter :=
  match bf.bits.get? (pos / 64) with
  | none => none
  | some w =>
    some { bf with bits := bf.bits.set (pos / 64) (w ||| 1 <<< (pos % 64)) }

/-- `BloomFilter::check_bit`: `(bits[pos / 64] >> (pos % 64)) & 1 == 1`. -/
def BloomFilter.check_bit (bf : BloomFilter) (pos : Nat) : Option Bool :=
  match bf.bits.get? (pos / 64) with
  | none => none
  | some w => some ((w >>> (pos % 64)) &&& 1 == 1)

/-- `BloomFilter::insert`: set the `num_hashes` double-hashed positions. -/
def BloomFilter.insert (bf : BloomFilter) (h1 h2 : Nat) : Option BloomFilter :=
  (List.range bf.num_hashes).foldl
    (fun acc i => acc.bind fun b => b.set_bit (b.get_position h1 h2 i)) (some bf)

/-- `BloomFilter::may_contain`: all `num_hashes` positions set. -/
def BloomFilter.may_contain (bf : BloomFilter) (h1 h2 : Nat) : Option Bool :=
  (List.range bf.num_hashes).foldl
    (fun acc i => acc.bind fun r =>
      if r then bf.check_bit (bf.get_position h1 h2 i) else some false)
    (some true)

/-- Folding `insert` over the hash pairs of further keys. -/
def BloomFilter.insertAll (bf : BloomFilter) (hs : List (Nat × Nat)) :
    Option BloomFilter :=
  hs.foldl (fun acc p => acc.bind fun b => b.insert p.1 p.2) (some bf)

/-- Well-formedness of the filter: the word array matches the bit count and
at least one bit exists (true of every filter `new` builds). -/
def BloomWF (bf : BloomFilter) : Prop :=
  bf.bits.length = (bf.num_bits + 63) / 64 ∧ 1 ≤ bf.num_bits

/-- The abstract bit at `pos`. -/
def BloomFilter.bitGet (bf : BloomFilter) (pos : Nat) : Bool :=
  Nat.testBit (bf.bits.getD (pos / 64) 0) (pos % 64)

/-! ## SSTable footer and index entries (`src/sstable/footer.rs`) -/

/-- `SSTABLE_MAGIC`. -/
def SSTABLE_MAGIC : Nat := 0x4C534D5F53535400

/-- `SSTableMeta`. -/
structure SSTableMeta where
  id : Nat
  level : Nat
  min_key : Bytes
  max_key : Bytes
  file_size : Nat
  entry_count : Nat
deriving Repr, DecidableEq

/-- `IndexEntry`. -/
structure IndexEntry where
  last_key : Bytes
  offset : Nat
  size : Nat
deriving Repr, DecidableEq

/-- `IndexEntry::encode`: `key_len(2) | key | offset(8) | size(8)`. -/
def IndexEntry.encode (e : IndexEntry) : Bytes :=
  le16 (e.last_key.length % 65536) ++ e.last_key ++ le64 e.offset ++ le64 e.size

/-- `IndexEntry::decode`, returning the entry and the bytes consumed. -/
def IndexEntry.decode (data : Bytes) : EResult (IndexEntry × Nat) :=
  if data.length < 2 then .error (.corruption "index entry too short")
  else
    let key_len := readLE16 data 0
    if data.length < 2 + key_len + 16 then
      .error (.corruption "index entry truncated")
    else
      .ok (⟨byteSlice data 2 (2 + key_len), readLE64 data (2 + key_len),
        readLE64 data (10 + key_len)⟩, 2 + key_len + 16)

/-- `Footer`. -/
structure Footer where
  index_block_offset : Nat
  index_block_size : Nat
  meta_block_offset : Nat
  meta_block_size : Nat
  magic : Nat
deriving Repr, DecidableEq

/-- `Footer::encode`: five little-endian u64 fields, 40 bytes. -/
def Footer.encode (f : Footer) : Bytes :=
  le64 f.index_block_offset ++ le64 f.index_block_size ++
  le64 f.meta_block_offset ++ le64 f.meta_block_size ++ le64 f.magic

/-- `Footer::decode`. -/
def Footer.decode (data : Bytes) : EResult Footer :=
  if data.length < 40 then .error (.corruption "footer too short")
  else if readLE64 data 32 ≠ SSTABLE_MAGIC then .error (.corruption "bad magic")
  else .ok ⟨readLE64 data 0, readLE64 data 8, readLE64 data 16, readLE64 data 24,
    readLE64 data 32⟩

/-! ## SSTable builder (`src/sstable/builder.rs`)

The buffered file writer is modelled by the accumulated byte string `file`;
`none` models the `unwrap`/`assert!` panics. -/

/-- `SSTableBuilder`. -/
structure SSTableBuilder where
  block_builder : BlockBuilder
  index_entries : List IndexEntry
  data_offset : Nat
  file : Bytes
  sst_id : Nat
  block_size : Nat
  min_key : Option Bytes
  max_key : Option Bytes
  entry_count : Nat
  last_key_in_block : Option Bytes
deriving Repr, DecidableEq

/-- `SSTableBuilder::new`. -/
def SSTableBuilder.new (sst_id block_size : Nat) : SSTableBuilder :=
  ⟨BlockBuilder.new block_size, [], 0, [], sst_id, block_size, none, none, 0, none⟩

/-- `SSTableBuilder::flush_block`. -/
def SSTableBuilder.flush_block (b : SSTableBuilder) : Option SSTableBuilder :=
  if b.block_builder.is_empty then some b
  else
    match b.last_key_in_block with
    | none => none
    | some lk =>
      let block_data := b.block_builder.build
      some { b with
        block_builder := BlockBuilder.new b.block_size,
        file := b.file ++ block_data,
        index_entries := b.index_entries ++
          [⟨lk, b.data_offset, block_data.length⟩],
        data_offset := b.data_offset + block_data.length,
        last_key_in_block := none }

/-- `SSTableBuilder::add`. -/
def SSTableBuilder.add (b : SSTableBuilder) (key value : Bytes) :
    Option SSTableBuilder :=
  let b1 := { b with
    min_key := match b.min_key with | none => some key | some k => some k,
    max_key := some key,
    entry_count := b.entry_count + 1 }
  match b1.block_builder.add key value with
  | (true, bb) =>
    some { b1 with block_builder := bb, last_key_in_block := some key }
  | (false, _) =>
    match b1.flush_block with
    | none => none
    | some b2 =>
      match b2.block_builder.add key value with
      | (true, bb) =>
        some { b2 with block_builder := bb, last_key_in_block := some key }
      | (false, _) => none

/-- `SSTableBuilder::finish`: flush the last block, write the (empty
placeholder) meta block, the index block and the footer; return the file
bytes and the metadata. -/
def SSTableBuilder.finish (b : SSTableBuilder) : Option (Bytes × SSTableMeta) :=
  match b.flush_block with
  | none => none
  | some b1 =>
    let index_data := (b1.index_entries.map IndexEntry.encode).flatten
    let footer : Footer :=
      ⟨b1.data_offset, index_data.length, b1.data_offset, 0, SSTABLE_MAGIC⟩
    some (b1.file ++ index_data ++ footer.encode,
      ⟨b1.sst_id, 0, (b1.min_key).getD [], (b1.max_key).getD [],
        b1.data_offset + index_data.length + 40, b1.entry_count⟩)

/-! ## Block reader

Modelled from the spec: `src/sstable/block/reader.rs` is imported by the
reader but missing from the tree (only its tests exist), so `Block` follows
the spec's reader section: `decode` reads the trailing 2-byte entry count,
the preceding `2*count` bytes as offsets and keeps the prefix as the entry
region, validating that offsets start at 0, are strictly increasing and lie
inside the entry region; `get` binary-searches the offset array. -/

/-- Three-way lexicographic byte comparison (`Ord` on `&[u8]`). -/
def byteCmp : Bytes → Bytes → Ordering
  | [], [] => .eq
  | [], _ :: _ => .lt
  | _ :: _, [] => .gt
  | x :: xs, y :: ys =>
    if x < y then .lt
    else if y < x then .gt
    else byteCmp xs ys

/-- Modelled from the spec: a decoded block — entry region and offsets. -/
structure Block where
  entries : Bytes
  offsets : List Nat
deriving Repr, DecidableEq

/-- Modelled from the spec: `Block::decode`. -/
def Block.decode (data : Bytes) : EResult Block :=
  if data.length < 2 then .error (.corruption "invalid block")
  else
    let count := readLE16 data (data.length - 2)
    if data.length < 2 + 2 * count then .error (.corruption "invalid block")
    else
      let entries_len := data.length - 2 - 2 * count
      let offsets := (List.range count).map
        (fun i => readLE16 data (entries_len + 2 * i))
      let valid := count == 0 ||
        (offsets.headD 0 == 0 &&
         offsets.all (fun o => decide (o < entries_len)) &&
         (offsets.zip offsets.tail).all (fun p => decide (p.1 < p.2)))
      if valid then .ok ⟨byteSlice data 0 entries_len, offsets⟩
      else .error (.corruption "invalid block")

/-- Modelled from the spec: the key of the entry starting at `off`. -/
def Block.entryKey (b : Block) (off : Nat) : Bytes :=
  byteSlice b.entries (off + 4) (off + 4 + readLE16 b.entries off)

/-- Modelled from the spec: the value of the entry starting at `off`. -/
def Block.entryValue (b : Block) (off : Nat) : Bytes :=
  byteSlice b.entries (off + 4 + readLE16 b.entries off)
    (off + 4 + readLE16 b.entries off + readLE16 b.entries (off + 2))

/-- Modelled from the spec: the binary-search loop of `Block::get` over
`offsets[lo..hi)` (explicit fuel; the interval shrinks every step). -/
def Block.getLoop (b : Block) (target : Bytes) : Nat → Nat → Nat → Option Bytes
  | 0, _, _ => none
  | fuel + 1, lo, hi =>
    if hi ≤ lo then none
    else
      let mid := (lo + hi) / 2
      match byteCmp (b.entryKey (b.offsets.getD mid 0)) target with
      | .lt => Block.getLoop b target fuel (mid + 1) hi
      | .gt => Block.getLoop b target fuel lo mid
      | .eq => some (b.entryValue (b.offsets.getD mid 0))

/-- Modelled from the spec: `Block::get`. -/
def Block.get (b : Block) (target : Bytes) : Option Bytes :=
  Block.getLoop b target (b.offsets.length + 1) 0 b.offsets.length

/-! ## SSTable reader (`src/sstable/reader.rs`)

The opened file is the byte string read at `open` time; `read_exact` beyond
the end of the file is an I/O error; `none` models non-termination of the
parsing loops (excluded by their strictly-decreasing measure). -/

/-- `SSTable`: parsed index, metadata and footer plus the file bytes. -/
structure SSTable where
  file : Bytes
  index : List IndexEntry
  meta : SSTableMeta
  footer : Footer
deriving Repr, DecidableEq

/-- The `while offset < index_buf.len()` parse loop of `SSTable::open`. -/
def parseIndexF (data : Bytes) : Nat → Nat → Option (EResult (List IndexEntry))
  | 0, off => if data.length ≤ off then some (.ok []) else none
  | fuel + 1, off =>
    if data.length ≤ off then some (.ok [])
    else
      match IndexEntry.decode (data.drop off) with
      | .error e => some (.error e)
      | .ok (entry, consumed) =>
        match parseIndexF data fuel (off + consumed) with
        | none => none
        | some (.error e) => some (.error e)
        | some (.ok rest) => some (.ok (entry :: rest))

/-- `SSTable::parse_meta`. -/
def SSTable.parse_meta (data : Bytes) (file_size : Nat) : EResult SSTableMeta :=
  if data.length < 8 then .error (.corruption "meta block too short for id")
  else if data.length < 12 then
    .error (.corruption "meta block too short for level")
  else if data.length < 16 then
    .error (.corruption "meta block too short for min_key_len")
  else
    let min_key_len := readLE32 data 12
    if data.length < 16 + min_key_len then
      .error (.corruption "meta block too short for min_key")
    else if data.length < 16 + min_key_len + 4 then
      .error (.corruption "meta block too short for max_key_len")
    else
      let max_key_len := readLE32 data (16 + min_key_len)
      if data.length < 20 + min_key_len + max_key_len then
        .error (.corruption "meta block too short for max_key")
      else if data.length < 28 + min_key_len + max_key_len then
        .error (.corruption "meta block too short for entry_count")
      else
        .ok ⟨readLE64 data 0, readLE32 data 8,
          byteSlice data 16 (16 + min_key_len),
          byteSlice data (20 + min_key_len) (20 + min_key_len + max_key_len),
          file_size, readLE64 data (20 + min_key_len + max_key_len)⟩

/-- `SSTable::open`, on the bytes of the file (`open` is a Lean keyword). -/
def SSTable.openBytes (file : Bytes) : Option (EResult SSTable) :=
  if file.length < 40 then
    some (.error (.corruption "file too short to contain footer"))
  else
    match Footer.decode (byteSlice file (file.length - 40) file.length) with
    | .error e => some (.error e)
    | .ok footer =>
      if file.length < footer.index_block_offset + footer.index_block_size then
        some (.error .io)
      else
        let index_buf := byteSlice file footer.index_block_offset
          (footer.index_block_offset + footer.index_block_size)
        match parseIndexF index_buf (index_buf.length + 1) 0 with
        | none => none
        | some (.error e) => some (.error e)
        | some (.ok index) =>
          if file.length < footer.meta_block_offset + footer.meta_block_size then
            some (.error .io)
          else
            let meta_buf := byteSlice file footer.meta_block_offset
              (footer.meta_block_offset + footer.meta_block_size)
            if meta_buf.isEmpty then
              some (.ok ⟨file, index, ⟨0, 0, [], [], file.length, 0⟩, footer⟩)
            else
              match SSTable.parse_meta meta_buf file.length with
              | .error e => some (.error e)
              | .ok meta => some (.ok ⟨file, index, meta, footer⟩)

/-- `slice::binary_search_by` on the index, comparing `last_key` with the
target (`inl` = found `Equal` at that position, `inr` = insertion point). -/
def binarySearchBy (arr : List IndexEntry) (key : Bytes) :
    Nat → Nat → Nat → Option (Sum Nat Nat)
  | 0, _, _ => none
  | fuel + 1, lo, hi =>
    if hi ≤ lo then some (.inr lo)
    else
      let mid := (lo + hi) / 2
      match byteCmp ((arr.getD mid ⟨[], 0, 0⟩).last_key) key with
      | .lt => binarySearchBy arr key fuel (mid + 1) hi
      | .gt => binarySearchBy arr key fuel lo mid
      | .eq => some (.inl mid)

/-- Steps 3–4 of `SSTable::get`: read the indexed block and search it. -/
def SSTable.getFromBlock (t : SSTable) (key : Bytes) (bi : Nat) :
    Option (EResult (Option Bytes)) :=
  if t.index.length ≤ bi then none
  else
    let entry := t.index.getD bi ⟨[], 0, 0⟩
    if t.file.length < entry.offset + entry.size then some (.error .io)
    else
      match Block.decode (byteSlice t.file entry.offset
          (entry.offset + entry.size)) with
      | .error e => some (.error e)
      | .ok block => some (.ok (block.get key))

/-- `SSTable::get`. -/
def SSTable.get (t : SSTable) (key : Bytes) : Option (EResult (Option Bytes)) :=
  if lexLt key t.meta.min_key || lexLt t.meta.max_key key then some (.ok none)
  else
    match binarySearchBy t.index key (t.index.length + 1) 0 t.index.length with
    | none => none
    | some (.inl i) => SSTable.getFromBlock t key i
    | some (.inr i) =>
      if t.index.length ≤ i then some (.ok none)
      else SSTable.getFromBlock t key i

/-- Flip bit `n` of a byte buffer: XOR byte `n / 8` with `1 << (n % 8)`. -/
def flipBit (data : Bytes) (n : Nat) : Bytes :=
  data.set (n / 8) ((data.getD (n / 8) 0) ^^^ 1 <<< (n % 8))

/-- A record whose key and value are byte strings (every element fits in a
`u8`), as every record read from or written to a real WAL is. -/
def WALRecord.byteWf (r : WALRecord) : Prop :=
  (∀ b ∈ r.key, b < 256) ∧ (∀ b ∈ r.value, b < 256)

/-! # Byte-string lemmas -/

theorem le32_length (n : Nat) : (le32 n).length = 4 := rfl

theorem le16_length (n : Nat) : (le16 n).length = 2 := rfl

theorem le64_length (n : Nat) : (le64 n).length = 8 := rfl

theorem getD_append_r (l₁ l₂ : Bytes) (i d : Nat) :
    (l₁ ++ l₂).getD (l₁.length + i) d = l₂.getD i d := by
  simp [List.getD_eq_getElem?_getD,
    List.getElem?_append_right (Nat.le_add_right l₁.length i)]

theorem getD_append_l (l₁ l₂ : Bytes) (i d : Nat) (h : i < l₁.length) :
    (l₁ ++ l₂).getD i d = l₁.getD i d := by
  simp [List.getD_eq_getElem?_getD, List.getElem?_append_left h]

theorem readLE32_shift (pre l : Bytes) (off : Nat) :
    readLE32 (pre ++ l) (pre.length + off) = readLE32 l off := by
  unfold readLE32
  rw [show pre.length + off + 1 = pre.length + (off + 1) by omega,
    show pre.length + off + 2 = pre.length + (off + 2) by omega,
    show pre.length + off + 3 = pre.length + (off + 3) by omega,
    getD_append_r, getD_append_r, getD_append_r, getD_append_r]

theorem readLE32_after (pre l : Bytes) : readLE32 (pre ++ l) pre.length = readLE32 l 0 := by
  have h := readLE32_shift pre l 0
  simpa using h

theorem readLE32_le32 (n : Nat) (rest : Bytes) :
    readLE32 (le32 n ++ rest) 0 = n % 2 ^ 32 := by
  show readLE32 (n % 256 :: (n / 256 % 256 :: (n / 2 ^ 16 % 256 :: (n / 2 ^ 24 % 256 :: rest)))) 0 = n % 2 ^ 32
  unfold readLE32
  simp only [List.getD_cons_zero, List.getD_cons_succ]
  omega

theorem byteSlice_shift (pre l : Bytes) (a b : Nat) :
    byteSlice (pre ++ l) (pre.length + a) (pre.length + b) = byteSlice l a b := by
  unfold byteSlice
  rw [List.drop_append]
  congr 1
  omega

theorem byteSlice_zero (l : Bytes) (b : Nat) : byteSlice l 0 b = l.take b := by
  simp [byteSlice]

theorem byteSlice_after (pre l : Bytes) (b : Nat) :
    byteSlice (pre ++ l) pre.length (pre.length + b) = l.take b := by
  have h := byteSlice_shift pre l 0 b
  simpa [byteSlice_zero] using h

/-! # CRC-32 lemmas -/

theorem crcBit_lt (s : Nat) (h : s < 2 ^ 32) : crcBit s < 2 ^ 32 := by
  unfold crcBit
  split
  · exact Nat.xor_lt_two_pow (by omega) (by norm_num)
  · omega

theorem crcByte_lt (s b : Nat) (h : s < 2 ^ 32) : crcByte s b < 2 ^ 32 := by
  unfold crcByte
  have h0 : s ^^^ b % 256 < 2 ^ 32 :=
    Nat.xor_lt_two_pow h (lt_of_lt_of_le (Nat.mod_lt b (by norm_num)) (by norm_num))
  have : ∀ k x, x < 2 ^ 32 → crcBit^[k] x < 2 ^ 32 := by
    intro k
    induction k with
    | zero => intro x hx; simpa using hx
    | succ n ih =>
      intro x hx
      rw [Function.iterate_succ_apply]
      exact ih _ (crcBit_lt x hx)
  exact this 8 _ h0

theorem crcFold_lt (data : Bytes) (s : Nat) (h : s < 2 ^ 32) :
    data.foldl crcByte s < 2 ^ 32 := by
  induction data generalizing s with
  | nil => simpa using h
  | cons b rest ih => exact ih _ (crcByte_lt s b h)

theorem crc32_lt (data : Bytes) : crc32 data < 2 ^ 32 := by
  unfold crc32
  exact Nat.xor_lt_two_pow (crcFold_lt data _ (by norm_num)) (by norm_num)

/-! # WAL record codec lemmas -/

theorem WALRecord.payloadBytes_length (r : WALRecord) :
    r.payloadBytes.length = 9 + r.key.length + r.value.length := by
  simp [WALRecord.payloadBytes, le32]
  omega

theorem WALRecord.encode_length (r : WALRecord) :
    r.encode.length = r.encodedSize := by
  simp [WALRecord.encode, le32, WALRecord.payloadBytes_length, WALRecord.encodedSize]
  omega

theorem RecordType.fromByte_toByte (rt : RecordType) :
    RecordType.fromByte rt.toByte = .ok rt := by
  cases rt <;> rfl

/-- Decoding a buffer that begins with the encoding of a size-well-formed
record recovers exactly that record, whatever follows. -/
theorem WALRecord.decode_encode_append (r : WALRecord) (hwf : r.sizeWf) (tail : Bytes) :
    WALRecord.decode (r.encode ++ tail) = .ok r := by
  obtain ⟨rt, key, val⟩ := r
  have hwf' : 5 + key.length + val.length < 2 ^ 32 := hwf
  set k := key.length with hk
  set v := val.length with hv
  set P : Bytes := WALRecord.payloadBytes ⟨rt, key, val⟩ with hPdef
  have hPshape : P = le32 (1 + 4 + k + v) ++ ([rt.toByte] ++ (le32 k ++ (key ++ val))) := by
    simp [hPdef, WALRecord.payloadBytes, WALRecord.payloadLen, List.append_assoc]
  have hPlen : P.length = 9 + k + v := WALRecord.payloadBytes_length _
  have hdata : WALRecord.encode ⟨rt, key, val⟩ ++ tail = le32 (crc32 P) ++ (P ++ tail) := by
    simp [WALRecord.encode, ← hPdef, List.append_assoc]
  rw [hdata]
  set data : Bytes := le32 (crc32 P) ++ (P ++ tail) with hdatadef
  have hdlen : data.length = 13 + k + v + tail.length := by
    simp [hdatadef, le32, hPlen]
    omega
  have hstored : readLE32 data 0 = crc32 P := by
    rw [hdatadef, readLE32_le32]
    exact Nat.mod_eq_of_lt (crc32_lt P)
  have hpl : readLE32 data 4 = 1 + 4 + k + v := by
    have h4 : readLE32 data 4 = readLE32 (P ++ tail) 0 := by
      have := readLE32_after (le32 (crc32 P)) (P ++ tail)
      simpa [le32] using this
    rw [h4, hPshape, List.append_assoc, readLE32_le32]
    exact Nat.mod_eq_of_lt (by omega)
  have hcrcslice : byteSlice data 4 (4 + 4 + (1 + 4 + k + v)) = P := by
    have h4 : byteSlice data 4 (4 + (9 + k + v)) = (P ++ tail).take (9 + k + v) := by
      have := byteSlice_after (le32 (crc32 P)) (P ++ tail) (9 + k + v)
      simpa [le32] using this
    have h5 : (P ++ tail).take (9 + k + v) = P := by
      rw [← hPlen]
      exact List.take_left P tail
    rw [show 4 + 4 + (1 + 4 + k + v) = 4 + (9 + k + v) by omega, h4, h5]
  have hbyte8 : data.getD 8 0 = rt.toByte := by
    have h8 : data = (le32 (crc32 P) ++ le32 (1 + 4 + k + v)) ++
        ([rt.toByte] ++ (le32 k ++ (key ++ val)) ++ tail) := by
      rw [hdatadef, hPshape]
      simp [List.append_assoc]
    have hlen8 : (le32 (crc32 P) ++ le32 (1 + 4 + k + v)).length = 8 := by simp [le32]
    rw [h8, show (8 : Nat) = (le32 (crc32 P) ++ le32 (1 + 4 + k + v)).length + 0 by omega,
      getD_append_r]
    simp
  have hkl : readLE32 data 9 = k := by
    have h9 : data = (le32 (crc32 P) ++ le32 (1 + 4 + k + v) ++ [rt.toByte]) ++
        (le32 k ++ (key ++ (val ++ tail))) := by
      rw [hdatadef, hPshape]
      simp [List.append_assoc]
    have hlen9 : (le32 (crc32 P) ++ le32 (1 + 4 + k + v) ++ [rt.toByte]).length = 9 := by
      simp [le32]
    rw [h9, show (9 : Nat) = (le32 (crc32 P) ++ le32 (1 + 4 + k + v) ++ [rt.toByte]).length from hlen9.symm,
      readLE32_after, readLE32_le32]
    exact Nat.mod_eq_of_lt (by omega)
  have hkeyslice : byteSlice data 13 (13 + k) = key := by
    have h13 : data = (le32 (crc32 P) ++ le32 (1 + 4 + k + v) ++ [rt.toByte] ++ le32 k) ++
        (key ++ (val ++ tail)) := by
      rw [hdatadef, hPshape]
      simp [List.append_assoc]
    have hlen13 : (le32 (crc32 P) ++ le32 (1 + 4 + k + v) ++ [rt.toByte] ++ le32 k).length = 13 := by
      simp [le32]
    rw [h13, show (13 : Nat) = (le32 (crc32 P) ++ le32 (1 + 4 + k + v) ++ [rt.toByte] ++ le32 k).length from hlen13.symm,
      show (le32 (crc32 P) ++ le32 (1 + 4 + k + v) ++ [rt.toByte] ++ le32 k).length + k =
        (le32 (crc32 P) ++ le32 (1 + 4 + k + v) ++ [rt.toByte] ++ le32 k).length + k from rfl]
    rw [byteSlice_after]
    rw [hk]
    exact List.take_left key (val ++ tail)
  have hvalslice : byteSlice data (13 + k) (13 + k + v) = val := by
    have h13k : data = ((le32 (crc32 P) ++ le32 (1 + 4 + k + v) ++ [rt.toByte] ++ le32 k) ++ key) ++
        (val ++ tail) := by
      rw [hdatadef, hPshape]
      simp [List.append_assoc]
    have hlen13k : ((le32 (crc32 P) ++ le32 (1 + 4 + k + v) ++ [rt.toByte] ++ le32 k) ++ key).length =
        13 + k := by
      simp [le32, hk]
      omega
    rw [h13k, show (13 : Nat) + k = ((le32 (crc32 P) ++ le32 (1 + 4 + k + v) ++ [rt.toByte] ++ le32 k) ++ key).length from hlen13k.symm,
      show ((le32 (crc32 P) ++ le32 (1 + 4 + k + v) ++ [rt.toByte] ++ le32 k) ++ key).length + v =
        ((le32 (crc32 P) ++ le32 (1 + 4 + k + v) ++ [rt.toByte] ++ le32 k) ++ key).length + v from rfl]
    rw [byteSlice_after]
    rw [hv]
    exact List.take_left val tail
  show WALRecord.decode data = _
  unfold WALRecord.decode
  rw [if_neg (by omega)]
  simp only [hstored, hpl, hcrcslice, hbyte8, hkl, RecordType.fromByte_toByte]
  rw [if_neg (by omega), if_neg (by simp), if_neg (by omega)]
  rw [show 4 + 4 + (1 + 4 + k + v) = 13 + k + v by omega]
  rw [hkeyslice, hvalslice]

theorem getD_take (l : Bytes) (n i d : Nat) (h : i < n) :
    (l.take n).getD i d = l.getD i d := by
  simp [List.getD_eq_getElem?_getD, List.getElem?_take_of_lt h]

theorem readLE32_take (l : Bytes) (n off : Nat) (h : off + 4 ≤ n) :
    readLE32 (l.take n) off = readLE32 l off := by
  unfold readLE32
  rw [getD_take _ _ _ _ (by omega), getD_take _ _ _ _ (by omega),
    getD_take _ _ _ _ (by omega), getD_take _ _ _ _ (by omega)]

/-- The `payload_len` field of an encoded record. -/
theorem WALRecord.encode_payloadField (r : WALRecord) :
    readLE32 r.encode 4 = r.payloadLen % 2 ^ 32 := by
  have h4 : readLE32 r.encode 4 = readLE32 r.payloadBytes 0 := by
    have := readLE32_after (le32 (crc32 r.payloadBytes)) r.payloadBytes
    simpa [WALRecord.encode, le32] using this
  rw [h4]
  unfold WALRecord.payloadBytes
  rw [List.append_assoc, List.append_assoc, List.append_assoc, readLE32_le32]

/-- Decoding a strict prefix of an encoded record always fails. -/
theorem WALRecord.decode_take_err (r : WALRecord) (hwf : r.sizeWf) (n : Nat)
    (hn : n < r.encode.length) :
    ∃ e, WALRecord.decode (r.encode.take n) = .error e := by
  have hwf' : 5 + r.key.length + r.value.length < 2 ^ 32 := hwf
  have hElen : r.encode.length = 13 + r.key.length + r.value.length :=
    r.encode_length
  have htlen : (r.encode.take n).length = n := by
    rw [List.length_take]
    omega
  by_cases h13 : n < 13
  · refine ⟨.corruption "record too short", ?_⟩
    unfold WALRecord.decode
    rw [if_pos (by omega)]
  · have hpl : readLE32 (r.encode.take n) 4 = r.payloadLen := by
      rw [readLE32_take _ _ _ (by omega), r.encode_payloadField]
      exact Nat.mod_eq_of_lt (by unfold WALRecord.payloadLen; omega)
    refine ⟨.corruption "record truncated", ?_⟩
    unfold WALRecord.decode
    rw [if_neg (by omega)]
    simp only [hpl]
    rw [if_pos (by unfold WALRecord.payloadLen at *; omega)]

/-! # WAL iterator lemmas -/

theorem walItemsF_eq_of_le (f₁ : Nat) :
    ∀ (data : Bytes) (f₂ : Nat), data.length ≤ f₁ → data.length ≤ f₂ →
      walItemsF f₁ data = walItemsF f₂ data := by
  induction f₁ with
  | zero =>
    intro data f₂ h₁ _
    have hnil : data = [] := List.eq_nil_of_length_eq_zero (by omega)
    subst hnil
    cases f₂ <;> simp [walItemsF]
  | succ g ih =>
    intro data f₂ h₁ h₂
    cases data with
    | nil => cases f₂ <;> simp [walItemsF]
    | cons b bs =>
      cases f₂ with
      | zero => simp at h₂
      | succ h =>
        cases hdec : WALRecord.decode (b :: bs) with
        | error e => simp [walItemsF, hdec]
        | ok rec =>
          simp only [walItemsF, List.isEmpty_cons, Bool.false_eq_true, if_false, hdec]
          have hsz : 13 ≤ rec.encodedSize := by unfold WALRecord.encodedSize; omega
          simp only [List.length_cons] at h₁ h₂
          rw [ih ((b :: bs).drop rec.encodedSize) h
            (by simp only [List.length_drop, List.length_cons]; omega)
            (by simp only [List.length_drop, List.length_cons]; omega)]

theorem walItems_nil : walItems [] = [] := rfl

theorem walItems_err (data : Bytes) (e : Error)
    (h : WALRecord.decode data = .error e) : walItems data = [] := by
  cases data with
  | nil => rfl
  | cons b bs => simp [walItems, walItemsF, h]

theorem walItems_cons (data : Bytes) (rec : WALRecord)
    (h : WALRecord.decode data = .ok rec) (hne : data ≠ []) :
    walItems data = .ok rec :: walItems (data.drop rec.encodedSize) := by
  cases data with
  | nil => exact absurd rfl hne
  | cons b bs =>
    show walItemsF (b :: bs).length (b :: bs) = _
    simp only [List.length_cons, walItemsF, List.isEmpty_cons, Bool.false_eq_true,
      if_false, h]
    have hsz : 13 ≤ rec.encodedSize := by unfold WALRecord.encodedSize; omega
    congr 1
    exact walItemsF_eq_of_le bs.length _ _
      (by simp only [List.length_drop, List.length_cons]; omega)
      (by simp only [List.length_drop]; omega)

/-! # Claim C5 -/

theorem WALRecord.payloadLen_eq (r : WALRecord) :
    r.payloadLen = 1 + 4 + r.key.length + r.value.length := rfl

theorem WALRecord.encodedSize_eq (r : WALRecord) :
    r.encodedSize = 13 + r.key.length + r.value.length := rfl

/-- The `key_len` field of an encoded record. -/
theorem WALRecord.encode_keyField (r : WALRecord) :
    readLE32 r.encode 9 = r.key.length % 2 ^ 32 := by
  have hshape : r.encode = (le32 (crc32 r.payloadBytes) ++ le32 r.payloadLen ++
      [r.record_type.toByte]) ++ (le32 r.key.length ++ (r.key ++ r.value)) := by
    unfold WALRecord.encode WALRecord.payloadBytes
    simp [List.append_assoc]
  rw [hshape,
    show (9 : Nat) = (le32 (crc32 r.payloadBytes) ++ le32 r.payloadLen ++
      [r.record_type.toByte]).length by simp [le32],
    readLE32_after, readLE32_le32]

/-- If the decoded `payload_len` and `key_len` fields are inconsistent
(`13 + key_len > total_len`), `decode` never returns `Ok`, whatever the CRC
comparison yields. -/
theorem WALRecord.decode_ne_ok_of_bad_keylen (data : Bytes)
    (h13 : 13 ≤ data.length)
    (htot : 4 + 4 + readLE32 data 4 ≤ data.length)
    (hkl : 4 + 4 + readLE32 data 4 < 13 + readLE32 data 9)
    (r : WALRecord) : WALRecord.decode data ≠ .ok r := by
  unfold WALRecord.decode
  rw [if_neg (by omega), if_neg (by omega)]
  by_cases hcrc : readLE32 data 0 ≠ crc32 (byteSlice data 4 (4 + 4 + readLE32 data 4))
  · rw [if_pos hcrc]
    exact fun h => Except.noConfusion h
  · rw [if_neg hcrc]
    cases hft : RecordType.fromByte (data.getD 8 0) with
    | error e => simp
    | ok rt =>
      dsimp only
      rw [if_pos (by omega)]
      exact fun h => Except.noConfusion h

/-! # Claim C5 -/

/-- C5 (counterexample): for the concrete record `walBigRecord` — a `Put` with
empty key and a value of `2^32 - 5` zero bytes — `decode(encode(r))` does not
return `r`: the `payload_len as u32` cast wraps to `0`, so decoding fails
(either at the CRC check or at the key-length check). -/
theorem wal_roundtrip_claim_false :
    WALRecord.decode (WALRecord.encode walBigRecord) ≠ .ok walBigRecord := by
  have hkey : walBigRecord.key = [] := rfl
  have hval : walBigRecord.value = List.replicate (2 ^ 32 - 5) 0 := rfl
  have hklen : walBigRecord.key.length = 0 := by rw [hkey]; rfl
  have hvlen : walBigRecord.value.length = 2 ^ 32 - 5 := by
    rw [hval, List.length_replicate]
  have hplv : walBigRecord.payloadLen = 2 ^ 32 := by
    rw [WALRecord.payloadLen_eq, hklen, hvlen]
    omega
  have hElen : walBigRecord.encode.length = 2 ^ 32 + 8 := by
    rw [WALRecord.encode_length, WALRecord.encodedSize_eq, hklen, hvlen]
    omega
  have hpl0 : readLE32 walBigRecord.encode 4 = 0 := by
    rw [WALRecord.encode_payloadField, hplv, Nat.mod_self]
  have hkl0 : readLE32 walBigRecord.encode 9 = 0 := by
    rw [WALRecord.encode_keyField, hklen]
    exact Nat.zero_mod _
  exact WALRecord.decode_ne_ok_of_bad_keylen walBigRecord.encode
    (by omega) (by rw [hpl0]; omega) (by rw [hpl0, hkl0]; omega) walBigRecord

/-- C5 (amended): `encoded_size()` equals `encode().len()` for every record,
and `decode(encode(r))` returns `r` for every record whose payload length
fits in the `u32` length field (`5 + key.len + value.len < 2^32`); the
unbounded claim fails (see `wal_roundtrip_claim_false`). -/
theorem wal_record_roundtrip_amended (r : WALRecord) :
    (r.sizeWf → WALRecord.decode r.encode = .ok r) ∧
      r.encodedSize = r.encode.length := by
  constructor
  · intro h
    have := WALRecord.decode_encode_append r h []
    simpa using this
  · exact (WALRecord.encode_length r).symm

/-- Witness for `wal_record_roundtrip_amended` at a concrete record. -/
theorem wal_record_roundtrip_amended_witness :
    (WALRecord.decode (WALRecord.encode ⟨.put, [7], [8, 9]⟩) = .ok ⟨.put, [7], [8, 9]⟩) ∧
      WALRecord.encodedSize ⟨.put, [7], [8, 9]⟩ = (WALRecord.encode ⟨.put, [7], [8, 9]⟩).length :=
  ⟨(wal_record_roundtrip_amended ⟨.put, [7], [8, 9]⟩).1 (by decide),
    (wal_record_roundtrip_amended ⟨.put, [7], [8, 9]⟩).2⟩

/-! # Claim C4 -/

/-- C4: for WAL records `rs` written back to back, iterating any `n`-byte
truncation of the file yields exactly the items `Ok r1, ..., Ok rk` for some
prefix `r1..rk` of `rs` (with the original contents), never an error item;
`k` is maximal with the first `k` encodings contained in the truncation, so
the first record whose bytes are cut off ends iteration silently. -/
theorem wal_truncation_yields_record_list_prefix
    (rs : List WALRecord) (hwf : ∀ r ∈ rs, r.sizeWf) (n : Nat) :
    ∃ k, k ≤ rs.length ∧
      walItems ((encodeAll rs).take n) = (rs.take k).map .ok ∧
      (encodeAll (rs.take k)).length ≤ n ∧
      (k < rs.length → n < (encodeAll (rs.take (k + 1))).length) := by
  induction rs generalizing n with
  | nil =>
    refine ⟨0, le_refl 0, ?_, by simp [encodeAll], fun h => absurd h (by simp)⟩
    simp [encodeAll, walItems_nil]
  | cons r rest ih =>
    have hwfr : r.sizeWf := hwf r (by simp)
    have hwfrest : ∀ x ∈ rest, x.sizeWf := fun x hx => hwf x (by simp [hx])
    have hflat : encodeAll (r :: rest) = r.encode ++ encodeAll rest := by
      simp [encodeAll]
    by_cases hcase : n < r.encode.length
    · refine ⟨0, Nat.zero_le _, ?_, by simp [encodeAll], ?_⟩
      · have htake : (encodeAll (r :: rest)).take n = r.encode.take n := by
          rw [hflat, List.take_append_eq_append_take,
            show n - r.encode.length = 0 by omega]
          simp [List.take_append_of_le_length (le_of_lt hcase)]
        rw [htake]
        rcases Nat.eq_zero_or_pos n with h0 | hpos
        · subst h0
          simp [walItems_nil]
        · obtain ⟨e, he⟩ := WALRecord.decode_take_err r hwfr n hcase
          simp [walItems_err _ _ he]
      · intro _
        simpa [encodeAll] using hcase
    · push_neg at hcase
      obtain ⟨k, hk, hitems, hle, hbound⟩ := ih hwfrest (n - r.encode.length)
      have hsplit : (encodeAll (r :: rest)).take n =
          r.encode ++ (encodeAll rest).take (n - r.encode.length) := by
        rw [hflat, List.take_append_eq_append_take,
          List.take_of_length_le hcase]
      refine ⟨k + 1, by simpa using hk, ?_, ?_, ?_⟩
      · rw [hsplit]
        have hne : r.encode ++ (encodeAll rest).take (n - r.encode.length) ≠ [] := by
          intro hnil
          have hlen := congrArg List.length hnil
          rw [List.length_append, WALRecord.encode_length, WALRecord.encodedSize_eq] at hlen
          simp only [List.length_nil] at hlen
          omega
        rw [walItems_cons _ _ (r.decode_encode_append hwfr _) hne]
        have hdrop : (r.encode ++ (encodeAll rest).take (n - r.encode.length)).drop
            r.encodedSize = (encodeAll rest).take (n - r.encode.length) := by
          rw [← WALRecord.encode_length, List.drop_left]
        rw [hdrop, hitems]
        simp
      · rw [List.take_succ_cons]
        simp only [encodeAll, List.map_cons, List.flatten_cons, List.length_append]
        have hr : (encodeAll (rest.take k)).length ≤ n - r.encode.length := hle
        simp only [encodeAll] at hr
        omega
      · intro hklt
        rw [List.take_succ_cons]
        simp only [encodeAll, List.map_cons, List.flatten_cons, List.length_append]
        have hb := hbound (by simpa using hklt)
        simp only [encodeAll] at hb
        omega

/-- Witness for `wal_truncation_yields_record_list_prefix`: two one-byte
records, truncated in the middle of the second, yield exactly the first. -/
theorem wal_truncation_witness :
    ∃ k, k ≤ ([⟨.put, [1], [2]⟩, ⟨.put, [3], [4]⟩] : List WALRecord).length ∧
      walItems ((encodeAll [⟨.put, [1], [2]⟩, ⟨.put, [3], [4]⟩]).take 20) =
        (([⟨.put, [1], [2]⟩, ⟨.put, [3], [4]⟩] : List WALRecord).take k).map .ok ∧
      (encodeAll (([⟨.put, [1], [2]⟩, ⟨.put, [3], [4]⟩] : List WALRecord).take k)).length ≤ 20 ∧
      (k < ([⟨.put, [1], [2]⟩, ⟨.put, [3], [4]⟩] : List WALRecord).length →
        20 < (encodeAll (([⟨.put, [1], [2]⟩, ⟨.put, [3], [4]⟩] : List WALRecord).take (k + 1))).length) :=
  wal_truncation_yields_record_list_prefix _ (by decide) 20

/-! # Lexicographic order lemmas -/

theorem lexLt_irrefl (a : Bytes) : lexLt a a = false := by
  induction a with
  | nil => rfl
  | cons x xs ih => simp [lexLt, ih]

theorem lexLt_trans : ∀ {a b c : Bytes},
    lexLt a b = true → lexLt b c = true → lexLt a c = true := by
  intro a
  induction a with
  | nil =>
    intro b c hab hbc
    cases b with
    | nil => simp [lexLt] at hab
    | cons y ys =>
      cases c with
      | nil => simp [lexLt] at hbc
      | cons z zs => rfl
  | cons x xs ih =>
    intro b c hab hbc
    cases b with
    | nil => simp [lexLt] at hab
    | cons y ys =>
      cases c with
      | nil => simp [lexLt] at hbc
      | cons z zs =>
        simp only [lexLt] at hab hbc ⊢
        split at hab
        · rename_i hxy
          split at hbc
          · rename_i hyz
            rw [if_pos (by omega)]
          · split at hbc
            · rename_i hyz
              subst hyz
              rw [if_pos (by omega)]
            · exact absurd hbc (by simp)
        · split at hab
          · rename_i hxy
            subst hxy
            split at hbc
            · rename_i hyz
              rw [if_pos hyz]
            · split at hbc
              · rename_i hyz
                subst hyz
                rw [if_neg (by omega), if_pos rfl]
                exact ih hab hbc
              · exact absurd hbc (by simp)
          · exact absurd hab (by simp)

theorem lexLt_asymm : ∀ {a b : Bytes}, lexLt a b = true → lexLt b a = false := by
  intro a
  induction a with
  | nil =>
    intro b hab
    cases b with
    | nil => simp [lexLt] at hab
    | cons y ys => rfl
  | cons x xs ih =>
    intro b hab
    cases b with
    | nil => simp [lexLt] at hab
    | cons y ys =>
      simp only [lexLt] at hab ⊢
      split at hab
      · rename_i hxy
        rw [if_neg (by omega), if_neg (by omega)]
      · split at hab
        · rename_i hxy
          subst hxy
          rw [if_neg (by omega), if_pos rfl]
          exact ih hab
        · exact absurd hab (by simp)

theorem lexLt_conn : ∀ {a b : Bytes},
    lexLt a b = false → lexLt b a = false → a = b := by
  intro a
  induction a with
  | nil =>
    intro b hab _
    cases b with
    | nil => rfl
    | cons y ys => simp [lexLt] at hab
  | cons x xs ih =>
    intro b hab hba
    cases b with
    | nil => simp [lexLt] at hba
    | cons y ys =>
      simp only [lexLt] at hab hba
      split at hab
      · exact absurd hab (by simp)
      · split at hab
        · rename_i hxy
          subst hxy
          rw [if_neg (by omega), if_pos rfl] at hba
          rw [ih hab hba]
        · rename_i hlt heq
          rw [if_pos (by omega)] at hba
          exact absurd hba (by simp)

theorem lexLt_ne {a b : Bytes} (h : lexLt a b = true) : a ≠ b := by
  intro he
  subst he
  rw [lexLt_irrefl] at h
  exact Bool.noConfusion h

/-! # Chain and segment lemmas -/

theorem slot_some {s : SkipList} {i L : Nat} {x : Option Nat}
    (h : s.slot i L = some x) :
    ∃ n, s.nodes.get? i = some n ∧ n.forward.get? L = some x := by
  unfold SkipList.slot at h
  cases hn : s.nodes.get? i with
  | none => rw [hn] at h; exact Option.noConfusion h
  | some n => rw [hn] at h; exact ⟨n, rfl, h⟩

theorem ChainAt.start_node {s : SkipList} {L i : Nat} {l : List Nat}
    (h : ChainAt s L i l) : ∃ n, s.nodes.get? i = some n := by
  cases h with
  | nil _ hs => obtain ⟨n, hn, _⟩ := slot_some hs; exact ⟨n, hn⟩
  | cons _ j l hs _ => obtain ⟨n, hn, _⟩ := slot_some hs; exact ⟨n, hn⟩

theorem ChainAt.mem_node {s : SkipList} {L i : Nat} {l : List Nat}
    (h : ChainAt s L i l) : ∀ j ∈ l, ∃ n, s.nodes.get? j = some n := by
  induction h with
  | nil => intro j hj; exact absurd hj (List.not_mem_nil j)
  | cons i j l hs hc ih =>
    intro j' hj'
    rcases List.mem_cons.mp hj' with he | hm
    · subst he; exact hc.start_node
    · exact ih j' hm

theorem ChainAt.unique {s : SkipList} {L i : Nat} :
    ∀ {l₁ l₂ : List Nat}, ChainAt s L i l₁ → ChainAt s L i l₂ → l₁ = l₂ := by
  intro l₁
  induction l₁ generalizing i with
  | nil =>
    intro l₂ h₁ h₂
    cases h₁ with
    | nil _ hs₁ =>
      cases h₂ with
      | nil => rfl
      | cons _ j l hs₂ _ => rw [hs₁] at hs₂; simp at hs₂
  | cons a l₁ ih =>
    intro l₂ h₁ h₂
    cases h₁ with
    | cons _ _ _ hs₁ hc₁ =>
      cases h₂ with
      | nil _ hs₂ => rw [hs₁] at hs₂; simp at hs₂
      | cons _ j l hs₂ hc₂ =>
        rw [hs₁] at hs₂
        have hj : a = j := by simpa using hs₂
        subst hj
        rw [ih hc₁ hc₂]

theorem Seg.last_eq {s : SkipList} {L i t : Nat} {l : List Nat}
    (h : Seg s L i l t) : t = l.getLastD i := by
  induction h with
  | nil => rfl
  | cons i j l t hs hseg ih =>
    rw [ih]
    cases l <;> simp [List.getLastD]

theorem Seg.append_seg {s : SkipList} {L i m t : Nat} {l₁ l₂ : List Nat}
    (h₁ : Seg s L i l₁ m) (h₂ : Seg s L m l₂ t) : Seg s L i (l₁ ++ l₂) t := by
  induction h₁ with
  | nil => simpa using h₂
  | cons i j l t' hs hseg ih => exact Seg.cons i j _ t (hs) (ih h₂)

theorem chain_of_seg {s : SkipList} {L i t : Nat} {l : List Nat}
    (h : Seg s L i l t) (hend : s.slot t L = some none) : ChainAt s L i l := by
  induction h with
  | nil i => exact ChainAt.nil i hend
  | cons i j l t hs hseg ih => exact ChainAt.cons i j l hs (ih hend)

theorem chain_cons_of_seg {s : SkipList} {L i t j : Nat} {l l₂ : List Nat}
    (h : Seg s L i l t) (hstep : s.slot t L = some (some j))
    (hrest : ChainAt s L j l₂) : ChainAt s L i (l ++ j :: l₂) := by
  induction h with
  | nil i => exact ChainAt.cons i j l₂ hstep hrest
  | cons i a l t hs hseg ih => exact ChainAt.cons i a _ hs (ih hstep)

theorem chain_split {s : SkipList} {L i : Nat} :
    ∀ {l₁ l₂ : List Nat}, ChainAt s L i (l₁ ++ l₂) →
      Seg s L i l₁ (l₁.getLastD i) ∧ ChainAt s L (l₁.getLastD i) l₂ := by
  intro l₁
  induction l₁ generalizing i with
  | nil =>
    intro l₂ h
    exact ⟨Seg.nil i, by simpa using h⟩
  | cons a l₁ ih =>
    intro l₂ h
    rw [List.cons_append] at h
    cases h with
    | cons _ _ _ hs hc =>
      obtain ⟨hseg, hchain⟩ := ih hc
      have hlast : (a :: l₁).getLastD i = l₁.getLastD a := by
        cases l₁ <;> simp [List.getLastD]
      rw [hlast]
      exact ⟨Seg.cons i a l₁ _ hs hseg, hchain⟩

theorem chain_suffix_of_mem {s : SkipList} {L i j : Nat} {l : List Nat}
    (h : ChainAt s L i l) (hj : j ∈ l) :
    ∃ pre suf, l = pre ++ j :: suf ∧ ChainAt s L j suf := by
  obtain ⟨pre, suf, hsplit⟩ := List.append_of_mem hj
  subst hsplit
  obtain ⟨hseg, hchain⟩ := @chain_split _ _ _ (pre ++ [j]) _ (by simpa using h)
  have hlast : (pre ++ [j]).getLastD i = j := List.getLastD_concat _ _ _
  rw [hlast] at hchain
  exact ⟨pre, suf, rfl, hchain⟩

/-! # Sorted-list splitting lemmas -/

theorem takeWhile_filter_of_closed {α : Type} {R : α → α → Prop} {p : α → Bool} :
    ∀ {l : List α}, l.Pairwise R → (∀ i j, R i j → p j = true → p i = true) →
      l.takeWhile p = l.filter p ∧ l.dropWhile p = l.filter (fun a => !(p a)) := by
  intro l
  induction l with
  | nil => intro _ _; exact ⟨rfl, rfl⟩
  | cons a l ih =>
    intro hp hcl
    have ha : ∀ b ∈ l, R a b := (List.pairwise_cons.mp hp).1
    have hl : l.Pairwise R := (List.pairwise_cons.mp hp).2
    obtain ⟨iht, ihd⟩ := ih hl hcl
    cases hpa : p a with
    | true =>
      constructor
      · simp [List.takeWhile_cons, List.filter_cons, hpa, iht]
      · simp [List.dropWhile_cons, List.filter_cons, hpa, ihd]
    | false =>
      have hnone : ∀ b ∈ l, p b = false := by
        intro b hb
        cases hpb : p b with
        | false => rfl
        | true => exact absurd (hcl a b (ha b hb) hpb) (by simp [hpa])
      constructor
      · rw [List.takeWhile_cons]
        simp only [hpa, Bool.false_eq_true, if_false, List.filter_cons]
        rw [List.filter_eq_nil_iff.mpr (fun b hb => by simp [hnone b hb])]
      · rw [List.dropWhile_cons]
        simp only [hpa, Bool.false_eq_true, if_false, List.filter_cons, Bool.not_false,
          if_true]
        congr 1
        exact (List.filter_eq_self.mpr (fun b hb => by simp [hnone b hb])).symm

theorem nodup_split_unique {α : Type} [DecidableEq α] {e : α} :
    ∀ {p₁ : List α} {l s₁ p₂ s₂ : List α}, l.Nodup →
      l = p₁ ++ e :: s₁ → l = p₂ ++ e :: s₂ → p₁ = p₂ ∧ s₁ = s₂ := by
  intro p₁
  induction p₁ with
  | nil =>
    intro l s₁ p₂ s₂ hnd h₁ h₂
    subst h₁
    cases p₂ with
    | nil =>
      simp only [List.nil_append] at h₂
      exact ⟨rfl, ((List.cons.injEq _ _ _ _).mp h₂).2⟩
    | cons b p₂' =>
      simp only [List.nil_append, List.cons_append] at h₂
      obtain ⟨hb, hrest⟩ := (List.cons.injEq _ _ _ _).mp h₂
      exfalso
      have : e ∈ s₁ := by
        rw [hrest]
        exact List.mem_append.mpr (Or.inr (List.mem_cons_self e s₂))
      exact (List.nodup_cons.mp hnd).1 this
  | cons a p₁' ih =>
    intro l s₁ p₂ s₂ hnd h₁ h₂
    subst h₁
    cases p₂ with
    | nil =>
      simp only [List.nil_append, List.cons_append] at h₂
      obtain ⟨hb, hrest⟩ := (List.cons.injEq _ _ _ _).mp h₂
      subst hb
      exact absurd (List.mem_append.mpr (Or.inr (List.mem_cons_self _ s₁)))
        (List.nodup_cons.mp hnd).1
    | cons b p₂' =>
      simp only [List.cons_append] at h₂
      obtain ⟨hb, hrest⟩ := (List.cons.injEq _ _ _ _).mp h₂
      have hnd' : (p₁' ++ e :: s₁).Nodup := (List.nodup_cons.mp hnd).2
      obtain ⟨hp, hs⟩ := ih hnd' rfl hrest
      exact ⟨by rw [hb, hp], hs⟩

theorem getLastD_cons {a d : Nat} {l : List Nat} :
    (a :: l).getLastD d = l.getLastD a := by
  cases l <;> simp [List.getLastD]

/-! # Invariant consequences -/

theorem SkipInv.sortedL {s : SkipList} {ch : Nat → List Nat} (inv : SkipInv s ch)
    {L : Nat} (hL : L < MAX_HEIGHT) :
    (ch L).Pairwise (fun i j => lexLt (s.keyOf i) (s.keyOf j) = true) := by
  rw [inv.levels L hL]
  exact inv.sorted0.sublist (List.filter_sublist _)

theorem SkipInv.nodup0 {s : SkipList} {ch : Nat → List Nat} (inv : SkipInv s ch) :
    (ch 0).Nodup :=
  inv.sorted0.imp fun {i j} h => by
    intro he
    subst he
    rw [lexLt_irrefl] at h
    exact Bool.noConfusion h

theorem SkipInv.nodupL {s : SkipList} {ch : Nat → List Nat} (inv : SkipInv s ch)
    {L : Nat} (hL : L < MAX_HEIGHT) : (ch L).Nodup := by
  rw [inv.levels L hL]
  exact inv.nodup0.sublist (List.filter_sublist _)

theorem SkipInv.memL {s : SkipList} {ch : Nat → List Nat} (inv : SkipInv s ch)
    {L : Nat} (hL : L < MAX_HEIGHT) {j : Nat} :
    j ∈ ch L ↔ j ∈ ch 0 ∧ L < s.heightOf j := by
  rw [inv.levels L hL]
  simp [List.mem_filter]

theorem SkipInv.len0_lt {s : SkipList} {ch : Nat → List Nat} (inv : SkipInv s ch) :
    (ch 0).length < s.nodes.length := by
  have hsub : (ch 0).toFinset ⊆ Finset.range s.nodes.length := by
    intro j hj
    rw [List.mem_toFinset] at hj
    exact Finset.mem_range.mpr (inv.mem0 j hj).2
  have hcard : (ch 0).toFinset.card = (ch 0).length :=
    List.toFinset_card_of_nodup inv.nodup0
  have hle : (ch 0).toFinset.card ≤ s.nodes.length := by
    have := Finset.card_le_card hsub
    simpa using this
  have hzero : 0 ∉ (ch 0).toFinset := by
    rw [List.mem_toFinset]
    intro h0
    have := (inv.mem0 0 h0).1
    omega
  have hlt : (ch 0).toFinset.card < s.nodes.length := by
    have hne : s.nodes.length ≠ 0 := by
      have hhead : s.heightOf 0 = MAX_HEIGHT := inv.headH
      intro h0
      unfold SkipList.heightOf at hhead
      rw [List.get?_eq_none.mpr (by omega)] at hhead
      simp [MAX_HEIGHT] at hhead
    have hzr : (0 : Nat) ∈ Finset.range s.nodes.length := Finset.mem_range.mpr (by omega)
    by_contra hcon
    push_neg at hcon
    have hcr : (Finset.range s.nodes.length).card = s.nodes.length := Finset.card_range _
    have : (ch 0).toFinset = Finset.range s.nodes.length :=
      Finset.eq_of_subset_of_card_le hsub (by rw [hcr]; omega)
    rw [this] at hzero
    exact hzero hzr
  omega

theorem SkipInv.chainSplitAB {s : SkipList} {ch : Nat → List Nat}
    (inv : SkipInv s ch) (key : Bytes) {L : Nat} (hL : L < MAX_HEIGHT) :
    ch L = chA s ch key L ++ chB s ch key L := by
  have hcl : ∀ i j, (fun i j => lexLt (s.keyOf i) (s.keyOf j) = true) i j →
      keyLtb s key j = true → keyLtb s key i = true := by
    intro i j hij hj
    exact lexLt_trans hij hj
  obtain ⟨ht, hd⟩ := takeWhile_filter_of_closed (inv.sortedL hL) hcl
  have := List.takeWhile_append_dropWhile (p := keyLtb s key) (l := ch L)
  rw [ht, hd] at this
  exact this.symm

theorem chB_head_not_lt {s : SkipList} {ch : Nat → List Nat} {key : Bytes}
    {L j : Nat} (h : (chB s ch key L).head? = some j) :
    lexLt (s.keyOf j) key = false := by
  have hmem : j ∈ chB s ch key L :=
    List.mem_of_mem_head? (by rw [h]; exact Option.mem_def.mpr rfl)
  unfold chB at hmem
  have := (List.mem_filter.mp hmem).2
  simpa [keyLtb] using this

theorem chA_mem {s : SkipList} {ch : Nat → List Nat} {key : Bytes} {L j : Nat}
    (h : j ∈ chA s ch key L) : j ∈ ch L ∧ lexLt (s.keyOf j) key = true := by
  unfold chA at h
  have := List.mem_filter.mp h
  exact ⟨this.1, by simpa [keyLtb] using this.2⟩

theorem chB_mem {s : SkipList} {ch : Nat → List Nat} {key : Bytes} {L j : Nat}
    (h : j ∈ chB s ch key L) : j ∈ ch L ∧ lexLt (s.keyOf j) key = false := by
  unfold chB at h
  have := List.mem_filter.mp h
  exact ⟨this.1, by simpa [keyLtb] using this.2⟩

theorem chA_mem_of {s : SkipList} {ch : Nat → List Nat} {key : Bytes} {L j : Nat}
    (h1 : j ∈ ch L) (h2 : lexLt (s.keyOf j) key = true) : j ∈ chA s ch key L := by
  unfold chA
  exact List.mem_filter.mpr ⟨h1, by simpa [keyLtb] using h2⟩

/-! # Walk lemmas -/

theorem keyOf_eq {s : SkipList} {j : Nat} {n : SkipNode}
    (h : s.nodes.get? j = some n) : s.keyOf j = n.key := by
  unfold SkipList.keyOf
  rw [h]
  rfl

theorem valOf_eq {s : SkipList} {j : Nat} {n : SkipNode}
    (h : s.nodes.get? j = some n) : s.valOf j = n.value := by
  unfold SkipList.valOf
  rw [h]
  rfl

theorem heightOf_eq {s : SkipList} {j : Nat} {n : SkipNode}
    (h : s.nodes.get? j = some n) : s.heightOf j = n.forward.length := by
  unfold SkipList.heightOf
  rw [h]
  rfl

/-- What the inner loop of `insert` returns, given the chain from `cur`
split into a below-key part `tA` and a rest `tB` whose head is not below
the key. -/
theorem insWalk_eq {s : SkipList} {key : Bytes} {L : Nat} :
    ∀ (tA : List Nat) (tB : List Nat) (cur fuel : Nat),
      ChainAt s L cur (tA ++ tB) → (tA ++ tB).length < fuel →
      (∀ j ∈ tA, lexLt (s.keyOf j) key = true) →
      (∀ j, tB.head? = some j → lexLt (s.keyOf j) key = false) →
      SkipList.insWalk s key L fuel cur =
        (match tB.head? with
         | some j => if s.keyOf j = key then some (.inl j)
                     else some (.inr (tA.getLastD cur))
         | none => some (.inr (tA.getLastD cur))) := by
  intro tA
  induction tA with
  | nil =>
    intro tB cur fuel hch hf hA hB
    simp only [List.nil_append] at hch hf
    cases fuel with
    | zero => exact absurd hf (Nat.not_lt_zero _)
    | succ f =>
      cases tB with
      | nil =>
        cases hch with
        | nil _ hs =>
          simp [SkipList.insWalk, hs, List.getLastD]
      | cons j tB' =>
        cases hch with
        | cons _ _ _ hs hc =>
          obtain ⟨m, hm⟩ := hc.start_node
          have hkj : s.keyOf j = m.key := keyOf_eq hm
          have hBj : lexLt (s.keyOf j) key = false := hB j rfl
          simp only [SkipList.insWalk, hs, SkipList.nodeAt, hm]
          rw [← hkj, hBj]
          simp only [Bool.false_eq_true, if_false, List.head?_cons, List.getLastD]
  | cons a tA' ih =>
    intro tB cur fuel hch hf hA hB
    rw [List.cons_append] at hch
    cases fuel with
    | zero => exact absurd hf (Nat.not_lt_zero _)
    | succ f =>
      cases hch with
      | cons _ _ _ hs hc =>
        obtain ⟨m, hm⟩ := hc.start_node
        have hka : s.keyOf a = m.key := keyOf_eq hm
        have hAa : lexLt (s.keyOf a) key = true := hA a (List.mem_cons_self a tA')
        simp only [SkipList.insWalk, hs, SkipList.nodeAt, hm]
        rw [← hka, hAa]
        simp only [if_true]
        rw [ih tB a f hc
          (by simp only [List.length_cons, List.length_append] at hf ⊢
              omega)
          (fun j hj => hA j (List.mem_cons_of_mem a hj)) hB]
        rw [getLastD_cons]

/-- What one level of the `get` search loop returns. -/
theorem getWalk_eq {s : SkipList} {key : Bytes} {L : Nat} :
    ∀ (tA : List Nat) (tB : List Nat) (cur fuel : Nat),
      ChainAt s L cur (tA ++ tB) → (tA ++ tB).length < fuel →
      (∀ j ∈ tA, lexLt (s.keyOf j) key = true) →
      (∀ j, tB.head? = some j → lexLt (s.keyOf j) key = false) →
      SkipList.getWalk s key L fuel cur = some (tA.getLastD cur) := by
  intro tA
  induction tA with
  | nil =>
    intro tB cur fuel hch hf hA hB
    simp only [List.nil_append] at hch hf
    cases fuel with
    | zero => exact absurd hf (Nat.not_lt_zero _)
    | succ f =>
      cases tB with
      | nil =>
        cases hch with
        | nil _ hs => simp [SkipList.getWalk, hs, List.getLastD]
      | cons j tB' =>
        cases hch with
        | cons _ _ _ hs hc =>
          obtain ⟨m, hm⟩ := hc.start_node
          have hkj : s.keyOf j = m.key := keyOf_eq hm
          have hBj : lexLt (s.keyOf j) key = false := hB j rfl
          simp only [SkipList.getWalk, hs, SkipList.nodeAt, hm]
          rw [← hkj, hBj]
          simp [List.getLastD]
  | cons a tA' ih =>
    intro tB cur fuel hch hf hA hB
    rw [List.cons_append] at hch
    cases fuel with
    | zero => exact absurd hf (Nat.not_lt_zero _)
    | succ f =>
      cases hch with
      | cons _ _ _ hs hc =>
        obtain ⟨m, hm⟩ := hc.start_node
        have hka : s.keyOf a = m.key := keyOf_eq hm
        have hAa : lexLt (s.keyOf a) key = true := hA a (List.mem_cons_self a tA')
        simp only [SkipList.getWalk, hs, SkipList.nodeAt, hm]
        rw [← hka, hAa]
        simp only [if_true]
        rw [ih tB a f hc
          (by simp only [List.length_cons, List.length_append] at hf ⊢
              omega)
          (fun j hj => hA j (List.mem_cons_of_mem a hj)) hB]
        rw [getLastD_cons]

/-! # Descent lemmas -/

theorem getLastD_mem {l : List Nat} {d : Nat} (h : l ≠ []) : l.getLastD d ∈ l := by
  rw [List.getLastD_eq_getLast?]
  cases hl : l.getLast? with
  | none => exact absurd (List.getLast?_eq_none_iff.mp hl) h
  | some a =>
    simp only [Option.getD_some]
    obtain ⟨ys, hys⟩ := List.getLast?_eq_some_iff.mp hl
    rw [hys]
    exact List.mem_append.mpr (Or.inr (List.mem_cons_self _ _))

theorem entry_initial {s : SkipList} {ch : Nat → List Nat} (inv : SkipInv s ch)
    (key : Bytes) {L : Nat} (hL : L < MAX_HEIGHT) :
    EntryInv s ch key L 0 := by
  refine ⟨[], chA s ch key L, by simp, Seg.nil 0, ?_⟩
  have := inv.chains L hL
  rwa [inv.chainSplitAB key hL] at this

theorem exit_transfer {s : SkipList} {ch : Nat → List Nat} (inv : SkipInv s ch)
    {key : Bytes} {m e : Nat} (hm : m < MAX_HEIGHT) (hm1 : 1 ≤ m)
    (hexit : ExitInv s ch key m e) :
    EntryInv s ch key (m - 1) e := by
  obtain ⟨hseg, hchain⟩ := hexit
  have hm' : m - 1 < MAX_HEIGHT := by omega
  cases hA : chA s ch key m with
  | nil =>
    have he : e = 0 := by
      have := hseg.last_eq
      rw [hA] at this
      simpa [List.getLastD] using this
    subst he
    refine ⟨[], chA s ch key (m - 1), by simp, Seg.nil 0, ?_⟩
    have := inv.chains (m - 1) hm'
    rwa [inv.chainSplitAB key hm'] at this
  | cons a l =>
    have hne : chA s ch key m ≠ [] := by rw [hA]; exact List.cons_ne_nil a l
    have hemem : e ∈ chA s ch key m := by
      have := hseg.last_eq
      rw [this]
      exact getLastD_mem hne
    obtain ⟨hchm, hlt⟩ := chA_mem hemem
    have hch0 : e ∈ ch 0 ∧ m < s.heightOf e := (inv.memL hm).mp hchm
    have hchm1 : e ∈ ch (m - 1) := (inv.memL hm').mpr ⟨hch0.1, by omega⟩
    have hAm1 : e ∈ chA s ch key (m - 1) := chA_mem_of hchm1 hlt
    obtain ⟨pre, suf, hsplit⟩ := List.append_of_mem hAm1
    have hchl : ch (m - 1) = pre ++ e :: (suf ++ chB s ch key (m - 1)) := by
      rw [inv.chainSplitAB key hm', hsplit]
      simp [List.append_assoc]
    obtain ⟨pre2, suf2, hsplit2, hchain2⟩ :=
      chain_suffix_of_mem (inv.chains (m - 1) hm')
        (by rw [hchl]; exact List.mem_append.mpr (Or.inr (List.mem_cons_self _ _)))
    obtain ⟨hpe, hse⟩ := nodup_split_unique (inv.nodupL hm') hsplit2 hchl
    refine ⟨pre ++ [e], suf, by rw [hsplit]; simp, ?_, ?_⟩
    · have hc := inv.chains (m - 1) hm'
      rw [show ch (m - 1) = (pre ++ [e]) ++ (suf ++ chB s ch key (m - 1)) by
        rw [hchl]; simp [List.append_assoc]] at hc
      obtain ⟨hseg2, _⟩ := chain_split hc
      rwa [List.getLastD_concat] at hseg2
    · rw [hse] at hchain2
      exact hchain2

theorem getD_set_self {l : List Nat} {i a d : Nat} (h : i < l.length) :
    (l.set i a).getD i d = a := by
  simp [List.getD_eq_getElem?_getD, List.getElem?_set_self h]

theorem getD_set_ne {l : List Nat} {i j a d : Nat} (h : i ≠ j) :
    (l.set i a).getD j d = l.getD j d := by
  simp [List.getD_eq_getElem?_getD, List.getElem?_set_ne h]

theorem chainLen_le {s : SkipList} {ch : Nat → List Nat} (inv : SkipInv s ch)
    {L : Nat} (hL : L < MAX_HEIGHT) : (ch L).length ≤ (ch 0).length := by
  rw [inv.levels L hL]
  exact List.length_filter_le _ _

/-- One processed level of the insert descent: either the key is found at the
head of the not-below part, or the walk stops at the level predecessor. -/
theorem walk_step {s : SkipList} {ch : Nat → List Nat} (inv : SkipInv s ch)
    {key : Bytes} {L cur : Nat} (hL : L < MAX_HEIGHT)
    (hentry : EntryInv s ch key L cur) (fuel : Nat) (hf : s.nodes.length ≤ fuel) :
    (∃ j tB', chB s ch key L = j :: tB' ∧ s.keyOf j = key ∧
       SkipList.insWalk s key L fuel cur = some (.inl j)) ∨
    (∃ e, SkipList.insWalk s key L fuel cur = some (.inr e) ∧
       ExitInv s ch key L e ∧
       (∀ j, (chB s ch key L).head? = some j → s.keyOf j ≠ key)) := by
  obtain ⟨preA, sufA, hAs, hsegpre, hchain⟩ := hentry
  have hlensplit : preA.length + sufA.length = (chA s ch key L).length := by
    rw [hAs, List.length_append]
  have hABlen : (chA s ch key L).length + (chB s ch key L).length = (ch L).length := by
    rw [inv.chainSplitAB key hL, List.length_append]
  have hlen : (sufA ++ chB s ch key L).length < fuel := by
    rw [List.length_append]
    have h1 := chainLen_le inv hL
    have h2 := inv.len0_lt
    omega
  have hA : ∀ j ∈ sufA, lexLt (s.keyOf j) key = true := by
    intro j hj
    exact (chA_mem (by rw [hAs]; exact List.mem_append.mpr (Or.inr hj))).2
  have hB : ∀ j, (chB s ch key L).head? = some j → lexLt (s.keyOf j) key = false :=
    fun j hj => chB_head_not_lt hj
  have heq := insWalk_eq sufA (chB s ch key L) cur fuel hchain hlen hA hB
  obtain ⟨hsegsuf, hchainB⟩ := chain_split hchain
  have hexit : ExitInv s ch key L (sufA.getLastD cur) :=
    ⟨by rw [hAs]; exact hsegpre.append_seg hsegsuf, hchainB⟩
  cases hhd : (chB s ch key L).head? with
  | none =>
    right
    refine ⟨sufA.getLastD cur, ?_, hexit, ?_⟩
    · rw [heq, hhd]
    · intro j hj
      exact Option.noConfusion hj
  | some j =>
    by_cases hk : s.keyOf j = key
    · left
      cases hBl : chB s ch key L with
      | nil => rw [hBl] at hhd; simp at hhd
      | cons b t =>
        rw [hBl] at hhd
        have hjb : b = j := by simpa using hhd
        subst hjb
        refine ⟨b, t, rfl, hk, ?_⟩
        rw [heq, hBl]
        simp [hk]
    · right
      refine ⟨sufA.getLastD cur, ?_, hexit, ?_⟩
      · rw [heq, hhd]
        simp [hk]
      · intro j' hj'
        injection hj' with h3
        rw [← h3]
        exact hk

/-- Running the insert descent from level `c - 1` down to level 0: either the
key is found at some level (the overwrite case), or the `update` array gets
the per-level predecessors. -/
theorem insDescend_run {s : SkipList} {ch : Nat → List Nat} (inv : SkipInv s ch)
    (key : Bytes) :
    ∀ (c : Nat) (cur : Nat) (upd : List Nat),
      c ≤ s.height →
      upd.length = MAX_HEIGHT →
      (1 ≤ c → EntryInv s ch key (c - 1) cur) →
      ((∃ found, SkipList.insDescend s key s.nodes.length c cur upd = some (.inl found) ∧
          found ∈ ch 0 ∧ s.keyOf found = key) ∨
       (∃ updOut, SkipList.insDescend s key s.nodes.length c cur upd = some (.inr updOut) ∧
          updOut.length = MAX_HEIGHT ∧
          (∀ L, L < c → ExitInv s ch key L (updOut.getD L 0)) ∧
          (∀ L, L < c → ∀ j, (chB s ch key L).head? = some j → s.keyOf j ≠ key) ∧
          (∀ L, c ≤ L → updOut.getD L 0 = upd.getD L 0))) := by
  intro c
  induction c with
  | zero =>
    intro cur upd _ hlen _
    right
    exact ⟨upd, rfl, hlen, fun L hL => absurd hL (Nat.not_lt_zero L),
      fun L hL => absurd hL (Nat.not_lt_zero L), fun L _ => rfl⟩
  | succ c ih =>
    intro cur upd hc hlen hentry
    have hL : c < MAX_HEIGHT := by
      have := inv.hh2
      unfold MAX_HEIGHT at *
      omega
    have hent : EntryInv s ch key c cur := by simpa using hentry (by omega)
    rcases walk_step inv hL hent s.nodes.length (le_refl _) with
      ⟨j, tB', hB, hkey, hw⟩ | ⟨e, hw, hexit, hnof⟩
    · left
      refine ⟨j, ?_, ?_, hkey⟩
      · simp only [SkipList.insDescend, hw]
      · have hjB : j ∈ chB s ch key c := by
          rw [hB]
          exact List.mem_cons_self _ _
        exact ((inv.memL hL).mp (chB_mem hjB).1).1
    · have hstep : SkipList.insDescend s key s.nodes.length (c + 1) cur upd =
          SkipList.insDescend s key s.nodes.length c e (upd.set c e) := by
        simp only [SkipList.insDescend, hw]
      have hlen' : (upd.set c e).length = MAX_HEIGHT := by
        rw [List.length_set]
        exact hlen
      have hentry' : 1 ≤ c → EntryInv s ch key (c - 1) e := by
        intro h1
        exact exit_transfer inv hL h1 hexit
      rcases ih e (upd.set c e) (by omega) hlen' hentry' with
        ⟨found, hrun, hmem, hkey⟩ | ⟨updOut, hrun, hlenOut, hex, hnf, hpres⟩
      · left
        exact ⟨found, by rw [hstep]; exact hrun, hmem, hkey⟩
      · right
        refine ⟨updOut, by rw [hstep]; exact hrun, hlenOut, ?_, ?_, ?_⟩
        · intro L hLc
          by_cases hLc' : L < c
          · exact hex L hLc'
          · have hLeq : L = c := by omega
            subst hLeq
            have h1 : updOut.getD L 0 = (upd.set L e).getD L 0 := hpres L (le_refl L)
            have h2 : (upd.set L e).getD L 0 = e := getD_set_self (by omega)
            rw [h1, h2]
            exact hexit
        · intro L hLc
          by_cases hLc' : L < c
          · exact hnf L hLc'
          · have hLeq : L = c := by omega
            subst hLeq
            exact hnof
        · intro L hLc
          have h1 : updOut.getD L 0 = (upd.set c e).getD L 0 := hpres L (by omega)
          have h2 : (upd.set c e).getD L 0 = upd.getD L 0 := getD_set_ne (by omega)
          rw [h1, h2]

/-! # Splice lemmas -/

theorem setForward_ok {s : SkipList} {i L : Nat} {v : Option Nat}
    (hex : ∃ nd, s.nodes.get? i = some nd) (hL : L < s.heightOf i) :
    ∃ s2, s.setForward i L v = some s2 ∧
      s2.nodes.length = s.nodes.length ∧ s2.height = s.height ∧ s2.len = s.len ∧
      (∀ x, s2.keyOf x = s.keyOf x) ∧ (∀ x, s2.valOf x = s.valOf x) ∧
      (∀ x, s2.heightOf x = s.heightOf x) ∧
      s2.slot i L = some v ∧
      (∀ x M, x ≠ i ∨ M ≠ L → s2.slot x M = s.slot x M) := by
  obtain ⟨nd, hnd⟩ := hex
  have hLf : L < nd.forward.length := by
    rw [heightOf_eq hnd] at hL
    exact hL
  have hilen : i < s.nodes.length := by
    by_contra hcon
    push_neg at hcon
    rw [List.get?_eq_none.mpr hcon] at hnd
    exact Option.noConfusion hnd
  have hnd' : s.nodes[i]? = some nd := by
    rw [← List.get?_eq_getElem?]
    exact hnd
  refine ⟨{ s with nodes := s.nodes.set i { nd with forward := nd.forward.set L v } },
    ?_, by simp, rfl, rfl, ?_, ?_, ?_, ?_, ?_⟩
  · unfold SkipList.setForward
    rw [hnd]
    dsimp only
    rw [if_pos hLf]
  · intro x
    unfold SkipList.keyOf
    by_cases hx : x = i
    · subst hx
      simp only [List.get?_eq_getElem?, List.getElem?_set_self hilen, hnd']
      rfl
    · simp only [List.get?_eq_getElem?, List.getElem?_set_ne (fun h => hx h.symm)]
  · intro x
    unfold SkipList.valOf
    by_cases hx : x = i
    · subst hx
      simp only [List.get?_eq_getElem?, List.getElem?_set_self hilen, hnd']
      rfl
    · simp only [List.get?_eq_getElem?, List.getElem?_set_ne (fun h => hx h.symm)]
  · intro x
    unfold SkipList.heightOf
    by_cases hx : x = i
    · subst hx
      simp only [List.get?_eq_getElem?, List.getElem?_set_self hilen, hnd']
      simp
    · simp only [List.get?_eq_getElem?, List.getElem?_set_ne (fun h => hx h.symm)]
  · unfold SkipList.slot
    simp only [List.get?_eq_getElem?, List.getElem?_set_self hilen]
    exact List.getElem?_set_self hLf
  · intro x M hxM
    unfold SkipList.slot
    by_cases hx : x = i
    · subst hx
      have hM : M ≠ L := by
        rcases hxM with h | h
        · exact absurd rfl h
        · exact h
      simp only [List.get?_eq_getElem?, List.getElem?_set_self hilen, hnd']
      exact List.getElem?_set_ne (fun h => hM h.symm)
    · simp only [List.get?_eq_getElem?, List.getElem?_set_ne (fun h => hx h.symm)]

theorem node_exists_of_heightOf_pos {s : SkipList} {i : Nat}
    (h : 0 < s.heightOf i) : ∃ nd, s.nodes.get? i = some nd := by
  cases hn : s.nodes.get? i with
  | none =>
    unfold SkipList.heightOf at h
    rw [hn] at h
    simp at h
  | some nd => exact ⟨nd, rfl⟩

theorem spliceOne_ok {s : SkipList} {n pred L : Nat} {w : Option Nat}
    (hw : s.slot pred L = some w)
    (hexn : ∃ nd, s.nodes.get? n = some nd) (hLn : L < s.heightOf n)
    (hne : pred ≠ n) :
    ∃ s2, s.spliceOne n pred L = some s2 ∧
      s2.nodes.length = s.nodes.length ∧ s2.height = s.height ∧ s2.len = s.len ∧
      (∀ x, s2.keyOf x = s.keyOf x) ∧ (∀ x, s2.valOf x = s.valOf x) ∧
      (∀ x, s2.heightOf x = s.heightOf x) ∧
      s2.slot n L = some w ∧ s2.slot pred L = some (some n) ∧
      (∀ x M, (x ≠ n ∧ x ≠ pred) ∨ M ≠ L → s2.slot x M = s.slot x M) := by
  obtain ⟨ndP, hndP, hfP⟩ := slot_some hw
  have hLpred : L < s.heightOf pred := by
    rw [heightOf_eq hndP]
    by_contra hcon
    push_neg at hcon
    rw [List.get?_eq_none.mpr hcon] at hfP
    exact Option.noConfusion hfP
  obtain ⟨s1, hs1, h1len, h1h, h1l, h1k, h1v, h1hg, h1slot, h1pres⟩ :=
    setForward_ok (v := w) hexn hLn
  have hexp1 : ∃ nd, s1.nodes.get? pred = some nd :=
    node_exists_of_heightOf_pos (by rw [h1hg]; omega)
  have hLp1 : L < s1.heightOf pred := by rw [h1hg]; exact hLpred
  obtain ⟨s2, hs2, h2len, h2h, h2l, h2k, h2v, h2hg, h2slot, h2pres⟩ :=
    setForward_ok (v := some n) hexp1 hLp1
  refine ⟨s2, ?_, by rw [h2len, h1len], by rw [h2h, h1h], by rw [h2l, h1l],
    fun x => by rw [h2k, h1k], fun x => by rw [h2v, h1v],
    fun x => by rw [h2hg, h1hg], ?_, ?_, ?_⟩
  · unfold SkipList.spliceOne
    rw [hw]
    dsimp only
    rw [hs1]
    dsimp only
    exact hs2
  · rw [h2pres n L (Or.inl hne.symm)]
    exact h1slot
  · exact h2slot
  · intro x M hxM
    have hc2 : x ≠ pred ∨ M ≠ L := by
      rcases hxM with ⟨_, h⟩ | h
      · exact Or.inl h
      · exact Or.inr h
    have hc1 : x ≠ n ∨ M ≠ L := by
      rcases hxM with ⟨h, _⟩ | h
      · exact Or.inl h
      · exact Or.inr h
    rw [h2pres x M hc2, h1pres x M hc1]

theorem spliceUpTo_ok {s1 : SkipList} {n : Nat} {upd : List Nat} :
    ∀ m : Nat,
      (∀ L, L < m → upd.getD L 0 ≠ n) →
      (∀ L, L < m → ∃ w, s1.slot (upd.getD L 0) L = some w) →
      (∀ L, L < m → L < s1.heightOf n) →
      ∃ s2, SkipList.spliceUpTo s1 n upd m = some s2 ∧
        s2.nodes.length = s1.nodes.length ∧ s2.height = s1.height ∧ s2.len = s1.len ∧
        (∀ x, s2.keyOf x = s1.keyOf x) ∧ (∀ x, s2.valOf x = s1.valOf x) ∧
        (∀ x, s2.heightOf x = s1.heightOf x) ∧
        (∀ L, L < m → s2.slot n L = s1.slot (upd.getD L 0) L) ∧
        (∀ L, L < m → s2.slot (upd.getD L 0) L = some (some n)) ∧
        (∀ x M, m ≤ M ∨ (x ≠ n ∧ x ≠ upd.getD M 0) → s2.slot x M = s1.slot x M) := by
  intro m
  induction m with
  | zero =>
    intro _ _ _
    exact ⟨s1, rfl, rfl, rfl, rfl, fun _ => rfl, fun _ => rfl, fun _ => rfl,
      fun L hL => absurd hL (Nat.not_lt_zero L),
      fun L hL => absurd hL (Nat.not_lt_zero L), fun _ _ _ => rfl⟩
  | succ m ih =>
    intro hne hw hhn
    obtain ⟨s2, hs2, h2len, h2h, h2l, h2k, h2v, h2hg, h2n, h2p, h2pres⟩ :=
      ih (fun L hL => hne L (by omega)) (fun L hL => hw L (by omega))
        (fun L hL => hhn L (by omega))
    obtain ⟨w, hwm⟩ := hw m (by omega)
    have hw2 : s2.slot (upd.getD m 0) m = some w := by
      rw [h2pres _ m (Or.inl (le_refl m))]
      exact hwm
    have hexn2 : ∃ nd, s2.nodes.get? n = some nd :=
      node_exists_of_heightOf_pos (by rw [h2hg]; have := hhn m (by omega); omega)
    have hLn2 : m < s2.heightOf n := by
      rw [h2hg]
      exact hhn m (by omega)
    obtain ⟨s3, hs3, h3len, h3h, h3l, h3k, h3v, h3hg, h3n, h3p, h3pres⟩ :=
      spliceOne_ok hw2 hexn2 hLn2 (hne m (by omega))
    refine ⟨s3, ?_, by rw [h3len, h2len], by rw [h3h, h2h], by rw [h3l, h2l],
      fun x => by rw [h3k, h2k], fun x => by rw [h3v, h2v],
      fun x => by rw [h3hg, h2hg], ?_, ?_, ?_⟩
    · show (match SkipList.spliceUpTo s1 n upd m with
        | none => none
        | some s1' => s1'.spliceOne n (upd.getD m 0) m) = some s3
      rw [hs2]
      exact hs3
    · intro L hL
      by_cases hLm : L < m
      · rw [h3pres n L (Or.inr (by omega))]
        exact h2n L hLm
      · have hLe : L = m := by omega
        subst hLe
        rw [h3n, hwm]
    · intro L hL
      by_cases hLm : L < m
      · rw [h3pres (upd.getD L 0) L ?_]
        · exact h2p L hLm
        · right
          omega
      · have hLe : L = m := by omega
        subst hLe
        exact h3p
    · intro x M hxM
      have hc3 : (x ≠ n ∧ x ≠ upd.getD m 0) ∨ M ≠ m := by
        rcases hxM with h | ⟨hxn, hxu⟩
        · right; omega
        · by_cases hMm : M = m
          · subst hMm
            exact Or.inl ⟨hxn, hxu⟩
          · exact Or.inr hMm
      rw [h3pres x M hc3]
      rcases hxM with h | ⟨hxn, hxu⟩
      · exact h2pres x M (Or.inl (by omega))
      · exact h2pres x M (Or.inr ⟨hxn, hxu⟩)

/-! # Chain congruence and transfer helpers -/

theorem seg_congr_slots {s s2 : SkipList} {L i t : Nat} {l : List Nat}
    (h : Seg s L i l t) (hnd : (i :: l).Nodup)
    (hsl : ∀ x, (x = i ∨ x ∈ l) → x ≠ t → s2.slot x L = s.slot x L) :
    Seg s2 L i l t := by
  induction h with
  | nil i => exact Seg.nil i
  | cons i j l t hs hseg ih =>
    have htl : t ∈ j :: l := by
      have := hseg.last_eq
      rw [this]
      cases l with
      | nil => simp [List.getLastD]
      | cons b bs => exact List.mem_cons_of_mem j (getLastD_mem (List.cons_ne_nil b bs))
    have hit : i ≠ t := by
      intro he
      subst he
      exact (List.nodup_cons.mp hnd).1 htl
    refine Seg.cons i j l t ?_ (ih (List.nodup_cons.mp hnd).2 ?_)
    · rw [hsl i (Or.inl rfl) hit]
      exact hs
    · intro x hx hxt
      refine hsl x ?_ hxt
      rcases hx with he | hm
      · exact Or.inr (he ▸ List.mem_cons_self j l)
      · exact Or.inr (List.mem_cons_of_mem j hm)

theorem chain_congr_slots {s s2 : SkipList} {L i : Nat} {l : List Nat}
    (h : ChainAt s L i l)
    (hsl : ∀ x, (x = i ∨ x ∈ l) → s2.slot x L = s.slot x L) :
    ChainAt s2 L i l := by
  induction h with
  | nil i hs =>
    refine ChainAt.nil i ?_
    rw [hsl i (Or.inl rfl)]
    exact hs
  | cons i j l hs hc ih =>
    refine ChainAt.cons i j l ?_ (ih ?_)
    · rw [hsl i (Or.inl rfl)]
      exact hs
    · intro x hx
      rcases hx with he | hm
      · exact hsl x (Or.inr (he ▸ List.mem_cons_self j l))
      · exact hsl x (Or.inr (List.mem_cons_of_mem j hm))

/-- Levels at or above the current height are empty and the head pointer
there is `None`. -/
theorem top_level_empty {s : SkipList} {ch : Nat → List Nat} (inv : SkipInv s ch)
    {L : Nat} (hL1 : s.height ≤ L) (hL2 : L < MAX_HEIGHT) :
    ch L = [] ∧ s.slot 0 L = some none := by
  have hempty : ch L = [] := by
    rw [inv.levels L hL2]
    apply List.filter_eq_nil_iff.mpr
    intro j hj
    have := (inv.heights j hj).2
    simp only [decide_eq_true_eq]
    omega
  have hchain := inv.chains L hL2
  rw [hempty] at hchain
  cases hchain with
  | nil _ hs => exact ⟨hempty, hs⟩

theorem zeroRange_getD :
    ∀ (k a : Nat) (upd : List Nat) (L d : Nat),
      (L < a ∨ a + k ≤ L → (zeroRange upd a (a + k)).getD L d = upd.getD L d) ∧
      (a ≤ L → L < a + k → L < upd.length → (zeroRange upd a (a + k)).getD L d = 0) := by
  intro k
  induction k with
  | zero =>
    intro a upd L d
    constructor
    · intro _
      unfold zeroRange
      simp [List.range']
    · intro h1 h2 _
      omega
  | succ k ih =>
    intro a upd L d
    have hrange : List.range' a (a + (k + 1) - a) = a :: List.range' (a + 1) k := by
      rw [show a + (k + 1) - a = k + 1 by omega]
      rfl
    have hfold : zeroRange upd a (a + (k + 1)) =
        zeroRange (upd.set a 0) (a + 1) ((a + 1) + k) := by
      unfold zeroRange
      rw [hrange]
      rw [show (a + 1) + k - (a + 1) = k by omega]
      rfl
    constructor
    · intro hcase
      rw [hfold]
      have h1 := (ih (a + 1) (upd.set a 0) L d).1
      rw [h1 (by omega)]
      exact getD_set_ne (by omega)
    · intro h1 h2 h3
      rw [hfold]
      by_cases hLa : L = a
      · subst hLa
        have h1' := (ih (L + 1) (upd.set L 0) L d).1
        rw [h1' (by omega)]
        exact getD_set_self h3
      · have h2' := (ih (a + 1) (upd.set a 0) L d).2
        rw [h2' (by omega) (by omega) (by simpa using h3)]

theorem zeroRange_length (upd : List Nat) (a b : Nat) :
    (zeroRange upd a b).length = upd.length := by
  unfold zeroRange
  generalize List.range' a (b - a) = l
  induction l generalizing upd with
  | nil => rfl
  | cons x xs ih =>
    simp only [List.foldl_cons]
    rw [ih]
    exact List.length_set upd x 0

theorem filter_comm_list {α : Type} (p q : α → Bool) (l : List α) :
    (l.filter p).filter q = (l.filter q).filter p := by
  rw [List.filter_filter, List.filter_filter]
  apply List.filter_congr
  intro a _
  rw [Bool.and_comm]

/-- `chA` at level `L` is the height-filter of `chA` at level 0 (same for
`chB`). -/
theorem chA_levels {s : SkipList} {ch : Nat → List Nat} (inv : SkipInv s ch)
    (key : Bytes) {L : Nat} (hL : L < MAX_HEIGHT) :
    chA s ch key L = (chA s ch key 0).filter (fun j => decide (L < s.heightOf j)) ∧
    chB s ch key L = (chB s ch key 0).filter (fun j => decide (L < s.heightOf j)) := by
  constructor
  · unfold chA
    rw [inv.levels L hL, filter_comm_list]
  · unfold chB
    rw [inv.levels L hL, filter_comm_list]

/-- All keys in `chB` exceed the search key, when the head key differs from
it. -/
theorem chB_all_gt {s : SkipList} {ch : Nat → List Nat} (inv : SkipInv s ch)
    {key : Bytes} {L : Nat} (hL : L < MAX_HEIGHT)
    (hne : ∀ j, (chB s ch key L).head? = some j → s.keyOf j ≠ key) :
    ∀ j ∈ chB s ch key L, lexLt key (s.keyOf j) = true := by
  have hsorted : (chB s ch key L).Pairwise
      (fun i j => lexLt (s.keyOf i) (s.keyOf j) = true) :=
    (inv.sortedL hL).sublist (List.filter_sublist _)
  cases hB : chB s ch key L with
  | nil => intro j hj; exact absurd hj (List.not_mem_nil j)
  | cons b t =>
    have hbB : b ∈ chB s ch key L := by rw [hB]; exact List.mem_cons_self _ _
    have hblt : lexLt (s.keyOf b) key = false := (chB_mem hbB).2
    have hbne : s.keyOf b ≠ key := hne b (by rw [hB]; rfl)
    have hbgt : lexLt key (s.keyOf b) = true := by
      cases hkb : lexLt key (s.keyOf b) with
      | true => rfl
      | false => exact absurd (lexLt_conn hblt hkb) hbne
    intro j hj
    rcases List.mem_cons.mp hj with he | hm
    · subst he; exact hbgt
    · rw [hB] at hsorted
      have := (List.pairwise_cons.mp hsorted).1 j hm
      exact lexLt_trans hbgt this

/-! # Specification-list lemmas -/

theorem specInsert_overwrite :
    ∀ (pre suf : List (Bytes × Bytes)) (k v w : Bytes),
      (∀ p ∈ pre, lexLt p.1 k = true) →
      specInsert (pre ++ (k, w) :: suf) k v = pre ++ (k, v) :: suf := by
  intro pre
  induction pre with
  | nil =>
    intro suf k v w _
    simp [specInsert, lexLt_irrefl]
  | cons p pre ih =>
    intro suf k v w hlt
    obtain ⟨k', v'⟩ := p
    have h1 : lexLt k' k = true := hlt (k', v') (List.mem_cons_self _ _)
    have h2 : lexLt k k' = false := lexLt_asymm h1
    have h3 : k ≠ k' := (lexLt_ne h1).symm
    simp only [List.cons_append, specInsert, h2, Bool.false_eq_true, if_false,
      if_neg h3, List.append_eq]
    rw [ih suf k v w (fun q hq => hlt q (List.mem_cons_of_mem _ hq))]

theorem specInsert_new :
    ∀ (pre suf : List (Bytes × Bytes)) (k v : Bytes),
      (∀ p ∈ pre, lexLt p.1 k = true) →
      (∀ p ∈ suf, lexLt k p.1 = true) →
      specInsert (pre ++ suf) k v = pre ++ (k, v) :: suf := by
  intro pre
  induction pre with
  | nil =>
    intro suf k v _ hgt
    cases suf with
    | nil => rfl
    | cons q suf' =>
      obtain ⟨k', v'⟩ := q
      have h1 : lexLt k k' = true := hgt (k', v') (List.mem_cons_self _ _)
      simp [specInsert, h1]
  | cons p pre ih =>
    intro suf k v hlt hgt
    obtain ⟨k', v'⟩ := p
    have h1 : lexLt k' k = true := hlt (k', v') (List.mem_cons_self _ _)
    have h2 : lexLt k k' = false := lexLt_asymm h1
    have h3 : k ≠ k' := (lexLt_ne h1).symm
    simp only [List.cons_append, specInsert, h2, Bool.false_eq_true, if_false,
      if_neg h3, List.append_eq]
    rw [ih suf k v (fun q hq => hlt q (List.mem_cons_of_mem _ hq)) hgt]

theorem lookupSpec_append_none :
    ∀ (l1 l2 : List (Bytes × Bytes)) (k : Bytes),
      (∀ p ∈ l1, p.1 ≠ k) → lookupSpec (l1 ++ l2) k = lookupSpec l2 k := by
  intro l1
  induction l1 with
  | nil => intro l2 k _; rfl
  | cons p l1 ih =>
    intro l2 k h
    obtain ⟨k', v'⟩ := p
    have hne : k' ≠ k := h (k', v') (List.mem_cons_self _ _)
    simp only [List.cons_append, lookupSpec, if_neg hne]
    exact ih l2 k (fun q hq => h q (List.mem_cons_of_mem _ hq))

theorem lookupSpec_none (l : List (Bytes × Bytes)) (k : Bytes)
    (h : ∀ p ∈ l, p.1 ≠ k) : lookupSpec l k = none := by
  have := lookupSpec_append_none l [] k h
  rwa [List.append_nil] at this

/-! # Arena-append preservation lemmas -/

theorem nodeAt_append_old {s : SkipList} {nd : SkipNode} {h2 l2 : Nat} {i : Nat}
    (hi : i < s.nodes.length) :
    (SkipList.mk (s.nodes ++ [nd]) h2 l2).nodeAt i = s.nodeAt i := by
  unfold SkipList.nodeAt
  simp only [List.get?_eq_getElem?]
  exact List.getElem?_append_left hi

theorem nodeAt_append_new {s : SkipList} {nd : SkipNode} {h2 l2 : Nat} :
    (SkipList.mk (s.nodes ++ [nd]) h2 l2).nodeAt s.nodes.length = some nd := by
  unfold SkipList.nodeAt
  simp only [List.get?_eq_getElem?]
  rw [List.getElem?_append_right (le_refl _), Nat.sub_self]
  rfl

theorem slot_append_old {s : SkipList} {nd : SkipNode} {h2 l2 : Nat} {i L : Nat}
    (hi : i < s.nodes.length) :
    (SkipList.mk (s.nodes ++ [nd]) h2 l2).slot i L = s.slot i L := by
  unfold SkipList.slot
  rw [show (SkipList.mk (s.nodes ++ [nd]) h2 l2).nodes.get? i = s.nodes.get? i from
    nodeAt_append_old hi]

theorem keyOf_append_old {s : SkipList} {nd : SkipNode} {h2 l2 : Nat} {i : Nat}
    (hi : i < s.nodes.length) :
    (SkipList.mk (s.nodes ++ [nd]) h2 l2).keyOf i = s.keyOf i := by
  unfold SkipList.keyOf
  rw [show (SkipList.mk (s.nodes ++ [nd]) h2 l2).nodes.get? i = s.nodes.get? i from
    nodeAt_append_old hi]

theorem valOf_append_old {s : SkipList} {nd : SkipNode} {h2 l2 : Nat} {i : Nat}
    (hi : i < s.nodes.length) :
    (SkipList.mk (s.nodes ++ [nd]) h2 l2).valOf i = s.valOf i := by
  unfold SkipList.valOf
  rw [show (SkipList.mk (s.nodes ++ [nd]) h2 l2).nodes.get? i = s.nodes.get? i from
    nodeAt_append_old hi]

theorem heightOf_append_old {s : SkipList} {nd : SkipNode} {h2 l2 : Nat} {i : Nat}
    (hi : i < s.nodes.length) :
    (SkipList.mk (s.nodes ++ [nd]) h2 l2).heightOf i = s.heightOf i := by
  unfold SkipList.heightOf
  rw [show (SkipList.mk (s.nodes ++ [nd]) h2 l2).nodes.get? i = s.nodes.get? i from
    nodeAt_append_old hi]

theorem keyOf_append_new {s : SkipList} {nd : SkipNode} {h2 l2 : Nat} :
    (SkipList.mk (s.nodes ++ [nd]) h2 l2).keyOf s.nodes.length = nd.key :=
  keyOf_eq nodeAt_append_new

theorem valOf_append_new {s : SkipList} {nd : SkipNode} {h2 l2 : Nat} :
    (SkipList.mk (s.nodes ++ [nd]) h2 l2).valOf s.nodes.length = nd.value :=
  valOf_eq nodeAt_append_new

theorem heightOf_append_new {s : SkipList} {nd : SkipNode} {h2 l2 : Nat} :
    (SkipList.mk (s.nodes ++ [nd]) h2 l2).heightOf s.nodes.length =
      nd.forward.length :=
  heightOf_eq nodeAt_append_new

/-! # The `get` descent -/

theorem get_walk_step {s : SkipList} {ch : Nat → List Nat} (inv : SkipInv s ch)
    {key : Bytes} {L cur : Nat} (hL : L < MAX_HEIGHT)
    (hentry : EntryInv s ch key L cur) (fuel : Nat) (hf : s.nodes.length ≤ fuel) :
    ∃ e, SkipList.getWalk s key L fuel cur = some e ∧ ExitInv s ch key L e := by
  obtain ⟨preA, sufA, hAs, hsegpre, hchain⟩ := hentry
  have hlensplit : preA.length + sufA.length = (chA s ch key L).length := by
    rw [hAs, List.length_append]
  have hABlen : (chA s ch key L).length + (chB s ch key L).length = (ch L).length := by
    rw [inv.chainSplitAB key hL, List.length_append]
  have hlen : (sufA ++ chB s ch key L).length < fuel := by
    rw [List.length_append]
    have h1 := chainLen_le inv hL
    have h2 := inv.len0_lt
    omega
  have hA : ∀ j ∈ sufA, lexLt (s.keyOf j) key = true := by
    intro j hj
    exact (chA_mem (by rw [hAs]; exact List.mem_append.mpr (Or.inr hj))).2
  have hB : ∀ j, (chB s ch key L).head? = some j → lexLt (s.keyOf j) key = false :=
    fun j hj => chB_head_not_lt hj
  have heq := getWalk_eq sufA (chB s ch key L) cur fuel hchain hlen hA hB
  obtain ⟨hsegsuf, hchainB⟩ := chain_split hchain
  exact ⟨sufA.getLastD cur, heq,
    ⟨by rw [hAs]; exact hsegpre.append_seg hsegsuf, hchainB⟩⟩

theorem getDescend_run {s : SkipList} {ch : Nat → List Nat} (inv : SkipInv s ch)
    (key : Bytes) :
    ∀ (c cur : Nat), 1 ≤ c → c ≤ s.height → EntryInv s ch key (c - 1) cur →
      ∃ e, SkipList.getDescend s key s.nodes.length c cur = some e ∧
        ExitInv s ch key 0 e := by
  intro c
  induction c with
  | zero => intro cur h1 _ _; omega
  | succ c ih =>
    intro cur _ hc hentry
    have hL : c < MAX_HEIGHT := by
      have := inv.hh2
      unfold MAX_HEIGHT at *
      omega
    have hent : EntryInv s ch key c cur := by simpa using hentry
    obtain ⟨e, hw, hexit⟩ := get_walk_step inv hL hent s.nodes.length (le_refl _)
    by_cases hc0 : c = 0
    · subst hc0
      refine ⟨e, ?_, hexit⟩
      simp only [SkipList.getDescend, hw]
    · have hent' : EntryInv s ch key (c - 1) e :=
        exit_transfer inv hL (by omega) hexit
      obtain ⟨e0, hrun, hex0⟩ := ih e (by omega) (by omega) hent'
      refine ⟨e0, ?_, hex0⟩
      simp only [SkipList.getDescend, hw]
      exact hrun

/-! # The empty skip list satisfies the invariant -/

theorem SkipInv_new : SkipInv SkipList.new (fun _ => []) := by
  refine ⟨rfl, le_refl 1, by decide, ?_, ?_, List.Pairwise.nil, ?_, ?_, ?_, rfl⟩
  · intro L hL
    refine ChainAt.nil 0 ?_
    revert hL
    revert L
    decide
  · intro L _
    rfl
  · intro j hj
    exact absurd hj (List.not_mem_nil j)
  · intro j h1 h2
    exfalso
    have : (SkipList.new).nodes.length = 1 := rfl
    omega
  · intro j hj
    exact absurd hj (List.not_mem_nil j)

/-! # `get` against the abstract association list -/

theorem get_ok {s : SkipList} {ch : Nat → List Nat} (inv : SkipInv s ch)
    (key : Bytes) :
    s.get key = some (lookupSpec (s.entriesOf ch) key) := by
  have hh0 : ¬ s.height = 0 := by have := inv.hh1; omega
  have h0MH : (0 : Nat) < MAX_HEIGHT := by decide
  have hhMH : s.height - 1 < MAX_HEIGHT := by
    have := inv.hh2
    unfold MAX_HEIGHT at *
    omega
  have hentry : EntryInv s ch key (s.height - 1) 0 := entry_initial inv key hhMH
  obtain ⟨e, hrun, hexit⟩ :=
    getDescend_run inv key s.height 0 inv.hh1 (le_refl _) hentry
  obtain ⟨hseg, hchainB⟩ := hexit
  have hsplit0 : ch 0 = chA s ch key 0 ++ chB s ch key 0 :=
    inv.chainSplitAB key h0MH
  have hAne : ∀ p ∈ (chA s ch key 0).map (fun j => (s.keyOf j, s.valOf j)),
      p.1 ≠ key := by
    intro p hp
    obtain ⟨j, hj, hpj⟩ := List.mem_map.mp hp
    rw [← hpj]
    exact lexLt_ne (chA_mem hj).2
  have hLdef : lookupSpec (s.entriesOf ch) key =
      lookupSpec ((chB s ch key 0).map (fun j => (s.keyOf j, s.valOf j))) key := by
    unfold SkipList.entriesOf
    rw [hsplit0, List.map_append]
    exact lookupSpec_append_none _ _ key hAne
  unfold SkipList.get
  rw [if_neg hh0, hrun]
  dsimp only
  cases hB : chB s ch key 0 with
  | nil =>
    rw [hB] at hchainB
    cases hchainB with
    | nil _ hs =>
      rw [hs, hLdef, hB]
      rfl
  | cons c rest =>
    rw [hB] at hchainB
    cases hchainB with
    | cons _ _ _ hs hc =>
      obtain ⟨m, hm⟩ := hc.start_node
      rw [hs]
      dsimp only
      rw [show s.nodeAt c = some m from hm]
      dsimp only
      by_cases hk : m.key = key
      · rw [if_pos hk, hLdef, hB]
        simp only [List.map_cons, lookupSpec]
        rw [if_pos (by rw [keyOf_eq hm]; exact hk), valOf_eq hm]
      · rw [if_neg hk, hLdef, hB]
        have hne : ∀ j, (chB s ch key 0).head? = some j → s.keyOf j ≠ key := by
          intro j hj
          rw [hB] at hj
          injection hj with hj
          rw [← hj, keyOf_eq hm]
          exact hk
        have hgt := chB_all_gt inv h0MH hne
        have hnone : lookupSpec ((c :: rest).map (fun j => (s.keyOf j, s.valOf j)))
            key = none := by
          apply lookupSpec_none
          intro p hp
          obtain ⟨j, hj, hpj⟩ := List.mem_map.mp hp
          rw [← hpj]
          have hjB : j ∈ chB s ch key 0 := by rw [hB]; exact hj
          exact (lexLt_ne (hgt j hjB)).symm
        rw [hnone]

/-! # The iterator against the abstract association list -/

theorem iter_chain {s : SkipList} {l : List Nat} {i : Nat}
    (h : ChainAt s 0 i l) :
    ∀ fuel, l.length < fuel → ∀ p, s.slot i 0 = some p →
      s.iterFrom fuel p = some (l.map (fun j => (s.keyOf j, s.valOf j))) := by
  induction h with
  | nil i hs =>
    intro fuel _ p hp
    rw [hs] at hp
    injection hp with hp
    rw [← hp]
    cases fuel <;> rfl
  | cons i j l hs hc ih =>
    intro fuel hlen p hp
    rw [hs] at hp
    injection hp with hp
    rw [← hp]
    cases fuel with
    | zero => exact absurd hlen (Nat.not_lt_zero _)
    | succ f =>
      obtain ⟨m, hm⟩ := hc.start_node
      have hq : ∃ q, s.slot j 0 = some q := by
        cases hc with
        | nil _ hs2 => exact ⟨none, hs2⟩
        | cons _ b l2 hs2 _ => exact ⟨some b, hs2⟩
      obtain ⟨q, hsq⟩ := hq
      have hrest := ih f (by
        simp only [List.length_cons] at hlen
        omega) q hsq
      show (match s.nodeAt j, s.slot j 0 with
        | some n, some nxt =>
          match SkipList.iterFrom s f nxt with
          | none => none
          | some rest => some ((n.key, n.value) :: rest)
        | _, _ => none) = _
      rw [show s.nodeAt j = some m from hm, hsq]
      dsimp only
      rw [hrest]
      dsimp only
      rw [List.map_cons, keyOf_eq hm, valOf_eq hm]

theorem chain_slot_some {s : SkipList} {L i : Nat} {l : List Nat}
    (h : ChainAt s L i l) : ∃ p, s.slot i L = some p := by
  induction h with
  | nil i hs => exact ⟨none, hs⟩
  | cons i b l2 hs _ _ => exact ⟨some b, hs⟩

theorem toList_ok {s : SkipList} {ch : Nat → List Nat} (inv : SkipInv s ch) :
    s.toList = some (s.entriesOf ch) := by
  have hchain : ChainAt s 0 0 (ch 0) := inv.chains 0 (by decide)
  obtain ⟨p, hp⟩ := chain_slot_some hchain
  unfold SkipList.toList
  rw [hp]
  exact iter_chain hchain s.nodes.length inv.len0_lt p hp

/-! # Overwrite-in-place preservation lemmas -/

theorem setValue_nodeAt {s : SkipList} {found : Nat} {n : SkipNode} {value : Bytes}
    (hn : s.nodes.get? found = some n) (x : Nat) :
    SkipList.nodeAt { s with nodes := s.nodes.set found { n with value := value } } x
      = if x = found then some { n with value := value } else s.nodeAt x := by
  have hlt : found < s.nodes.length := by
    by_contra hcon
    push_neg at hcon
    rw [List.get?_eq_none.mpr hcon] at hn
    exact Option.noConfusion hn
  unfold SkipList.nodeAt
  by_cases hx : x = found
  · subst hx
    rw [if_pos rfl]
    simp only [List.get?_eq_getElem?]
    exact List.getElem?_set_self hlt
  · rw [if_neg hx]
    simp only [List.get?_eq_getElem?]
    exact List.getElem?_set_ne (fun h => hx h.symm)

theorem setValue_slot {s : SkipList} {found : Nat} {n : SkipNode} {value : Bytes}
    (hn : s.nodes.get? found = some n) (x M : Nat) :
    SkipList.slot { s with nodes := s.nodes.set found { n with value := value } } x M
      = s.slot x M := by
  have h := @setValue_nodeAt _ _ _ value hn x
  unfold SkipList.nodeAt at h
  unfold SkipList.slot
  rw [h]
  by_cases hx : x = found
  · subst hx
    rw [if_pos rfl, hn]
  · rw [if_neg hx]

theorem setValue_keyOf {s : SkipList} {found : Nat} {n : SkipNode} {value : Bytes}
    (hn : s.nodes.get? found = some n) (x : Nat) :
    SkipList.keyOf { s with nodes := s.nodes.set found { n with value := value } } x
      = s.keyOf x := by
  have h := @setValue_nodeAt _ _ _ value hn x
  unfold SkipList.nodeAt at h
  unfold SkipList.keyOf
  rw [h]
  by_cases hx : x = found
  · subst hx
    rw [if_pos rfl, hn]
    rfl
  · rw [if_neg hx]

theorem setValue_heightOf {s : SkipList} {found : Nat} {n : SkipNode} {value : Bytes}
    (hn : s.nodes.get? found = some n) (x : Nat) :
    SkipList.heightOf { s with nodes := s.nodes.set found { n with value := value } } x
      = s.heightOf x := by
  have h := @setValue_nodeAt _ _ _ value hn x
  unfold SkipList.nodeAt at h
  unfold SkipList.heightOf
  rw [h]
  by_cases hx : x = found
  · subst hx
    rw [if_pos rfl, hn]
    rfl
  · rw [if_neg hx]

theorem setValue_valOf_ne {s : SkipList} {found : Nat} {n : SkipNode} {value : Bytes}
    (hn : s.nodes.get? found = some n) {x : Nat} (hx : x ≠ found) :
    SkipList.valOf { s with nodes := s.nodes.set found { n with value := value } } x
      = s.valOf x := by
  have h := @setValue_nodeAt _ _ _ value hn x
  unfold SkipList.nodeAt at h
  unfold SkipList.valOf
  rw [h, if_neg hx]

theorem setValue_valOf_self {s : SkipList} {found : Nat} {n : SkipNode} {value : Bytes}
    (hn : s.nodes.get? found = some n) :
    SkipList.valOf { s with nodes := s.nodes.set found { n with value := value } }
      found = value := by
  have h := @setValue_nodeAt _ _ _ value hn found
  unfold SkipList.nodeAt at h
  unfold SkipList.valOf
  rw [h, if_pos rfl]
  rfl

/-! # `insert`, overwrite branch -/

theorem insert_found_ok {s : SkipList} {ch : Nat → List Nat} (inv : SkipInv s ch)
    {key value : Bytes} {h found : Nat}
    (hrun : SkipList.insDescend s key s.nodes.length s.height 0
        (List.replicate MAX_HEIGHT 0) = some (.inl found))
    (hmem : found ∈ ch 0) (hkey : s.keyOf found = key) :
    ∃ s', s.insert key value h = some s' ∧ SkipInv s' ch ∧
      s'.entriesOf ch = specInsert (s.entriesOf ch) key value := by
  have hflt : found < s.nodes.length := (inv.mem0 found hmem).2
  have hn : ∃ nd, s.nodes.get? found = some nd := by
    refine ⟨s.nodes[found], ?_⟩
    rw [List.get?_eq_getElem?]
    exact List.getElem?_eq_getElem hflt
  obtain ⟨n, hn⟩ := hn
  refine ⟨{ s with nodes := s.nodes.set found { n with value := value } }, ?_, ?_, ?_⟩
  · simp only [SkipList.insert, hrun]
    rw [hn]
  · refine ⟨?_, inv.hh1, inv.hh2, ?_, ?_, ?_, ?_, ?_, ?_, ?_⟩
    · rw [setValue_heightOf hn 0]
      exact inv.headH
    · intro L hL
      exact chain_congr_slots (inv.chains L hL)
        (fun x _ => setValue_slot hn x L)
    · intro L hL
      rw [inv.levels L hL]
      apply List.filter_congr
      intro j _
      rw [setValue_heightOf hn j]
    · refine inv.sorted0.imp ?_
      intro i j hij
      rw [setValue_keyOf hn i, setValue_keyOf hn j]
      exact hij
    · intro j hj
      have := inv.mem0 j hj
      simpa [List.length_set] using this
    · intro j h1 h2
      apply inv.complete j h1
      simpa [List.length_set] using h2
    · intro j hj
      have := inv.heights j hj
      rw [setValue_heightOf hn j]
      exact this
    · rw [inv.lenEq]
  · obtain ⟨pre, suf, hsplit⟩ := List.append_of_mem hmem
    have hnd0 := inv.nodup0
    rw [hsplit] at hnd0
    have hpre_ne : ∀ a ∈ pre, a ≠ found := by
      intro a ha he
      subst he
      exact (List.nodup_append.mp hnd0).2.2 ha (List.mem_cons_self _ _)
    have hsuf_ne : ∀ a ∈ suf, a ≠ found := by
      intro a ha he
      subst he
      exact (List.nodup_cons.mp (List.nodup_append.mp hnd0).2.1).1 ha
    have hpre_lt : ∀ a ∈ pre, lexLt (s.keyOf a) key = true := by
      intro a ha
      have hp := inv.sorted0
      rw [hsplit] at hp
      have := (List.pairwise_append.mp hp).2.2 a ha found (List.mem_cons_self _ _)
      rwa [hkey] at this
    unfold SkipList.entriesOf
    rw [hsplit, List.map_append, List.map_cons, List.map_append, List.map_cons]
    rw [List.map_congr_left (g := fun j => (s.keyOf j, s.valOf j))
      (fun a ha => by rw [setValue_keyOf hn a, setValue_valOf_ne hn (hpre_ne a ha)])]
    rw [List.map_congr_left (l := suf) (g := fun j => (s.keyOf j, s.valOf j))
      (fun a ha => by rw [setValue_keyOf hn a, setValue_valOf_ne hn (hsuf_ne a ha)])]
    rw [setValue_keyOf hn found, setValue_valOf_self hn, hkey]
    rw [specInsert_overwrite (pre.map fun j => (s.keyOf j, s.valOf j))
      (suf.map fun j => (s.keyOf j, s.valOf j)) key value (s.valOf found)
      (by
        intro p hp
        obtain ⟨a, ha, hpa⟩ := List.mem_map.mp hp
        rw [← hpa]
        exact hpre_lt a ha)]

/-! # Record-update reductions -/

theorem slot_withLen {s : SkipList} {e x M : Nat} :
    SkipList.slot { s with len := e } x M = s.slot x M := rfl

theorem keyOf_withLen {s : SkipList} {e x : Nat} :
    SkipList.keyOf { s with len := e } x = s.keyOf x := rfl

theorem valOf_withLen {s : SkipList} {e x : Nat} :
    SkipList.valOf { s with len := e } x = s.valOf x := rfl

theorem heightOf_withLen {s : SkipList} {e x : Nat} :
    SkipList.heightOf { s with len := e } x = s.heightOf x := rfl

/-! # `insert`, new-node branch -/

theorem insert_new_core {s : SkipList} {ch : Nat → List Nat} (inv : SkipInv s ch)
    (key value : Bytes) {h : Nat} (hge1 : 1 ≤ h) (hle12 : h ≤ MAX_HEIGHT)
    {upd2 : List Nat}
    (hexitAll : ∀ L, L < h → ExitInv s ch key L (upd2.getD L 0))
    (hnf0 : ∀ j, (chB s ch key 0).head? = some j → s.keyOf j ≠ key) :
    ∃ s2,
      SkipList.spliceUpTo
        (SkipList.mk (s.nodes ++ [⟨key, value, List.replicate h none⟩])
          (if s.height < h then h else s.height) s.len)
        s.nodes.length upd2 h = some s2 ∧
      SkipInv { s2 with len := s2.len + 1 }
        (spliceChains s ch key h s.nodes.length) ∧
      SkipList.entriesOf { s2 with len := s2.len + 1 }
          (spliceChains s ch key h s.nodes.length) =
        specInsert (s.entriesOf ch) key value := by
  have h0MH : (0 : Nat) < MAX_HEIGHT := by decide
  have hN1 : 1 ≤ s.nodes.length := by
    obtain ⟨nd0, hnd0⟩ := node_exists_of_heightOf_pos
      (show 0 < s.heightOf 0 by rw [inv.headH]; decide)
    by_contra hcon
    push_neg at hcon
    rw [List.get?_eq_none.mpr (by omega)] at hnd0
    exact Option.noConfusion hnd0
  have heL : ∀ L, L < h → upd2.getD L 0 = 0 ∨ upd2.getD L 0 ∈ chA s ch key L := by
    intro L hL
    obtain ⟨hseg, _⟩ := hexitAll L hL
    have hlast := hseg.last_eq
    cases hA : chA s ch key L with
    | nil =>
      left
      rw [hlast, hA]
      rfl
    | cons a t =>
      right
      rw [hlast, hA]
      exact getLastD_mem (List.cons_ne_nil a t)
  have hchALt : ∀ L, L < MAX_HEIGHT → ∀ j ∈ chA s ch key L,
      1 ≤ j ∧ j < s.nodes.length := by
    intro L hLM j hj
    exact inv.mem0 j ((inv.memL hLM).mp (chA_mem hj).1).1
  have hchBLt : ∀ L, L < MAX_HEIGHT → ∀ j ∈ chB s ch key L,
      1 ≤ j ∧ j < s.nodes.length := by
    intro L hLM j hj
    exact inv.mem0 j ((inv.memL hLM).mp (chB_mem hj).1).1
  have heLlt : ∀ L, L < h → upd2.getD L 0 < s.nodes.length := by
    intro L hL
    rcases heL L hL with h0 | hmem
    · omega
    · exact (hchALt L (by omega) _ hmem).2
  have heLslot : ∀ L, L < h → ∃ w, s.slot (upd2.getD L 0) L = some w := by
    intro L hL
    exact chain_slot_some (hexitAll L hL).2
  have hgNew1 : (SkipList.mk (s.nodes ++ [⟨key, value, List.replicate h none⟩])
      (if s.height < h then h else s.height) s.len).heightOf s.nodes.length = h := by
    rw [heightOf_append_new]
    exact List.length_replicate h none
  obtain ⟨s2, hs2, h2len, h2h, h2l, h2k, h2v, h2hg, h2n, h2p, h2pres⟩ :=
    @spliceUpTo_ok
      (SkipList.mk (s.nodes ++ [⟨key, value, List.replicate h none⟩])
        (if s.height < h then h else s.height) s.len)
      s.nodes.length upd2 h
      (fun L hL => Nat.ne_of_lt (heLlt L hL))
      (fun L hL => by
        obtain ⟨w, hw⟩ := heLslot L hL
        exact ⟨w, by rw [slot_append_old (heLlt L hL)]; exact hw⟩)
      (fun L hL => by rw [hgNew1]; exact hL)
  have h2h' : ({ s2 with len := s2.len + 1 } : SkipList).height
      = if s.height < h then h else s.height := h2h
  have h2l' : s2.len = s.len := h2l
  have hLen' : ({ s2 with len := s2.len + 1 } : SkipList).nodes.length
      = s.nodes.length + 1 := by
    show s2.nodes.length = s.nodes.length + 1
    rw [h2len]
    simp [List.length_append]
  have hK : ∀ x, x < s.nodes.length →
      SkipList.keyOf { s2 with len := s2.len + 1 } x = s.keyOf x := by
    intro x hx
    rw [keyOf_withLen, h2k x, keyOf_append_old hx]
  have hV : ∀ x, x < s.nodes.length →
      SkipList.valOf { s2 with len := s2.len + 1 } x = s.valOf x := by
    intro x hx
    rw [valOf_withLen, h2v x, valOf_append_old hx]
  have hG : ∀ x, x < s.nodes.length →
      SkipList.heightOf { s2 with len := s2.len + 1 } x = s.heightOf x := by
    intro x hx
    rw [heightOf_withLen, h2hg x, heightOf_append_old hx]
  have hKnew : SkipList.keyOf { s2 with len := s2.len + 1 } s.nodes.length = key := by
    rw [keyOf_withLen, h2k, keyOf_append_new]
  have hVnew : SkipList.valOf { s2 with len := s2.len + 1 } s.nodes.length
      = value := by
    rw [valOf_withLen, h2v, valOf_append_new]
  have hGnew : SkipList.heightOf { s2 with len := s2.len + 1 } s.nodes.length
      = h := by
    rw [heightOf_withLen, h2hg]
    exact hgNew1
  have hSlotPres : ∀ x M, (h ≤ M ∨ (x ≠ s.nodes.length ∧ x ≠ upd2.getD M 0)) →
      x < s.nodes.length →
      SkipList.slot { s2 with len := s2.len + 1 } x M = s.slot x M := by
    intro x M hc hx
    rw [slot_withLen, h2pres x M hc, slot_append_old hx]
  have hS2n : ∀ L, L < h →
      SkipList.slot { s2 with len := s2.len + 1 } s.nodes.length L
        = s.slot (upd2.getD L 0) L := by
    intro L hL
    rw [slot_withLen, h2n L hL, slot_append_old (heLlt L hL)]
  have hS2p : ∀ L, L < h →
      SkipList.slot { s2 with len := s2.len + 1 } (upd2.getD L 0) L
        = some (some s.nodes.length) := by
    intro L hL
    rw [slot_withLen]
    exact h2p L hL
  have hBneE : ∀ L, L < h → ∀ j ∈ chB s ch key L, j ≠ upd2.getD L 0 := by
    intro L hL j hj
    rcases heL L hL with h0 | hmem
    · have := hchBLt L (by omega) j hj
      omega
    · intro he
      have h1 := (chA_mem hmem).2
      have h2 := (chB_mem hj).2
      rw [← he] at h1
      rw [h1] at h2
      exact Bool.noConfusion h2
  have hch'L : ∀ L, L < h → spliceChains s ch key h s.nodes.length L
      = chA s ch key L ++ s.nodes.length :: chB s ch key L := by
    intro L hL
    unfold spliceChains
    rw [if_pos hL]
  have hch'hi : ∀ L, ¬ L < h → spliceChains s ch key h s.nodes.length L = ch L := by
    intro L hL
    unfold spliceChains
    rw [if_neg hL]
  have hch'0 := hch'L 0 (by omega)
  have hchains : ∀ L, L < MAX_HEIGHT →
      ChainAt { s2 with len := s2.len + 1 } L 0
        (spliceChains s ch key h s.nodes.length L) := by
    intro L hLM
    by_cases hL : L < h
    · rw [hch'L L hL]
      obtain ⟨hseg, hchain⟩ := hexitAll L hL
      have hnodupA : (0 :: chA s ch key L).Nodup := by
        refine List.nodup_cons.mpr ⟨?_, ?_⟩
        · intro h0
          have := (hchALt L hLM 0 h0).1
          omega
        · exact (inv.nodupL hLM).sublist (List.filter_sublist _)
      have hsegS : Seg { s2 with len := s2.len + 1 } L 0 (chA s ch key L)
          (upd2.getD L 0) := by
        refine seg_congr_slots hseg hnodupA ?_
        intro x hx hxe
        have hxlt : x < s.nodes.length := by
          rcases hx with he | hm
          · omega
          · exact (hchALt L hLM x hm).2
        exact hSlotPres x L (Or.inr ⟨by omega, hxe⟩) hxlt
      have hchainB : ChainAt { s2 with len := s2.len + 1 } L s.nodes.length
          (chB s ch key L) := by
        cases hBL : chB s ch key L with
        | nil =>
          rw [hBL] at hchain
          cases hchain with
          | nil _ hsE =>
            refine ChainAt.nil _ ?_
            rw [hS2n L hL]
            exact hsE
        | cons b t =>
          rw [hBL] at hchain
          cases hchain with
          | cons _ _ _ hsE hcb =>
            refine ChainAt.cons _ b t ?_ ?_
            · rw [hS2n L hL]
              exact hsE
            · refine chain_congr_slots hcb ?_
              intro x hx
              have hxB : x ∈ chB s ch key L := by
                rw [hBL]
                rcases hx with he | hm
                · rw [he]
                  exact List.mem_cons_self _ _
                · exact List.mem_cons_of_mem _ hm
              have hxlt : x < s.nodes.length := (hchBLt L hLM x hxB).2
              exact hSlotPres x L
                (Or.inr ⟨by omega, hBneE L hL x hxB⟩) hxlt
      exact chain_cons_of_seg hsegS (hS2p L hL) hchainB
    · rw [hch'hi L hL]
      refine chain_congr_slots (inv.chains L hLM) ?_
      intro x hx
      have hxlt : x < s.nodes.length := by
        rcases hx with he | hm
        · omega
        · exact (inv.mem0 x ((inv.memL hLM).mp hm).1).2
      exact hSlotPres x L (Or.inl (by omega)) hxlt
  refine ⟨s2, hs2, ⟨?_, ?_, ?_, hchains, ?_, ?_, ?_, ?_, ?_, ?_⟩, ?_⟩
  · rw [hG 0 (by omega)]
    exact inv.headH
  · rw [h2h']
    rcases Nat.lt_or_ge s.height h with hc | hc
    · rw [if_pos hc]
      omega
    · rw [if_neg (by omega)]
      exact inv.hh1
  · rw [h2h']
    rcases Nat.lt_or_ge s.height h with hc | hc
    · rw [if_pos hc]
      exact hle12
    · rw [if_neg (by omega)]
      exact inv.hh2
  · intro L hLM
    rw [hch'0, List.filter_append, List.filter_cons]
    have hfA : (chA s ch key 0).filter
        (fun j => decide (L < SkipList.heightOf { s2 with len := s2.len + 1 } j))
        = chA s ch key L := by
      rw [List.filter_congr (fun j hj => by rw [hG j (hchALt 0 h0MH j hj).2])]
      exact ((chA_levels inv key hLM).1).symm
    have hfB : (chB s ch key 0).filter
        (fun j => decide (L < SkipList.heightOf { s2 with len := s2.len + 1 } j))
        = chB s ch key L := by
      rw [List.filter_congr (fun j hj => by rw [hG j (hchBLt 0 h0MH j hj).2])]
      exact ((chA_levels inv key hLM).2).symm
    by_cases hL : L < h
    · rw [hch'L L hL, hfA, hfB]
      rw [show (decide (L < SkipList.heightOf { s2 with len := s2.len + 1 }
          s.nodes.length)) = true by rw [hGnew]; exact decide_eq_true hL]
      rw [if_pos rfl]
    · rw [hch'hi L hL, hfA, hfB]
      rw [show (decide (L < SkipList.heightOf { s2 with len := s2.len + 1 }
          s.nodes.length)) = false by
        rw [hGnew]
        exact decide_eq_false hL]
      rw [if_neg (Bool.false_ne_true)]
      exact inv.chainSplitAB key hLM
  · rw [hch'0]
    refine List.pairwise_append.mpr ⟨?_, ?_, ?_⟩
    · refine (inv.sorted0.sublist (List.filter_sublist _)).imp_of_mem ?_
      intro a b ha hb hab
      rw [hK a (hchALt 0 h0MH a ha).2, hK b (hchALt 0 h0MH b hb).2]
      exact hab
    · refine List.pairwise_cons.mpr ⟨?_, ?_⟩
      · intro b hb
        rw [hKnew, hK b (hchBLt 0 h0MH b hb).2]
        exact chB_all_gt inv h0MH hnf0 b hb
      · refine (inv.sorted0.sublist (List.filter_sublist _)).imp_of_mem ?_
        intro a b ha hb hab
        rw [hK a (hchBLt 0 h0MH a ha).2, hK b (hchBLt 0 h0MH b hb).2]
        exact hab
    · intro a ha b hb
      rcases List.mem_cons.mp hb with he | hm
      · rw [he, hK a (hchALt 0 h0MH a ha).2, hKnew]
        exact (chA_mem ha).2
      · rw [hK a (hchALt 0 h0MH a ha).2, hK b (hchBLt 0 h0MH b hm).2]
        exact lexLt_trans (chA_mem ha).2 (chB_all_gt inv h0MH hnf0 b hm)
  · intro j hj
    rw [hch'0] at hj
    rw [hLen']
    rcases List.mem_append.mp hj with hA | hB
    · have := hchALt 0 h0MH j hA
      omega
    · rcases List.mem_cons.mp hB with he | hm
      · subst he
        omega
      · have := hchBLt 0 h0MH j hm
        omega
  · intro j h1 h2
    rw [hLen'] at h2
    rw [hch'0]
    by_cases hj : j < s.nodes.length
    · have hj0 : j ∈ ch 0 := inv.complete j h1 hj
      rw [inv.chainSplitAB key h0MH] at hj0
      rcases List.mem_append.mp hj0 with hA | hB
      · exact List.mem_append.mpr (Or.inl hA)
      · exact List.mem_append.mpr (Or.inr (List.mem_cons_of_mem _ hB))
    · have hje : j = s.nodes.length := by omega
      rw [hje]
      exact List.mem_append.mpr (Or.inr (List.mem_cons_self _ _))
  · intro j hj
    rw [hch'0] at hj
    have hgoal_old : ∀ x ∈ ch 0,
        1 ≤ SkipList.heightOf { s2 with len := s2.len + 1 } x ∧
        SkipList.heightOf { s2 with len := s2.len + 1 } x ≤
          ({ s2 with len := s2.len + 1 } : SkipList).height := by
      intro x hx
      have hib := inv.heights x hx
      rw [hG x (inv.mem0 x hx).2, h2h']
      rcases Nat.lt_or_ge s.height h with hc | hc
      · rw [if_pos hc]
        omega
      · rw [if_neg (by omega)]
        exact hib
    rcases List.mem_append.mp hj with hA | hB
    · exact hgoal_old j ((inv.memL h0MH).mp (chA_mem hA).1).1
    · rcases List.mem_cons.mp hB with he | hm
      · subst he
        rw [hGnew, h2h']
        rcases Nat.lt_or_ge s.height h with hc | hc
        · rw [if_pos hc]
          omega
        · rw [if_neg (by omega)]
          omega
      · exact hgoal_old j ((inv.memL h0MH).mp (chB_mem hm).1).1
  · show s2.len + 1 = _
    rw [h2l', hch'0, List.length_append, List.length_cons]
    have hle := inv.lenEq
    have hsplit := inv.chainSplitAB key h0MH
    rw [hsplit, List.length_append] at hle
    omega
  · unfold SkipList.entriesOf
    rw [hch'0, List.map_append, List.map_cons]
    rw [List.map_congr_left (l := chA s ch key 0)
        (g := fun j => (s.keyOf j, s.valOf j))
      (fun a ha => by rw [hK a (hchALt 0 h0MH a ha).2, hV a (hchALt 0 h0MH a ha).2])]
    rw [List.map_congr_left (l := chB s ch key 0)
        (g := fun j => (s.keyOf j, s.valOf j))
      (fun a ha => by rw [hK a (hchBLt 0 h0MH a ha).2, hV a (hchBLt 0 h0MH a ha).2])]
    rw [hKnew, hVnew]
    rw [inv.chainSplitAB key h0MH, List.map_append]
    rw [specInsert_new ((chA s ch key 0).map fun j => (s.keyOf j, s.valOf j))
      ((chB s ch key 0).map fun j => (s.keyOf j, s.valOf j)) key value
      (by
        intro p hp
        obtain ⟨a, ha, hpa⟩ := List.mem_map.mp hp
        rw [← hpa]
        exact (chA_mem ha).2)
      (by
        intro p hp
        obtain ⟨a, ha, hpa⟩ := List.mem_map.mp hp
        rw [← hpa]
        exact chB_all_gt inv h0MH hnf0 a ha)]

/-! # `insert` against the abstract association list -/

theorem insert_ok {s : SkipList} {ch : Nat → List Nat} (inv : SkipInv s ch)
    (key value : Bytes) {h : Nat} (hge1 : 1 ≤ h) (hle12 : h ≤ MAX_HEIGHT) :
    ∃ s' ch', s.insert key value h = some s' ∧ SkipInv s' ch' ∧
      s'.entriesOf ch' = specInsert (s.entriesOf ch) key value := by
  have hhMH : s.height - 1 < MAX_HEIGHT := by
    have := inv.hh2
    unfold MAX_HEIGHT at *
    omega
  rcases insDescend_run inv key s.height 0 (List.replicate MAX_HEIGHT 0)
      (le_refl _) (by simp) (fun _ => entry_initial inv key hhMH) with
    ⟨found, hrun, hmem, hkey⟩ | ⟨updOut, hrun, hlenOut, hex, hnf, _⟩
  · obtain ⟨s', h1, h2, h3⟩ := insert_found_ok (h := h) inv hrun hmem hkey
    exact ⟨s', ch, h1, h2, h3⟩
  · have hnf0 : ∀ j, (chB s ch key 0).head? = some j → s.keyOf j ≠ key :=
      hnf 0 inv.hh1
    have hexitAll : ∀ L, L < h → ExitInv s ch key L
        ((if s.height < h then zeroRange updOut s.height h else updOut).getD L 0) := by
      intro L hL
      by_cases hsh : s.height < h
      · rw [if_pos hsh]
        have hz := zeroRange_getD (h - s.height) s.height updOut L 0
        rw [show s.height + (h - s.height) = h by omega] at hz
        by_cases hLs : L < s.height
        · rw [hz.1 (Or.inl hLs)]
          exact hex L hLs
        · have hzero : (zeroRange updOut s.height h).getD L 0 = 0 := by
            refine hz.2 (by omega) hL ?_
            rw [hlenOut]
            have := hle12
            unfold MAX_HEIGHT at *
            omega
          have htop := top_level_empty (L := L) inv (by omega)
            (by have := hle12; unfold MAX_HEIGHT at *; omega)
          have hA0 : chA s ch key L = [] := by
            unfold chA
            rw [htop.1]
            rfl
          have hB0 : chB s ch key L = [] := by
            unfold chB
            rw [htop.1]
            rfl
          refine ⟨?_, ?_⟩
          · rw [hzero, hA0]
            exact Seg.nil 0
          · rw [hzero, hB0]
            exact ChainAt.nil 0 htop.2
      · rw [if_neg hsh]
        exact hex L (by omega)
    obtain ⟨s2, hs2, hinv2, hent2⟩ :=
      insert_new_core inv key value hge1 hle12 hexitAll hnf0
    refine ⟨{ s2 with len := s2.len + 1 },
      spliceChains s ch key h s.nodes.length, ?_, hinv2, hent2⟩
    simp only [SkipList.insert, hrun]
    rw [hs2]

/-! # Folded specification lemmas -/

theorem specInsert_lookup :
    ∀ (es : List (Bytes × Bytes)) (a v k : Bytes),
      lookupSpec (specInsert es a v) k =
        if a = k then some v else lookupSpec es k := by
  intro es
  induction es with
  | nil =>
    intro a v k
    simp [specInsert, lookupSpec]
  | cons p rest ih =>
    intro a v k
    obtain ⟨k', v'⟩ := p
    cases hlt : lexLt a k' with
    | true => simp only [specInsert, hlt, if_true, lookupSpec]
    | false =>
      by_cases heq : a = k'
      · subst heq
        simp only [specInsert, hlt, Bool.false_eq_true, if_false, if_pos rfl,
          lookupSpec]
        by_cases hak : a = k <;> simp [hak]
      · simp only [specInsert, hlt, Bool.false_eq_true, if_false, if_neg heq,
          lookupSpec, ih]
        by_cases hk'k : k' = k
        · rw [if_pos hk'k, if_neg (fun hh => heq (hh.trans hk'k.symm)), if_pos hk'k]
        · rw [if_neg hk'k]
          by_cases hak : a = k
          · rw [if_pos hak, if_pos hak]
          · rw [if_neg hak, if_neg hak, if_neg hk'k]

theorem lastValue_cons (op : Bytes × Bytes × Nat) (ops : List (Bytes × Bytes × Nat))
    (k : Bytes) :
    lastValue (op :: ops) k =
      if op.1 = k then (lastValue ops k).or (some op.2.1) else lastValue ops k := by
  unfold lastValue
  rw [List.filter_cons]
  by_cases hop : op.1 = k
  · rw [if_pos (by simpa using hop), if_pos hop]
    cases hf : (ops.filter fun q => decide (q.1 = k)) with
    | nil => rfl
    | cons q t =>
      rw [List.getLast?_cons_cons]
      cases hgl : (q :: t).getLast? with
      | none =>
        exact absurd (List.getLast?_eq_none_iff.mp hgl) (List.cons_ne_nil q t)
      | some x => rfl
  · rw [if_neg (by simpa using hop), if_neg hop]

theorem lookup_foldl :
    ∀ (ops : List (Bytes × Bytes × Nat)) (acc : List (Bytes × Bytes)) (k : Bytes),
      lookupSpec (ops.foldl (fun es op => specInsert es op.1 op.2.1) acc) k =
        (lastValue ops k).or (lookupSpec acc k) := by
  intro ops
  induction ops with
  | nil =>
    intro acc k
    simp [lastValue, Option.none_or]
  | cons op ops ih =>
    intro acc k
    rw [List.foldl_cons, ih, lastValue_cons, specInsert_lookup]
    by_cases hop : op.1 = k
    · rw [if_pos hop, if_pos hop, Option.or_assoc]
      congr 1
    · rw [if_neg hop, if_neg hop]

theorem lookup_specFold (ops : List (Bytes × Bytes × Nat)) (k : Bytes) :
    lookupSpec (specFold ops) k = lastValue ops k := by
  have h := lookup_foldl ops [] k
  unfold specFold
  rw [h]
  show (lastValue ops k).or none = _
  exact Option.or_none

theorem specInsert_keys :
    ∀ (es : List (Bytes × Bytes)) (k v : Bytes),
      ((specInsert es k v).map Prod.fst).toFinset =
        insert k ((es.map Prod.fst).toFinset) := by
  intro es
  induction es with
  | nil =>
    intro k v
    rfl
  | cons p rest ih =>
    intro k v
    obtain ⟨k', v'⟩ := p
    by_cases hlt : lexLt k k' = true
    · simp only [specInsert, hlt, if_true, List.map_cons, List.toFinset_cons]
    · by_cases heq : k = k'
      · simp only [specInsert, hlt, Bool.false_eq_true, if_false, if_pos heq,
          List.map_cons, List.toFinset_cons]
        rw [heq, Finset.insert_idem]
      · simp only [specInsert, hlt, Bool.false_eq_true, if_false, if_neg heq,
          List.map_cons, List.toFinset_cons, ih]
        rw [Finset.Insert.comm]

theorem foldl_keys :
    ∀ (ops : List (Bytes × Bytes × Nat)) (acc : List (Bytes × Bytes)),
      (((ops.foldl (fun es op => specInsert es op.1 op.2.1) acc)).map
        Prod.fst).toFinset =
        ((ops.map (fun op => op.1)).toFinset) ∪ ((acc.map Prod.fst).toFinset) := by
  intro ops
  induction ops with
  | nil =>
    intro acc
    simp
  | cons op ops ih =>
    intro acc
    rw [List.foldl_cons, ih, specInsert_keys, List.map_cons, List.toFinset_cons,
      Finset.union_insert]
    exact (Finset.insert_union _ _ _).symm

/-! # Insert sequences -/

theorem insertSeq_ok {s : SkipList} {ch : Nat → List Nat} (inv : SkipInv s ch) :
    ∀ ops : List (Bytes × Bytes × Nat),
      (∀ op ∈ ops, 1 ≤ op.2.2 ∧ op.2.2 ≤ MAX_HEIGHT) →
      ∃ s' ch', s.insertSeq ops = some s' ∧ SkipInv s' ch' ∧
        s'.entriesOf ch' = ops.foldl (fun es op => specInsert es op.1 op.2.1)
          (s.entriesOf ch) := by
  intro ops
  induction ops generalizing s ch with
  | nil =>
    intro _
    exact ⟨s, ch, rfl, inv, rfl⟩
  | cons op ops ih =>
    intro hh
    obtain ⟨s1, ch1, hins, hinv1, hent1⟩ :=
      insert_ok inv op.1 op.2.1 (hh op (List.mem_cons_self _ _)).1
        (hh op (List.mem_cons_self _ _)).2
    obtain ⟨s', ch', hrun, hinv', hent'⟩ :=
      ih hinv1 (fun q hq => hh q (List.mem_cons_of_mem _ hq))
    refine ⟨s', ch', ?_, hinv', ?_⟩
    · unfold SkipList.insertSeq
      rw [List.foldl_cons]
      show ops.foldl _ ((some s).bind fun t => t.insert op.1 op.2.1 op.2.2) = some s'
      rw [show ((some s).bind fun t => t.insert op.1 op.2.1 op.2.2)
          = s.insert op.1 op.2.1 op.2.2 from rfl, hins]
      exact hrun
    · rw [hent', hent1, List.foldl_cons]

/-! # Claim C7 -/

/-- C7: for every sequence of `SkipList::insert` calls (with every drawn
height in `[1, MAX_HEIGHT]`), the iterator yields keys in strictly ascending
lexicographic order, `get k` returns the value of the most recent insert with
key `k` (and `None` for a key never inserted), and `len` equals the number of
distinct keys inserted — overwriting never changes it. -/
theorem skiplist_insert_get_iter_len_correct
    (ops : List (Bytes × Bytes × Nat))
    (hh : ∀ op ∈ ops, 1 ≤ op.2.2 ∧ op.2.2 ≤ MAX_HEIGHT) :
    ∃ s' entries, SkipList.new.insertSeq ops = some s' ∧
      s'.toList = some entries ∧
      (entries.map Prod.fst).Pairwise (fun a b => lexLt a b = true) ∧
      (∀ k, s'.get k = some (lastValue ops k)) ∧
      s'.len = ((ops.map (fun op => op.1)).toFinset).card := by
  obtain ⟨s', ch', hrun, hinv, hent⟩ := insertSeq_ok SkipInv_new ops hh
  have hent' : s'.entriesOf ch' = specFold ops := hent
  have hsorted : ((s'.entriesOf ch').map Prod.fst).Pairwise
      (fun a b => lexLt a b = true) := by
    unfold SkipList.entriesOf
    rw [List.map_map]
    exact List.pairwise_map.mpr hinv.sorted0
  refine ⟨s', s'.entriesOf ch', hrun, toList_ok hinv, hsorted, ?_, ?_⟩
  · intro k
    rw [get_ok hinv k, hent', lookup_specFold]
  · have hnd : ((s'.entriesOf ch').map Prod.fst).Nodup :=
      hsorted.imp fun hab => lexLt_ne hab
    have hcard := List.toFinset_card_of_nodup hnd
    have hfin : ((s'.entriesOf ch').map Prod.fst).toFinset
        = ((ops.map (fun op => op.1)).toFinset) := by
      rw [hent']
      have hk := foldl_keys ops []
      unfold specFold
      rw [hk]
      simp
    rw [hinv.lenEq]
    have hlm : (ch' 0).length = ((s'.entriesOf ch').map Prod.fst).length := by
      unfold SkipList.entriesOf
      rw [List.length_map, List.length_map]
    rw [hlm, ← hcard, hfin]

/-- Witness for C7: inserting `[98]`, `[97]` and overwriting `[98]`. -/
theorem skiplist_insert_get_iter_len_witness :
    (∀ op ∈ ([([98], [1], 1), ([97], [2], 2), ([98], [3], 1)] :
        List (Bytes × Bytes × Nat)), 1 ≤ op.2.2 ∧ op.2.2 ≤ MAX_HEIGHT) ∧
    (∃ s' entries,
      SkipList.new.insertSeq
        [([98], [1], 1), ([97], [2], 2), ([98], [3], 1)] = some s' ∧
      s'.toList = some entries ∧
      (entries.map Prod.fst).Pairwise (fun a b => lexLt a b = true) ∧
      (∀ k, s'.get k = some (lastValue
        [([98], [1], 1), ([97], [2], 2), ([98], [3], 1)] k)) ∧
      s'.len = (([([98], [1], 1), ([97], [2], 2), ([98], [3], 1)].map
        (fun op => op.1)).toFinset).card) :=
  ⟨by decide, skiplist_insert_get_iter_len_correct
    [([98], [1], 1), ([97], [2], 2), ([98], [3], 1)] (by decide)⟩

/-! # Claim C3 -/

/-- C3: `put(k, v)`, `freeze()`, `delete(k)` leaves `get(k) = Some(v)`: the
tombstone written into the fresh active memtable reads as absent, so the
manager falls through to the immutable memtable holding the old value. -/
theorem tombstone_does_not_shadow_immutable
    (mgr : MemTableManager) (ch : Nat → List Nat)
    (inv : SkipInv mgr.active.data ch)
    (k v : Bytes) (hv : v ≠ []) (h1 h2 : Nat)
    (hb1 : 1 ≤ h1) (hb1' : h1 ≤ MAX_HEIGHT)
    (hb2 : 1 ≤ h2) (hb2' : h2 ≤ MAX_HEIGHT) :
    ∃ m1 m2, mgr.put k v h1 = some m1 ∧
      (m1.freeze).delete k h2 = some m2 ∧
      m2.get k = some (some v) := by
  obtain ⟨s1, ch1, hins1, hinv1, hent1⟩ := insert_ok inv k v hb1 hb1'
  obtain ⟨s2, ch2, hins2, hinv2, hent2⟩ := insert_ok SkipInv_new k [] hb2 hb2'
  refine ⟨{ mgr with active := { mgr.active with data := s1 } },
    { mgr with
        active := ⟨s2, mgr.size_limit⟩,
        immutable := some { mgr.active with data := s1 } }, ?_, ?_, ?_⟩
  · unfold MemTableManager.put MemTable.put
    rw [hins1]
    rfl
  · unfold MemTableManager.freeze MemTableManager.delete MemTable.delete
      MemTable.new
    dsimp only
    rw [hins2]
    rfl
  · unfold MemTableManager.get MemTable.get
    dsimp only
    rw [get_ok hinv2 k, hent2]
    rw [show SkipList.new.entriesOf (fun _ => []) = [] from rfl]
    rw [show specInsert [] k [] = [(k, [])] from rfl]
    rw [show lookupSpec [(k, [])] k = some [] by
      unfold lookupSpec
      rw [if_pos rfl]]
    dsimp only
    rw [if_pos rfl]
    rw [get_ok hinv1 k, hent1, specInsert_lookup, if_pos rfl]
    dsimp only
    rw [if_neg hv]

/-- Witness for C3 on a fresh manager. -/
theorem tombstone_does_not_shadow_immutable_witness :
    ∃ m1 m2, (MemTableManager.new 100).put [7] [1] 1 = some m1 ∧
      (m1.freeze).delete [7] 1 = some m2 ∧
      m2.get [7] = some (some [1]) :=
  tombstone_does_not_shadow_immutable (MemTableManager.new 100) (fun _ => [])
    SkipInv_new [7] [1] (by decide) 1 1 (by decide) (by decide) (by decide)
    (by decide)

/-! # Claim C2 -/

/-- C2 counterexample: freezing a manager whose immutable slot is occupied
does not fail and does not leave the slots unchanged — the occupied immutable
memtable is overwritten by the active one. -/
theorem freeze_overwrites_occupied_immutable :
    (MemTableManager.freeze
        ⟨MemTable.new 7, some (MemTable.new 9), 7⟩).immutable
      = some (MemTable.new 7) ∧
    (MemTableManager.freeze
        ⟨MemTable.new 7, some (MemTable.new 9), 7⟩).immutable
      ≠ some (MemTable.new 9) := by
  constructor
  · rfl
  · intro hcon
    have : MemTable.new 7 = MemTable.new 9 := Option.some.inj hcon
    have h7 : (MemTable.new 7).size_limit = (MemTable.new 9).size_limit := by
      rw [this]
    exact absurd h7 (by decide)

/-- C2 amended: `freeze` never fails; it unconditionally installs a fresh
empty active memtable and moves the previous active into the immutable slot,
discarding whatever the immutable slot held. -/
theorem freeze_unconditional (mgr : MemTableManager) :
    (mgr.freeze).active = MemTable.new mgr.size_limit ∧
    (mgr.freeze).immutable = some mgr.active ∧
    (mgr.freeze).size_limit = mgr.size_limit :=
  ⟨rfl, rfl, rfl⟩

/-! # Claim C8 -/

/-- C8: `SkipList::size_bytes` is `todo!()` in the source — every call
panics instead of returning the tracked byte total, so `MemTable::size` and
`MemTable::is_full` panic as well; no tracked value exists. -/
theorem size_bytes_always_panics (m : MemTable) :
    m.data.size_bytes = none ∧ m.size = none ∧ m.isFull = none :=
  ⟨rfl, rfl, rfl⟩

/-! # Claim C9 -/

/-- C9 counterexample: adding key `[97]` after key `[98]` — out of sorted
order — is silently accepted by `BlockBuilder::add`, which performs no
ordering check, does not panic, and returns `true`. -/
theorem block_add_out_of_order_accepted :
    ((BlockBuilder.new 4096).add [98] [1]).1 = true ∧
    (((BlockBuilder.new 4096).add [98] [1]).2.add [97] [2]).1 = true := by
  decide

/-- C9 amended: `BlockBuilder::add` checks only the size: whenever the new
entry fits in the target block size it returns `true` and appends the entry,
for any key whatsoever — in particular for keys smaller than previously
added ones; no panic and no ordering check exist. -/
theorem block_add_accepts_any_fitting_key (b : BlockBuilder) (key value : Bytes)
    (hroom : b.estimated_size + (2 + 2 + key.length + value.length) ≤
      b.block_size) :
    (b.add key value).1 = true := by
  unfold BlockBuilder.add
  dsimp only
  rw [show decide (b.block_size <
      b.estimated_size + (2 + 2 + key.length + value.length)) = false from
    decide_eq_false (Nat.not_lt.mpr hroom)]
  rw [Bool.and_false]
  rfl

/-- Witness for the amended C9: the out-of-order second key fits and is
accepted. -/
theorem block_add_accepts_any_fitting_key_witness :
    (((BlockBuilder.new 4096).add [98] [1]).2.estimated_size +
        (2 + 2 + ([97] : Bytes).length + ([2] : Bytes).length) ≤
      ((BlockBuilder.new 4096).add [98] [1]).2.block_size) ∧
    ((((BlockBuilder.new 4096).add [98] [1]).2.add [97] [2]).1 = true) :=
  ⟨by decide, block_add_accepts_any_fitting_key
    ((BlockBuilder.new 4096).add [98] [1]).2 [97] [2] (by decide)⟩

/-! # Bloom filter lemmas -/

theorem check_word_eq_testBit (w b : Nat) :
    ((w >>> b) &&& 1 == 1) = Nat.testBit w b := by
  rw [Nat.and_one_is_mod, Nat.testBit_to_div_mod, ← Nat.shiftRight_eq_div_pow]
  rcases Nat.mod_two_eq_zero_or_one (w >>> b) with hm | hm <;> rw [hm] <;> rfl

theorem pos_div_lt {bf : BloomFilter} (wf : BloomWF bf) {pos : Nat}
    (hp : pos < bf.num_bits) : pos / 64 < bf.bits.length := by
  rw [wf.1]
  omega

theorem get_position_lt {bf : BloomFilter} (wf : BloomWF bf) (h1 h2 i : Nat) :
    bf.get_position h1 h2 i < bf.num_bits :=
  Nat.mod_lt _ (by have := wf.2; omega)

theorem get_position_congr {bf bf' : BloomFilter} (hnb : bf'.num_bits = bf.num_bits)
    (h1 h2 i : Nat) : bf'.get_position h1 h2 i = bf.get_position h1 h2 i := by
  unfold BloomFilter.get_position
  rw [hnb]

theorem check_bit_eq {bf : BloomFilter} (wf : BloomWF bf) {pos : Nat}
    (hp : pos < bf.num_bits) : bf.check_bit pos = some (bf.bitGet pos) := by
  have hlt := pos_div_lt wf hp
  unfold BloomFilter.check_bit BloomFilter.bitGet
  rw [show bf.bits.get? (pos / 64) = some (bf.bits.getD (pos / 64) 0) by
    rw [List.get?_eq_getElem?, List.getD_eq_getElem?_getD,
      List.getElem?_eq_getElem hlt]
    rfl]
  dsimp only
  rw [check_word_eq_testBit]

theorem set_bit_ok_bloom {bf : BloomFilter} (wf : BloomWF bf) {pos : Nat}
    (hp : pos < bf.num_bits) :
    ∃ bf', bf.set_bit pos = some bf' ∧ BloomWF bf' ∧
      bf'.num_bits = bf.num_bits ∧ bf'.num_hashes = bf.num_hashes ∧
      bf'.bitGet pos = true ∧
      (∀ q, bf.bitGet q = true → bf'.bitGet q = true) := by
  have hlt := pos_div_lt wf hp
  have hw : bf.bits.get? (pos / 64) = some (bf.bits.getD (pos / 64) 0) := by
    rw [List.get?_eq_getElem?, List.getD_eq_getElem?_getD,
      List.getElem?_eq_getElem hlt]
    rfl
  refine ⟨{ bf with bits := bf.bits.set (pos / 64) ((bf.bits.getD (pos / 64) 0) ||| 1 <<< (pos % 64)) }, ?_, ⟨?_, wf.2⟩, rfl, rfl, ?_, ?_⟩
  · unfold BloomFilter.set_bit
    rw [hw]
  · show (bf.bits.set _ _).length = _
    rw [List.length_set]
    exact wf.1
  · unfold BloomFilter.bitGet
    rw [show (bf.bits.set (pos / 64) ((bf.bits.getD (pos / 64) 0) ||| 1 <<< (pos % 64))).getD (pos / 64) 0 = (bf.bits.getD (pos / 64) 0) ||| 1 <<< (pos % 64) from getD_set_self hlt]
    simp [Nat.testBit_or, Nat.testBit_shiftLeft, Nat.testBit_one_zero]
  · intro q hq
    unfold BloomFilter.bitGet at hq ⊢
    by_cases hsame : q / 64 = pos / 64
    · rw [hsame, show (bf.bits.set (pos / 64) ((bf.bits.getD (pos / 64) 0) ||| 1 <<< (pos % 64))).getD (pos / 64) 0 = (bf.bits.getD (pos / 64) 0) ||| 1 <<< (pos % 64) from getD_set_self hlt]
      rw [Nat.testBit_or]
      rw [hsame] at hq
      rw [hq]
      rfl
    · rw [show (bf.bits.set (pos / 64) ((bf.bits.getD (pos / 64) 0) ||| 1 <<< (pos % 64))).getD (q / 64) 0 = bf.bits.getD (q / 64) 0 from getD_set_ne (fun hh => hsame hh.symm)]
      exact hq

theorem insert_ok_bloom {bf : BloomFilter} (wf : BloomWF bf) (h1 h2 : Nat) :
    ∃ bf', bf.insert h1 h2 = some bf' ∧ BloomWF bf' ∧
      bf'.num_bits = bf.num_bits ∧ bf'.num_hashes = bf.num_hashes ∧
      (∀ q, bf.bitGet q = true → bf'.bitGet q = true) ∧
      (∀ i, i < bf.num_hashes → bf'.bitGet (bf.get_position h1 h2 i) = true) := by
  have main : ∀ n, ∃ bf',
      (List.range n).foldl
        (fun acc i => acc.bind fun b => b.set_bit (b.get_position h1 h2 i))
        (some bf) = some bf' ∧ BloomWF bf' ∧
      bf'.num_bits = bf.num_bits ∧ bf'.num_hashes = bf.num_hashes ∧
      (∀ q, bf.bitGet q = true → bf'.bitGet q = true) ∧
      (∀ i, i < n → bf'.bitGet (bf.get_position h1 h2 i) = true) := by
    intro n
    induction n with
    | zero =>
      exact ⟨bf, rfl, wf, rfl, rfl, fun _ hq => hq,
        fun i hi => absurd hi (Nat.not_lt_zero i)⟩
    | succ n ih =>
      obtain ⟨bfn, hrun, wfn, hnb, hnh, hmono, hset⟩ := ih
      have hposn : bfn.get_position h1 h2 n = bf.get_position h1 h2 n :=
        get_position_congr hnb h1 h2 n
      obtain ⟨bf', hstep, wf', hnb', hnh', hbit', hmono'⟩ :=
        @set_bit_ok_bloom bfn wfn (bfn.get_position h1 h2 n)
          (get_position_lt wfn h1 h2 n)
      refine ⟨bf', ?_, wf', by rw [hnb', hnb], by rw [hnh', hnh], ?_, ?_⟩
      · rw [List.range_succ, List.foldl_append, hrun]
        show ((some bfn).bind fun b => b.set_bit (b.get_position h1 h2 n)) = _
        rw [show ((some bfn).bind fun b => b.set_bit (b.get_position h1 h2 n))
          = bfn.set_bit (bfn.get_position h1 h2 n) from rfl]
        exact hstep
      · intro q hq
        exact hmono' q (hmono q hq)
      · intro i hi
        by_cases hin : i < n
        · exact hmono' _ (hset i hin)
        · have hie : i = n := by omega
          subst hie
          rw [← hposn]
          exact hbit'
  obtain ⟨bf', hrun, wf', hnb, hnh, hmono, hset⟩ := main bf.num_hashes
  exact ⟨bf', hrun, wf', hnb, hnh, hmono, hset⟩

theorem may_contain_true {bf : BloomFilter} (wf : BloomWF bf) (h1 h2 : Nat)
    (hset : ∀ i, i < bf.num_hashes →
      bf.bitGet (bf.get_position h1 h2 i) = true) :
    bf.may_contain h1 h2 = some true := by
  have main : ∀ n, n ≤ bf.num_hashes →
      (List.range n).foldl
        (fun acc i => acc.bind fun r =>
          if r then bf.check_bit (bf.get_position h1 h2 i) else some false)
        (some true) = some true := by
    intro n
    induction n with
    | zero => intro _; rfl
    | succ n ih =>
      intro hn
      rw [List.range_succ, List.foldl_append, ih (by omega)]
      show ((some true).bind fun r =>
          if r then bf.check_bit (bf.get_position h1 h2 n) else some false)
        = some true
      rw [show ((some true).bind fun r =>
          if r then bf.check_bit (bf.get_position h1 h2 n) else some false)
        = bf.check_bit (bf.get_position h1 h2 n) from rfl]
      rw [check_bit_eq wf (get_position_lt wf h1 h2 n), hset n (by omega)]
  exact main bf.num_hashes (le_refl _)

theorem insertAll_ok_bloom :
    ∀ (hs : List (Nat × Nat)) (bf : BloomFilter), BloomWF bf →
      ∃ bf', bf.insertAll hs = some bf' ∧ BloomWF bf' ∧
        bf'.num_bits = bf.num_bits ∧ bf'.num_hashes = bf.num_hashes ∧
        (∀ q, bf.bitGet q = true → bf'.bitGet q = true) := by
  intro hs
  induction hs with
  | nil =>
    intro bf wf
    exact ⟨bf, rfl, wf, rfl, rfl, fun _ hq => hq⟩
  | cons p hs ih =>
    intro bf wf
    obtain ⟨bf1, hins, wf1, hnb1, hnh1, hmono1, _⟩ := insert_ok_bloom wf p.1 p.2
    obtain ⟨bf', hrun, wf', hnb', hnh', hmono'⟩ := ih bf1 wf1
    refine ⟨bf', ?_, wf', by rw [hnb', hnb1], by rw [hnh', hnh1], ?_⟩
    · unfold BloomFilter.insertAll
      rw [List.foldl_cons]
      show hs.foldl _ ((some bf).bind fun b => b.insert p.1 p.2) = some bf'
      rw [show ((some bf).bind fun b => b.insert p.1 p.2) = bf.insert p.1 p.2
        from rfl, hins]
      exact hrun
    · intro q hq
      exact hmono' q (hmono1 q hq)

theorem BloomWF_new (rawBits rawHashes : Nat) :
    BloomWF (BloomFilter.new rawBits rawHashes) := by
  constructor
  · show (List.replicate ((max rawBits 64 + 63) / 64) 0).length
      = (max rawBits 64 + 63) / 64
    exact List.length_replicate _ _
  · show 1 ≤ max rawBits 64
    omega

/-! # Claim C10 -/

/-- C10: a Bloom filter built by `new` (the float-derived u32 sizing values
passed as `rawBits`, `rawHashes`; the clamps `max 64` / `max 1` applied as in
the source) has no false negatives: after inserting a key (its split
`xxh3_128` hash is the pair `(h1, h2)`) and then any further keys,
`may_contain` on the first key returns `true` — `insert` only sets bits and
nothing ever clears one. -/
theorem bloom_no_false_negatives (rawBits rawHashes h1 h2 : Nat)
    (others : List (Nat × Nat)) :
    ∃ bf1 bf2,
      (BloomFilter.new rawBits rawHashes).insert h1 h2 = some bf1 ∧
      bf1.insertAll others = some bf2 ∧
      bf2.may_contain h1 h2 = some true := by
  obtain ⟨bf1, hins, wf1, hnb1, hnh1, _, hset1⟩ :=
    insert_ok_bloom (BloomWF_new rawBits rawHashes) h1 h2
  obtain ⟨bf2, hall, wf2, hnb2, hnh2, hmono2⟩ := insertAll_ok_bloom others bf1 wf1
  refine ⟨bf1, bf2, hins, hall, ?_⟩
  refine may_contain_true wf2 h1 h2 ?_
  intro i hi
  have hpos : bf2.get_position h1 h2 i
      = (BloomFilter.new rawBits rawHashes).get_position h1 h2 i :=
    get_position_congr (hnb2.trans hnb1) h1 h2 i
  rw [hpos]
  refine hmono2 _ ?_
  refine hset1 i ?_
  rw [hnh2, hnh1] at hi
  exact hi

/-! # Claim C1 -/

/-- C1: building an SSTable from the sorted single-pair input
`([97], [118])` and finishing it yields metadata with the correct
`min_key`/`max_key`/`entry_count`, and reopening the produced bytes
succeeds — but `get` on the written key returns `Ok(None)`, not
`Ok(Some(value))`: `finish` writes `meta_block_size = 0`, `open` then
builds the placeholder metadata with `max_key = []`, and the range check
`key > max_key` in `get` rejects every non-empty key.  The reopened table
loses every written entry, contradicting the claimed round-trip (and
`tests/sstable_reader_tests.rs`). -/
theorem sstable_reopen_loses_written_keys :
    (((SSTableBuilder.new 1 4096).add [97] [118]).bind fun b1 =>
      b1.finish.bind fun fm =>
        (SSTable.openBytes fm.1).bind fun r =>
          match r with
          | .ok t =>
            (t.get [97]).bind fun g =>
              match g with
              | .ok v => some (fm.2.min_key, fm.2.max_key, fm.2.entry_count, v)
              | .error _ => none
          | .error _ => none)
    = some ([97], [97], 1, none) := by
  decide

/-! # CRC-32 injectivity -/

theorem xor_left_cancel_nat {a b c : Nat} (h : a ^^^ b = a ^^^ c) : b = c := by
  have := congrArg (fun x => a ^^^ x) h
  simpa [← Nat.xor_assoc, Nat.xor_self, Nat.zero_xor] using this

theorem xor_right_cancel_nat {a b c : Nat} (h : b ^^^ a = c ^^^ a) : b = c := by
  have := congrArg (fun x => x ^^^ a) h
  simpa [Nat.xor_assoc, Nat.xor_self, Nat.xor_zero] using this

theorem crcBit_inj {s1 s2 : Nat} (h1 : s1 < 2 ^ 32) (h2 : s2 < 2 ^ 32)
    (he : crcBit s1 = crcBit s2) : s1 = s2 := by
  unfold crcBit at he
  have hd1 : s1 / 2 < 2 ^ 31 := by omega
  have hd2 : s2 / 2 < 2 ^ 31 := by omega
  rcases Nat.mod_two_eq_zero_or_one s1 with hp1 | hp1 <;>
    rcases Nat.mod_two_eq_zero_or_one s2 with hp2 | hp2
  · have he' : s1 / 2 = s2 / 2 := by simpa [hp1, hp2] using he
    omega
  · exfalso
    have he' : s1 / 2 = s2 / 2 ^^^ 0xEDB88320 := by simpa [hp1, hp2] using he
    have hb1 : Nat.testBit (s1 / 2) 31 = false := Nat.testBit_lt_two_pow hd1
    have hb2 : Nat.testBit (s2 / 2 ^^^ 0xEDB88320) 31 = true := by
      rw [Nat.testBit_xor, Nat.testBit_lt_two_pow hd2]
      rfl
    rw [he', hb2] at hb1
    exact Bool.noConfusion hb1
  · exfalso
    have he' : s1 / 2 ^^^ 0xEDB88320 = s2 / 2 := by simpa [hp1, hp2] using he
    have hb1 : Nat.testBit (s2 / 2) 31 = false := Nat.testBit_lt_two_pow hd2
    have hb2 : Nat.testBit (s1 / 2 ^^^ 0xEDB88320) 31 = true := by
      rw [Nat.testBit_xor, Nat.testBit_lt_two_pow hd1]
      rfl
    rw [← he', hb2] at hb1
    exact Bool.noConfusion hb1
  · have he' : s1 / 2 ^^^ 0xEDB88320 = s2 / 2 ^^^ 0xEDB88320 := by
      simpa [hp1, hp2] using he
    have := xor_right_cancel_nat he'
    omega

theorem crcIter_inj : ∀ (n : Nat) {s1 s2 : Nat}, s1 < 2 ^ 32 → s2 < 2 ^ 32 →
    crcBit^[n] s1 = crcBit^[n] s2 → s1 = s2 := by
  intro n
  induction n with
  | zero =>
    intro s1 s2 _ _ he
    simpa using he
  | succ n ih =>
    intro s1 s2 h1 h2 he
    rw [Function.iterate_succ_apply, Function.iterate_succ_apply] at he
    exact crcBit_inj h1 h2 (ih (crcBit_lt s1 h1) (crcBit_lt s2 h2) he)

theorem crcByte_inj_byte {s b1 b2 : Nat} (hs : s < 2 ^ 32)
    (hb1 : b1 < 256) (hb2 : b2 < 256) (hne : b1 ≠ b2) :
    crcByte s b1 ≠ crcByte s b2 := by
  intro he
  unfold crcByte at he
  rw [Nat.mod_eq_of_lt hb1, Nat.mod_eq_of_lt hb2] at he
  have hx1 : s ^^^ b1 < 2 ^ 32 := Nat.xor_lt_two_pow hs (by omega)
  have hx2 : s ^^^ b2 < 2 ^ 32 := Nat.xor_lt_two_pow hs (by omega)
  exact hne (xor_left_cancel_nat (crcIter_inj 8 hx1 hx2 he))

theorem crcByte_inj_state {s1 s2 b : Nat} (h1 : s1 < 2 ^ 32) (h2 : s2 < 2 ^ 32)
    (hne : s1 ≠ s2) : crcByte s1 b ≠ crcByte s2 b := by
  intro he
  unfold crcByte at he
  have hx1 : s1 ^^^ b % 256 < 2 ^ 32 := Nat.xor_lt_two_pow h1 (by omega)
  have hx2 : s2 ^^^ b % 256 < 2 ^ 32 := Nat.xor_lt_two_pow h2 (by omega)
  exact hne (xor_right_cancel_nat (crcIter_inj 8 hx1 hx2 he))

theorem crcFold_ne : ∀ (l : Bytes) {s1 s2 : Nat}, s1 < 2 ^ 32 → s2 < 2 ^ 32 →
    s1 ≠ s2 → l.foldl crcByte s1 ≠ l.foldl crcByte s2 := by
  intro l
  induction l with
  | nil =>
    intro s1 s2 _ _ hne
    simpa using hne
  | cons b l ih =>
    intro s1 s2 h1 h2 hne
    rw [List.foldl_cons, List.foldl_cons]
    exact ih (crcByte_lt s1 b h1) (crcByte_lt s2 b h2)
      (crcByte_inj_state h1 h2 hne)

/-- CRC-32 distinguishes buffers differing in exactly one byte. -/
theorem crc32_single_byte_ne (u w : Bytes) {b1 b2 : Nat}
    (hb1 : b1 < 256) (hb2 : b2 < 256) (hne : b1 ≠ b2) :
    crc32 (u ++ b1 :: w) ≠ crc32 (u ++ b2 :: w) := by
  intro he
  unfold crc32 at he
  have he' := xor_right_cancel_nat he
  rw [List.foldl_append, List.foldl_append, List.foldl_cons, List.foldl_cons]
    at he'
  have hs : u.foldl crcByte 0xFFFFFFFF < 2 ^ 32 :=
    crcFold_lt u 0xFFFFFFFF (by omega)
  exact crcFold_ne w (crcByte_lt _ b1 hs) (crcByte_lt _ b2 hs)
    (crcByte_inj_byte hs hb1 hb2 hne) he'

/-! # Byte-bound lemmas for encoded records -/

theorem le32_mem_lt (n : Nat) : ∀ b ∈ le32 n, b < 256 := by
  intro b hb
  unfold le32 at hb
  simp only [List.mem_cons, List.not_mem_nil, or_false] at hb
  rcases hb with h | h | h | h <;> omega

theorem encode_mem_lt {r : WALRecord} (hb : r.byteWf) :
    ∀ b ∈ r.encode, b < 256 := by
  intro b hmem
  have htb : r.record_type.toByte < 256 := by
    cases r.record_type <;> decide
  unfold WALRecord.encode WALRecord.payloadBytes at hmem
  simp only [List.append_assoc, List.mem_append, List.mem_cons,
    List.not_mem_nil, or_false, List.mem_singleton] at hmem
  rcases hmem with h | h | h | h | h | h
  · exact le32_mem_lt _ b h
  · exact le32_mem_lt _ b h
  · rw [h]
    exact htb
  · exact le32_mem_lt _ b h
  · exact hb.1 b h
  · exact hb.2 b h

theorem getD_lt_of_bytes {d : Bytes} (h : ∀ b ∈ d, b < 256) (i : Nat) :
    d.getD i 0 < 256 := by
  rw [List.getD_eq_getElem?_getD]
  cases he : d[i]? with
  | none => simp
  | some x =>
    simp only [Option.getD_some]
    exact h x (List.getElem?_mem he)

theorem readLE32_lt_of_bytes {d : Bytes} (h : ∀ b ∈ d, b < 256) (off : Nat) :
    readLE32 d off < 2 ^ 32 := by
  unfold readLE32
  have h0 := getD_lt_of_bytes h off
  have h1 := getD_lt_of_bytes h (off + 1)
  have h2 := getD_lt_of_bytes h (off + 2)
  have h3 := getD_lt_of_bytes h (off + 3)
  omega

theorem readLE32_le32_set_ne (n : Nat) (rest : Bytes) {j x : Nat} (hj : j < 4)
    (hx : x ≠ (le32 n).getD j 0) (hxlt : x < 256) :
    readLE32 ((le32 n).set j x ++ rest) 0 ≠ n % 2 ^ 32 := by
  intro heq
  unfold le32 at hx
  unfold le32 at heq
  interval_cases j <;>
    (simp only [List.getD_cons_zero, List.getD_cons_succ] at hx
     simp only [List.set_cons_zero, List.set_cons_succ, List.cons_append] at heq
     unfold readLE32 at heq
     simp only [List.getD_cons_zero, List.getD_cons_succ] at heq
     exact hx (by omega))

/-! # Decode reduction helpers -/

theorem byteSlice_length (d : Bytes) (a b : Nat) :
    (byteSlice d a b).length = min (b - a) (d.length - a) := by
  unfold byteSlice
  rw [List.length_take, List.length_drop]

theorem WALRecord.decode_crc_err (data : Bytes) (h13 : ¬ data.length < 13)
    (htot : ¬ data.length < 4 + 4 + readLE32 data 4)
    (hcrc : readLE32 data 0 ≠
      crc32 (byteSlice data 4 (4 + 4 + readLE32 data 4))) :
    WALRecord.decode data = .error (.corruption "CRC mismatch") := by
  unfold WALRecord.decode
  rw [if_neg h13]
  dsimp only
  rw [if_neg htot]
  rw [if_pos hcrc]

theorem WALRecord.decode_trunc_err (data : Bytes) (h13 : ¬ data.length < 13)
    (htot : data.length < 4 + 4 + readLE32 data 4) :
    WALRecord.decode data = .error (.corruption "record truncated") := by
  unfold WALRecord.decode
  rw [if_neg h13]
  dsimp only
  rw [if_pos htot]

theorem WALRecord.payloadBytes_eq (r : WALRecord) :
    r.payloadBytes = le32 r.payloadLen ++
      ([r.record_type.toByte] ++ (le32 r.key.length ++ (r.key ++ r.value))) := by
  unfold WALRecord.payloadBytes
  simp [List.append_assoc]

theorem payload_mem_lt {r : WALRecord} (hb : r.byteWf) :
    ∀ c ∈ r.payloadBytes, c < 256 := fun c hc =>
  encode_mem_lt hb c (by
    unfold WALRecord.encode
    exact List.mem_append.mpr (Or.inr hc))

theorem WALRecord.payloadBytes_len (r : WALRecord) :
    r.payloadBytes.length = 4 + r.payloadLen := by
  rw [WALRecord.payloadBytes_length]
  unfold WALRecord.payloadLen
  omega

theorem WALRecord.encode_len8 (r : WALRecord) :
    r.encode.length = 8 + r.payloadLen := by
  rw [WALRecord.encode_length]
  unfold WALRecord.encodedSize WALRecord.payloadLen
  omega

theorem WALRecord.payloadLen_lt (r : WALRecord) (hwf : r.sizeWf) :
    r.payloadLen < 2 ^ 32 := by
  unfold WALRecord.sizeWf at hwf
  unfold WALRecord.payloadLen
  omega

theorem WALRecord.payloadLen_ge5 (r : WALRecord) : 5 ≤ r.payloadLen := by
  unfold WALRecord.payloadLen
  omega

/-! # Single-bit corruption: flipped byte in the stored CRC -/

theorem decode_flip_crc_field (r : WALRecord) (hwf : r.sizeWf)
    (hbw : r.byteWf) {j x : Nat} (hj : j < 4)
    (hx : x ≠ r.encode.getD j 0) (hxlt : x < 256) :
    WALRecord.decode (r.encode.set j x)
      = .error (.corruption "CRC mismatch") := by
  have hE : r.encode = le32 (crc32 r.payloadBytes) ++ r.payloadBytes := rfl
  have hD : r.encode.set j x
      = (le32 (crc32 r.payloadBytes)).set j x ++ r.payloadBytes := by
    rw [hE, List.set_append_left _ _ (by rw [le32_length]; omega)]
  have hxb : x ≠ (le32 (crc32 r.payloadBytes)).getD j 0 := by
    rw [← getD_append_l (le32 (crc32 r.payloadBytes)) r.payloadBytes j 0
      (by rw [le32_length]; omega), ← hE]
    exact hx
  have hlenD : (r.encode.set j x).length = 8 + r.payloadLen := by
    rw [List.length_set, WALRecord.encode_len8]
  have h13 : ¬ (r.encode.set j x).length < 13 := by
    rw [hlenD]
    have := r.payloadLen_ge5
    omega
  have hLlen : ((le32 (crc32 r.payloadBytes)).set j x).length = 4 := by
    rw [List.length_set, le32_length]
  have hra := readLE32_after ((le32 (crc32 r.payloadBytes)).set j x)
    r.payloadBytes
  rw [hLlen] at hra
  have hpl' : readLE32 (r.encode.set j x) 4 = r.payloadLen := by
    rw [hD, hra, WALRecord.payloadBytes_eq, readLE32_le32]
    exact Nat.mod_eq_of_lt (r.payloadLen_lt hwf)
  have htot : ¬ (r.encode.set j x).length <
      4 + 4 + readLE32 (r.encode.set j x) 4 := by
    rw [hpl', hlenD]
    omega
  apply WALRecord.decode_crc_err _ h13 htot
  rw [hpl']
  have hba := byteSlice_after ((le32 (crc32 r.payloadBytes)).set j x)
    r.payloadBytes (4 + r.payloadLen)
  rw [hLlen] at hba
  rw [show 4 + 4 + r.payloadLen = 4 + (4 + r.payloadLen) from by omega, hD, hba]
  rw [show 4 + r.payloadLen = r.payloadBytes.length from
    (WALRecord.payloadBytes_len r).symm]
  rw [List.take_length]
  have hne := readLE32_le32_set_ne (crc32 r.payloadBytes) r.payloadBytes hj hxb
    hxlt
  rw [Nat.mod_eq_of_lt (crc32_lt _)] at hne
  exact hne

/-! # Single-bit corruption: flipped byte in the CRC-covered payload -/

theorem decode_flip_payload (r : WALRecord) (hwf : r.sizeWf) (hbw : r.byteWf)
    {j x : Nat} (hj8 : 8 ≤ j) (hjlt : j < r.encode.length)
    (hx : x ≠ r.encode.getD j 0) (hxlt : x < 256) :
    WALRecord.decode (r.encode.set j x)
      = .error (.corruption "CRC mismatch") := by
  have hE : r.encode = le32 (crc32 r.payloadBytes) ++ r.payloadBytes := rfl
  have hD : r.encode.set j x
      = le32 (crc32 r.payloadBytes) ++ r.payloadBytes.set (j - 4) x := by
    rw [hE, List.set_append_right _ _ (by rw [le32_length]; omega)]
    rw [le32_length]
  have hmP : j - 4 < r.payloadBytes.length := by
    rw [WALRecord.payloadBytes_len]
    rw [WALRecord.encode_len8] at hjlt
    omega
  have hgr := getD_append_r (le32 (crc32 r.payloadBytes)) r.payloadBytes (j - 4) 0
  rw [le32_length, show 4 + (j - 4) = j from by omega, ← hE] at hgr
  have hxb : x ≠ r.payloadBytes.getD (j - 4) 0 := by
    rw [← hgr]
    exact hx
  have hblt : r.payloadBytes.getD (j - 4) 0 < 256 :=
    getD_lt_of_bytes (payload_mem_lt hbw) (j - 4)
  have hlenD : (r.encode.set j x).length = 8 + r.payloadLen := by
    rw [List.length_set, WALRecord.encode_len8]
  have h13 : ¬ (r.encode.set j x).length < 13 := by
    rw [hlenD]
    have := r.payloadLen_ge5
    omega
  have hra := readLE32_after (le32 (crc32 r.payloadBytes))
    (r.payloadBytes.set (j - 4) x)
  rw [le32_length] at hra
  have hPs : r.payloadBytes.set (j - 4) x = le32 r.payloadLen ++
      (([r.record_type.toByte] ++ (le32 r.key.length ++
        (r.key ++ r.value))).set (j - 4 - 4) x) := by
    rw [WALRecord.payloadBytes_eq,
      List.set_append_right _ _ (by rw [le32_length]; omega), le32_length]
  have hpl' : readLE32 (r.encode.set j x) 4 = r.payloadLen := by
    rw [hD, hra, hPs, readLE32_le32]
    exact Nat.mod_eq_of_lt (r.payloadLen_lt hwf)
  have htot : ¬ (r.encode.set j x).length <
      4 + 4 + readLE32 (r.encode.set j x) 4 := by
    rw [hpl', hlenD]
    omega
  apply WALRecord.decode_crc_err _ h13 htot
  rw [hpl']
  have hba := byteSlice_after (le32 (crc32 r.payloadBytes))
    (r.payloadBytes.set (j - 4) x) (4 + r.payloadLen)
  rw [le32_length] at hba
  rw [show 4 + 4 + r.payloadLen = 4 + (4 + r.payloadLen) from by omega, hD, hba]
  rw [show 4 + r.payloadLen = (r.payloadBytes.set (j - 4) x).length from by
    rw [List.length_set, WALRecord.payloadBytes_len]]
  rw [List.take_length, readLE32_le32, Nat.mod_eq_of_lt (crc32_lt _)]
  have hdropP : r.payloadBytes.drop (j - 4)
      = r.payloadBytes.getD (j - 4) 0 :: r.payloadBytes.drop (j - 4 + 1) := by
    rw [show r.payloadBytes.getD (j - 4) 0 = r.payloadBytes[j - 4] from by
      rw [List.getD_eq_getElem?_getD, List.getElem?_eq_getElem hmP]
      rfl]
    exact (List.getElem_cons_drop _ _ hmP).symm
  have hsplitP : r.payloadBytes = r.payloadBytes.take (j - 4) ++
      r.payloadBytes.getD (j - 4) 0 :: r.payloadBytes.drop (j - 4 + 1) := by
    rw [← hdropP, List.take_append_drop]
  have hsetP : r.payloadBytes.set (j - 4) x = r.payloadBytes.take (j - 4) ++
      x :: r.payloadBytes.drop (j - 4 + 1) := by
    conv_lhs => rw [hsplitP]
    rw [List.set_append_right _ _
      (by rw [List.length_take, Nat.min_eq_left (by omega)])]
    rw [List.length_take, Nat.min_eq_left (by omega), Nat.sub_self,
      List.set_cons_zero]
  intro heq
  have hcrcne : crc32 (r.payloadBytes.take (j - 4) ++
        x :: r.payloadBytes.drop (j - 4 + 1)) ≠
      crc32 (r.payloadBytes.take (j - 4) ++
        r.payloadBytes.getD (j - 4) 0 :: r.payloadBytes.drop (j - 4 + 1)) :=
    crc32_single_byte_ne _ _ hxlt hblt hxb
  apply hcrcne
  rw [← hsetP, ← hsplitP]
  exact heq.symm

/-! # Single-bit corruption: flipped byte in the length field -/

theorem decode_flip_len_field (r : WALRecord) (hwf : r.sizeWf) (hbw : r.byteWf)
    {j x : Nat} (h4 : 4 ≤ j) (hj8 : j < 8)
    (hx : x ≠ r.encode.getD j 0) (hxlt : x < 256) :
    WALRecord.decode (r.encode.set j x) ≠ .ok r := by
  have hE : r.encode = le32 (crc32 r.payloadBytes) ++ r.payloadBytes := rfl
  have hD : r.encode.set j x
      = le32 (crc32 r.payloadBytes) ++ r.payloadBytes.set (j - 4) x := by
    rw [hE, List.set_append_right _ _ (by rw [le32_length]; omega)]
    rw [le32_length]
  have hgr := getD_append_r (le32 (crc32 r.payloadBytes)) r.payloadBytes (j - 4) 0
  rw [le32_length, show 4 + (j - 4) = j from by omega, ← hE] at hgr
  have hxb : x ≠ r.payloadBytes.getD (j - 4) 0 := by
    rw [← hgr]
    exact hx
  have hxb' : x ≠ (le32 r.payloadLen).getD (j - 4) 0 := by
    rw [← getD_append_l (le32 r.payloadLen)
      ([r.record_type.toByte] ++ (le32 r.key.length ++ (r.key ++ r.value)))
      (j - 4) 0 (by rw [le32_length]; omega), ← WALRecord.payloadBytes_eq]
    exact hxb
  have hPs : r.payloadBytes.set (j - 4) x = (le32 r.payloadLen).set (j - 4) x ++
      ([r.record_type.toByte] ++ (le32 r.key.length ++ (r.key ++ r.value))) := by
    rw [WALRecord.payloadBytes_eq,
      List.set_append_left _ _ (by rw [le32_length]; omega)]
  have hlenD : (r.encode.set j x).length = 8 + r.payloadLen := by
    rw [List.length_set, WALRecord.encode_len8]
  have h13 : ¬ (r.encode.set j x).length < 13 := by
    rw [hlenD]
    have := r.payloadLen_ge5
    omega
  have hra := readLE32_after (le32 (crc32 r.payloadBytes))
    (r.payloadBytes.set (j - 4) x)
  rw [le32_length] at hra
  have hplne : readLE32 (r.encode.set j x) 4 ≠ r.payloadLen := by
    rw [hD, hra, hPs]
    have := readLE32_le32_set_ne r.payloadLen
      ([r.record_type.toByte] ++ (le32 r.key.length ++ (r.key ++ r.value)))
      (by omega) hxb' hxlt
    rw [Nat.mod_eq_of_lt (r.payloadLen_lt hwf)] at this
    exact this
  have hDbytes : ∀ c ∈ r.encode.set j x, c < 256 := by
    intro c hc
    rcases List.mem_or_eq_of_mem_set hc with hm | he
    · exact encode_mem_lt hbw c hm
    · omega
  have hpllt : readLE32 (r.encode.set j x) 4 < 2 ^ 32 :=
    readLE32_lt_of_bytes hDbytes 4
  rcases Nat.lt_or_ge r.payloadLen (readLE32 (r.encode.set j x) 4) with hgt | hge
  · have htot : (r.encode.set j x).length <
        4 + 4 + readLE32 (r.encode.set j x) 4 := by
      rw [hlenD]
      omega
    rw [WALRecord.decode_trunc_err _ h13 htot]
    exact fun hcon => Except.noConfusion hcon
  · have hlt : readLE32 (r.encode.set j x) 4 < r.payloadLen := by
      omega
    have htot : ¬ (r.encode.set j x).length <
        4 + 4 + readLE32 (r.encode.set j x) 4 := by
      rw [hlenD]
      omega
    intro hcon
    unfold WALRecord.decode at hcon
    rw [if_neg h13] at hcon
    dsimp only at hcon
    rw [if_neg htot] at hcon
    by_cases hcrc : readLE32 (r.encode.set j x) 0 ≠
        crc32 (byteSlice (r.encode.set j x) 4
          (4 + 4 + readLE32 (r.encode.set j x) 4))
    · rw [if_pos hcrc] at hcon
      exact Except.noConfusion hcon
    · rw [if_neg hcrc] at hcon
      cases hft : RecordType.fromByte ((r.encode.set j x).getD 8 0) with
      | error e =>
        rw [hft] at hcon
        exact Except.noConfusion hcon
      | ok rt =>
        rw [hft] at hcon
        dsimp only at hcon
        by_cases hkl : 13 + readLE32 (r.encode.set j x) 9 >
            4 + 4 + readLE32 (r.encode.set j x) 4
        · rw [if_pos hkl] at hcon
          exact Except.noConfusion hcon
        · rw [if_neg hkl] at hcon
          have hrec := Except.ok.inj hcon
          have hkey := congrArg WALRecord.key hrec
          have hval := congrArg WALRecord.value hrec
          dsimp only at hkey hval
          have hk := congrArg List.length hkey
          have hv := congrArg List.length hval
          rw [byteSlice_length, hlenD] at hk
          rw [byteSlice_length, hlenD] at hv
          have hpldef : r.payloadLen = 5 + r.key.length + r.value.length := by
            unfold WALRecord.payloadLen
            omega
          omega

/-! # Claim C6 -/

/-- C6: flipping any single bit of `encode(r)` — for a record whose key and
value are byte strings and whose size fields fit their `u32` casts, true of
every record a real WAL stores — makes `decode` fail or return a record
different from `r`.  A flip in the stored CRC or in the CRC-covered payload
yields a CRC mismatch; a flip in the length field yields a truncation
error, a CRC mismatch, or a record with strictly smaller total key and
value length.  No single-bit corruption passes silently. -/
theorem wal_single_bit_corruption_detected (r : WALRecord) (hwf : r.sizeWf)
    (hbw : r.byteWf) (n : Nat) (hn : n < 8 * r.encodedSize) :
    WALRecord.decode (flipBit r.encode n) ≠ .ok r := by
  have hj : n / 8 < r.encode.length := by
    rw [WALRecord.encode_length]
    omega
  have hblt : r.encode.getD (n / 8) 0 < 256 :=
    getD_lt_of_bytes (encode_mem_lt hbw) (n / 8)
  have hmlt : 1 <<< (n % 8) < 256 := by
    rw [Nat.one_shiftLeft]
    have h8 : n % 8 < 8 := Nat.mod_lt n (by omega)
    calc 2 ^ (n % 8) ≤ 2 ^ 7 := Nat.pow_le_pow_right (by omega) (by omega)
    _ < 256 := by omega
  have hxlt : r.encode.getD (n / 8) 0 ^^^ 1 <<< (n % 8) < 256 :=
    Nat.xor_lt_two_pow (n := 8) hblt hmlt
  have hxne : r.encode.getD (n / 8) 0 ^^^ 1 <<< (n % 8)
      ≠ r.encode.getD (n / 8) 0 := by
    intro he
    have he' : r.encode.getD (n / 8) 0 ^^^ 1 <<< (n % 8)
        = r.encode.getD (n / 8) 0 ^^^ 0 := by
      rw [Nat.xor_zero]
      exact he
    have h0 := xor_left_cancel_nat he'
    rw [Nat.one_shiftLeft] at h0
    exact absurd h0 (Nat.pos_iff_ne_zero.mp (Nat.pos_pow_of_pos _ (by omega)))
  unfold flipBit
  rcases Nat.lt_or_ge (n / 8) 4 with h4 | h4
  · rw [decode_flip_crc_field r hwf hbw h4 hxne hxlt]
    exact fun hcon => Except.noConfusion hcon
  · rcases Nat.lt_or_ge (n / 8) 8 with h8 | h8
    · exact decode_flip_len_field r hwf hbw h4 h8 hxne hxlt
    · rw [decode_flip_payload r hwf hbw h8 hj hxne hxlt]
      exact fun hcon => Except.noConfusion hcon

/-- Witness for C6: bit 0 of the encoded `Put([97], [98])`. -/
theorem wal_single_bit_corruption_witness :
    (WALRecord.mk .put [97] [98]).sizeWf ∧
    ((∀ b ∈ ([97] : Bytes), b < 256) ∧ (∀ b ∈ ([98] : Bytes), b < 256)) ∧
    0 < 8 * (WALRecord.mk .put [97] [98]).encodedSize ∧
    WALRecord.decode (flipBit (WALRecord.mk .put [97] [98]).encode 0) ≠
      .ok (WALRecord.mk .put [97] [98]) :=
  ⟨by decide, ⟨by decide, by decide⟩, by decide,
    wal_single_bit_corruption_detected (WALRecord.mk .put [97] [98]) (by decide)
      ⟨by decide, by decide⟩ 0 (by decide)⟩
